import Mathlib

/-!
# libssplus: collision sorter and hasher program builder

A shallow embedding of `src/libssplus.c`.  Machine words are natural numbers;
every `uint32_t` operation that can wrap is reduced modulo `2^32` explicitly.
The process-wide statics of the C file (`ssp_ht`, `ssp_pair_head`,
`ssp_pair_tail` and the `SORTER_DEBUG` counters) are the fields of one state
record that every operation takes and returns.
-/

namespace SSPlus

/-! ## Data model -/

/-- `struct ssp_point`: a trial value (nonce2) and the hash tail reported for it. -/
structure ssp_point where
  nonce2 : Nat
  tail : Nat
deriving DecidableEq, Repr

/-- `struct ssp_pair_element`: one node of the singly linked pair list.
`next` is the address (index into the element heap) of the following node. -/
structure ssp_pair_element where
  nonce2_0 : Nat
  nonce2_1 : Nat
  next : Nat
deriving DecidableEq, Repr

/-- `struct ssp_hashtable`.  `size` is the occupied counter, `max_size` the
capacity, `limit` the probing limit. -/
structure ssp_hashtable where
  cells : List ssp_point
  size : Nat
  max_size : Nat
  limit : Nat
  c1 : Nat
  c2 : Nat
deriving DecidableEq, Repr

/-- The statics of the sorter.  `heap` is the storage handed out by `cgmalloc`
for pair elements (an address is an index into it); `fresh` is the
indeterminate content of newly allocated memory.  The timing statics
(`ssp_ti`, `ssp_tf`, `insert_time`) only feed log lines and are left out. -/
structure Sorter where
  ssp_ht : ssp_hashtable
  heap : List ssp_pair_element
  fresh : ssp_pair_element
  ssp_pair_head : Nat
  ssp_pair_tail : Nat
  pair_count : Nat
  consumed : Nat
  discarded : Nat
  calls : Nat
  maxnonce : Nat
  ver : Nat
deriving DecidableEq, Repr

/-- Wrap-around of `uint32_t` arithmetic. -/
def u32 (x : Nat) : Nat := x % 2 ^ 32

/-- The all-zero cell, which the table reads as "empty". -/
def empty_cell : ssp_point := ⟨0, 0⟩

/-- Content read through a pointer that addresses no element. -/
def no_element : ssp_pair_element := ⟨0, 0, 0⟩

/-- The emptiness test of `ssp_sorter_insert`:
`cells[key].nonce2 == 0 && cells[key].tail == 0`. -/
def is_empty (c : ssp_point) : Prop := c.nonce2 = 0 ∧ c.tail = 0

instance (c : ssp_point) : Decidable (is_empty c) := by
  unfold is_empty; infer_instance

/-- Read of `ssp_ht->cells[key]`. -/
def cell (ht : ssp_hashtable) (key : Nat) : ssp_point := ht.cells.getD key empty_cell

/-- Read of a pair element through its address. -/
def elem (heap : List ssp_pair_element) (a : Nat) : ssp_pair_element := heap.getD a no_element

/-! ## The sorter -/

/-- The probe index of `ssp_sorter_insert`, line 112:
`(point->tail + ssp_ht->c1 * i + ssp_ht->c2 * i * i) % ssp_ht->max_size`,
every intermediate result being a `uint32_t`. -/
def probe_key (ht : ssp_hashtable) (tail i : Nat) : Nat :=
  u32 (u32 (tail + u32 (ht.c1 * i)) + u32 (u32 (ht.c2 * i) * i)) % ht.max_size

/-- The list append inside the collision branch (lines 123-126): the pair is
written into the current tail element, a new tail element is allocated, linked
behind it and becomes `ssp_pair_tail`. -/
def ssp_pair_append (n0 n1 : Nat) (s : Sorter) : Sorter :=
  { s with
    heap := s.heap.set s.ssp_pair_tail ⟨n0, n1, s.heap.length⟩ ++ [s.fresh]
    ssp_pair_tail := s.heap.length }

/-- The collision branch of `ssp_sorter_insert` (lines 121-137) at index `key`:
the pair `{point->nonce2, cells[key].nonce2}` is appended to the pair list,
`pair_count` is bumped and the cell's `nonce2` is zeroed (the source does so
twice and leaves `tail` and `size` alone). -/
def ssp_sorter_collide (point : ssp_point) (key : Nat) (s : Sorter) : Sorter :=
  let stored := cell s.ssp_ht key
  let s1 := ssp_pair_append point.nonce2 stored.nonce2 s
  { s1 with
    pair_count := u32 (s1.pair_count + 1)
    ssp_ht := { s1.ssp_ht with cells := s1.ssp_ht.cells.set key ⟨0, stored.tail⟩ } }

/-- The insert branch of `ssp_sorter_insert` (lines 114-119) at index `key`. -/
def ssp_sorter_store (point : ssp_point) (key : Nat) (s : Sorter) : Sorter :=
  { s with
    ssp_ht := { s.ssp_ht with
      cells := s.ssp_ht.cells.set key ⟨point.nonce2, point.tail⟩
      size := u32 (s.ssp_ht.size + 1) } }

/-- The probing loop of `ssp_sorter_insert` (lines 111-144).  The first
argument counts the iterations left (`limit - i`), the second is `i`.  Falling
out of the loop is the discard path. -/
def ssp_sorter_insert_loop (point : ssp_point) : Nat → Nat → Sorter → Sorter
  | 0, _, s => { s with discarded := u32 (s.discarded + 1) }
  | n + 1, i, s =>
    let key := probe_key s.ssp_ht point.tail i
    if is_empty (cell s.ssp_ht key) then ssp_sorter_store point key s
    else if (cell s.ssp_ht key).tail = point.tail then ssp_sorter_collide point key s
    else ssp_sorter_insert_loop point n (i + 1) s

/-- `ssp_sorter_insert` (lines 100-147).  The indices are meaningful for
`max_size > 0` and a cell array of `max_size` entries (`table_ok`); the C code
divides by zero or leaves the array otherwise. -/
def ssp_sorter_insert (point : ssp_point) (s : Sorter) : Sorter :=
  ssp_sorter_insert_loop point s.ssp_ht.limit 0 { s with calls := u32 (s.calls + 1) }

/-- `ssp_sorter_init` (lines 149-168): a zeroed table of `max_size` cells and
a pair list made of a head element linked to a tail element.  The debug
counters hold their static initial value 0. -/
def ssp_sorter_init (max_size limit c1 c2 : Nat) (fresh : ssp_pair_element) : Sorter :=
  { ssp_ht :=
      { cells := List.replicate max_size empty_cell
        size := 0, max_size := max_size, limit := limit, c1 := c1, c2 := c2 }
    heap := [{ fresh with next := 1 }, fresh]
    fresh := fresh
    ssp_pair_head := 0
    ssp_pair_tail := 1
    pair_count := 0, consumed := 0, discarded := 0, calls := 0, maxnonce := 0, ver := 0 }

/-- The `memset` of `ssp_sorter_flush`: the first `n` cells are zeroed. -/
def memset_cells : Nat → List ssp_point → List ssp_point
  | 0, cs => cs
  | _ + 1, [] => []
  | n + 1, _ :: cs => empty_cell :: memset_cells n cs

/-- `ssp_sorter_flush` (lines 170-202).  The pair list is not touched. -/
def ssp_sorter_flush (s : Sorter) : Sorter :=
  { s with
    pair_count := 0, consumed := 0, discarded := 0, calls := 0
    ver := u32 (s.ver + 1)
    ssp_ht := { s.ssp_ht with
      size := 0
      cells := memset_cells s.ssp_ht.max_size s.ssp_ht.cells } }

/-- `ssp_sorter_get_pair` (lines 204-225).  `pair` is the caller's output
buffer; the result is the return value, the buffer afterwards and the new
state.  `free(tmp)` releases an element that is no longer linked. -/
def ssp_sorter_get_pair (pair : Nat × Nat) (s : Sorter) : Nat × (Nat × Nat) × Sorter :=
  let hd := elem s.heap s.ssp_pair_head
  if hd.next = s.ssp_pair_tail then (0, pair, s)
  else
    let tmp := elem s.heap hd.next
    (1, (tmp.nonce2_0, tmp.nonce2_1),
      { s with
        heap := s.heap.set s.ssp_pair_head { hd with next := tmp.next }
        consumed := u32 (s.consumed + 1) })

/-! ## Views used by the statements -/

/-- The pairs waiting in the list, oldest first: the payloads of the elements
from `head->next` up to, not including, the tail element. -/
def queue_walk (heap : List ssp_pair_element) (tl : Nat) : Nat → Nat → List (Nat × Nat)
  | 0, _ => []
  | f + 1, a =>
    if a = tl then []
    else ((elem heap a).nonce2_0, (elem heap a).nonce2_1) :: queue_walk heap tl f (elem heap a).next

/-- The pairs waiting in the pair list of a state. -/
def queue_pairs (s : Sorter) : List (Nat × Nat) :=
  queue_walk s.heap s.ssp_pair_tail s.heap.length (elem s.heap s.ssp_pair_head).next

/-- Number of cells that are not the empty sentinel. -/
def occupied (cs : List ssp_point) : Nat := cs.countP (fun c => ¬ is_empty c)

/-- The elements at addresses `as` are linked in this order, starting at
address `a` and ending at the tail element `tl`. -/
def linked (heap : List ssp_pair_element) (tl : Nat) : List Nat → Nat → Prop
  | [], a => a = tl
  | x :: xs, a => a = x ∧ x ≠ tl ∧ x < heap.length ∧ linked heap tl xs (elem heap x).next

/-- Well-formed pair list: head and tail are distinct allocated elements and
the elements between them form a chain that does not pass through the head. -/
def queue_ok (s : Sorter) : Prop :=
  s.ssp_pair_head < s.heap.length ∧ s.ssp_pair_tail < s.heap.length ∧
  s.ssp_pair_head ≠ s.ssp_pair_tail ∧
  ∃ as : List Nat, linked s.heap s.ssp_pair_tail as (elem s.heap s.ssp_pair_head).next ∧
    s.ssp_pair_head ∉ as ∧ as.length + 2 ≤ s.heap.length

/-- Well-formed table: the cell array has `max_size` entries. -/
def table_ok (ht : ssp_hashtable) : Prop := ht.cells.length = ht.max_size

/-- A point that is not the empty sentinel. -/
def non_sentinel (p : ssp_point) : Prop := p.nonce2 ≠ 0 ∨ p.tail ≠ 0

instance (p : ssp_point) : Decidable (non_sentinel p) := by
  unfold non_sentinel; infer_instance

instance (ht : ssp_hashtable) : Decidable (table_ok ht) := by
  unfold table_ok; infer_instance

/-! ## Runs of the sorter -/

/-- One call into the sorter. -/
inductive sorter_call where
  | insert (p : ssp_point)
  | flush
  | get_pair
deriving DecidableEq, Repr

/-- Effect of one call on the state (the output buffer of `get_pair` is dropped). -/
def run_call (s : Sorter) : sorter_call → Sorter
  | .insert p => ssp_sorter_insert p s
  | .flush => ssp_sorter_flush s
  | .get_pair => (ssp_sorter_get_pair (0, 0) s).2.2

/-- Effect of a sequence of calls, first call first. -/
def run_calls (s : Sorter) (cs : List sorter_call) : Sorter := cs.foldl run_call s

/-- How one call changes the record of points inserted since the last flush. -/
def record_call (h : List ssp_point) : sorter_call → List ssp_point
  | .insert p => h ++ [p]
  | .flush => []
  | .get_pair => h

/-- The points passed to `ssp_sorter_insert` after the last flush of a run,
oldest first. -/
def inserted_since_flush (cs : List sorter_call) : List ssp_point := cs.foldl record_call []

/-- All points inserted by a run satisfy `P`. -/
def inserts_all (P : ssp_point → Prop) (cs : List sorter_call) : Prop :=
  ∀ p, sorter_call.insert p ∈ cs → P p

/-! ## Use of the pair list alone -/

/-- The pairs `ps` appended one after the other by the collision branch's
list append. -/
def append_all (s : Sorter) (ps : List (Nat × Nat)) : Sorter :=
  ps.foldl (fun st q => ssp_pair_append q.1 q.2 st) s

/-- Some `n` successive calls of `ssp_sorter_get_pair` sharing one output
buffer: the return value and the buffer after each call, and the final state. -/
def get_pairs : Nat → Nat × Nat → Sorter → List (Nat × (Nat × Nat)) × Sorter
  | 0, _, s => ([], s)
  | n + 1, buf, s =>
    let r := ssp_sorter_get_pair buf s
    let rest := get_pairs n r.2.1 r.2.2
    ((r.1, r.2.1) :: rest.1, rest.2)

/-- One use of the pair list: an append by the collision branch or a dequeue. -/
inductive queue_call where
  | append (n0 n1 : Nat)
  | get_pair
deriving DecidableEq, Repr

/-- An interleaving of appends and dequeues run from state `s`; `got` collects,
in order, the pairs delivered by the dequeues that returned 1. -/
def run_queue (s : Sorter) (got : List (Nat × Nat)) : List queue_call → Sorter × List (Nat × Nat)
  | [] => (s, got)
  | .append n0 n1 :: cs => run_queue (ssp_pair_append n0 n1 s) got cs
  | .get_pair :: cs =>
    let r := ssp_sorter_get_pair (0, 0) s
    run_queue r.2.2 (if r.1 = 1 then got ++ [r.2.1] else got) cs

/-- The pairs appended by an interleaving, in order. -/
def appended : List queue_call → List (Nat × Nat)
  | [] => []
  | .append n0 n1 :: cs => (n0, n1) :: appended cs
  | .get_pair :: cs => appended cs

/-! ## The hasher program builder -/

/-- `INST_DONE`. -/
def INST_DONE : Nat := 0x00040000

/-- `INST_DATA_IRAM`. -/
def INST_DATA_IRAM : Nat := 0x0

/-- `INST_DATA_LASTHASH_PAD`. -/
def INST_DATA_LASTHASH_PAD : Nat := 0x14000000

/-- `INST_DATA_LASTHASH_IRAM`. -/
def INST_DATA_LASTHASH_IRAM : Nat := 0x10000000

/-- `INST_DATA_PAD512`. -/
def INST_DATA_PAD512 : Nat := 0x26000000

/-- `INST_MID_INIT`. -/
def INST_MID_INIT : Nat := 0x0

/-- `INST_MID_LASTHASH`. -/
def INST_MID_LASTHASH : Nat := 0x100000

/-- `NEXT_ADDR(x)`: `(((x) & 0x1ff) << 8)`. -/
def NEXT_ADDR (x : Nat) : Nat := (x &&& 0x1ff) <<< 8

/-- `UNPACK32(x, str)`: the four bytes of a 32-bit word, most significant first. -/
def UNPACK32 (x : Nat) : List Nat :=
  [(x >>> 24) % 256, (x >>> 16) % 256, (x >>> 8) % 256, x % 256]

/-- `struct ssp_hasher_instruction`: an opcode and 64 payload bytes. -/
structure ssp_hasher_instruction where
  opcode : Nat
  data : List Nat
deriving DecidableEq, Repr

/-- Modelled from the spec: `struct pool` is declared in a header that is not
among the sources.  These are the fields `ssp_hasher_update_stratum` reads,
the Work Template of the specification; the lengths and the branch count are
integers, as the `int` locals they are copied to. -/
structure pool where
  coinbase : List Nat
  coinbase_len : Int
  nonce2_offset : Int
  merkles : Int
  merkle_bin : List (List Nat)
deriving DecidableEq, Repr

/-- Modelled from the spec: `sha2.c` is not among the sources.  `h0` is the
state `sha256_init` sets and `transf` the compression of one 64-byte block
into the state, the two pieces of SHA-256 that `sha256_prehash` relies on. -/
structure sha256_ops where
  h0 : List Nat
  transf : List Nat → List Nat → List Nat

/-- The part of `struct ssp_info` the builder touches: the instruction store
as an array of 32-bit words, and the two flags. -/
structure ssp_info where
  iram : Nat → Nat
  stratum_update : Bool
  run : Bool

/-- The locals of `ssp_hasher_update_stratum` together with the instruction
store.  `written` is not C state: it records the calls of
`ssp_haser_fill_iram`, in order, as (index, instruction). -/
structure builder where
  inst : ssp_hasher_instruction
  inst_index : Nat
  iram : Nat → Nat
  written : List (Nat × ssp_hasher_instruction)

/-- `SHA256_BLOCK_SIZE`. -/
def SHA256_BLOCK_SIZE : Nat := 64

/-- Byte `k` of the coinbase buffer. -/
def coinbase_byte (p : pool) (k : Nat) : Nat := p.coinbase.getD k 0

/-- Byte `k` of merkle branch `i`. -/
def merkle_byte (p : pool) (i k : Nat) : Nat := (p.merkle_bin.getD i []).getD k 0

/-- One store into a word array. -/
def iram_write (iram : Nat → Nat) (addr v : Nat) : Nat → Nat :=
  fun x => if x = addr then v else iram x

/-- `memset(data, 0, 64)`. -/
def zero_data : List Nat := List.replicate 64 0

/-- `memcpy(data + off, src, n)`, the source given as a function of the byte
offset. -/
def memcpy (data : List Nat) (off : Nat) (src : Nat → Nat) (n : Nat) : List Nat :=
  (List.range data.length).map
    (fun k => if off ≤ k ∧ k < off + n then src (k - off) else data.getD k 0)

/-- The big-endian word that `ssp_haser_fill_iram` builds from payload bytes
`4i .. 4i+3` (lines 285-288). -/
def data_word (data : List Nat) (i : Nat) : Nat :=
  u32 ((data.getD (i * 4 + 0) 0 <<< 24) ||| (data.getD (i * 4 + 1) 0 <<< 16) |||
    (data.getD (i * 4 + 2) 0 <<< 8) ||| data.getD (i * 4 + 3) 0)

/-- The word loop of `ssp_haser_fill_iram` (lines 284-291), `i` running over
`16 - n .. 15`. -/
def fill_words (data : List Nat) (base : Nat) : Nat → (Nat → Nat) → Nat → Nat
  | 0, iram => iram
  | n + 1, iram => fill_words data base n (iram_write iram (base + (16 - (n + 1)) + 1)
      (data_word data (16 - (n + 1))))

/-- `ssp_haser_fill_iram` (lines 274-294): opcode, sixteen payload words and
the flush marker, at word offset `inst_index * 32`. -/
def ssp_haser_fill_iram (inst : ssp_hasher_instruction) (inst_index : Nat) (iram : Nat → Nat) :
    Nat → Nat :=
  let base := u32 (inst_index * 32)
  let m0 := iram_write iram (base + 0) inst.opcode
  let m1 := fill_words inst.data base 16 m0
  iram_write m1 (base + (16 + 1)) 0x1

/-- `ssp_hasher_stop` (lines 296-300). -/
def ssp_hasher_stop (s : ssp_info) : ssp_info :=
  { s with iram := iram_write s.iram 31 1, run := false }

/-- `ssp_hasher_start` (lines 302-306). -/
def ssp_hasher_start (s : ssp_info) : ssp_info :=
  { s with iram := iram_write s.iram 31 0, run := true }

/-- Modelled from the spec: `sha256_init` and `sha256_update` live in `sha2.c`,
which is not among the sources.  This is the running SHA-256 state they leave
in `ctx.h` for a message of whole 64-byte blocks: the initial state, then one
compression per block in order, no padding. -/
def sha256_blocks (sha : sha256_ops) (message : Nat → Nat) : Nat → List Nat
  | 0 => sha.h0
  | n + 1 => sha.transf (sha256_blocks sha message n)
      ((List.range 64).map (fun k => message (n * 64 + k)))

/-- `sha256_prehash` (lines 351-361) for a length that is a multiple of 64:
the eight state words, each unpacked big-endian. -/
def sha256_prehash (sha : sha256_ops) (message : Nat → Nat) (len : Nat) : List Nat :=
  (List.range 8).flatMap (fun i => UNPACK32 ((sha256_blocks sha message (len / 64)).getD i 0))

/-- The call `ssp_haser_fill_iram(&inst, inst_index)`. -/
def fill (b : builder) : builder :=
  { b with
    iram := ssp_haser_fill_iram b.inst b.inst_index b.iram
    written := b.written ++ [(b.inst_index, b.inst)] }

/-- The statement `inst_index++`. -/
def advance (b : builder) : builder := { b with inst_index := u32 (b.inst_index + 1) }

/-- Instruction init and prehash (lines 373-384). -/
def prehash_step (sha : sha256_ops) (p : pool) (prehash : Nat) (b : builder) : builder :=
  let nonce2_init := 0
  let d0 := zero_data
  let d1 := d0.set 28 ((nonce2_init >>> 24) &&& 0xff)
  let d2 := d1.set 29 ((nonce2_init >>> 16) &&& 0xff)
  let d3 := d2.set 30 ((nonce2_init >>> 8) &&& 0xff)
  let d4 := d3.set 31 (nonce2_init &&& 0xff)
  let digest := sha256_prehash sha (coinbase_byte p) prehash
  let d5 := memcpy d4 32 (fun k => digest.getD k 0) 32
  advance (fill { b with inst := ⟨0, d5⟩ })

/-- The body of the coinbase loop (lines 392-401) for loop counter `i`. -/
def coinbase_block (p : pool) (prehash i : Nat) (b : builder) : builder :=
  let op0 := INST_DATA_IRAM ||| NEXT_ADDR (u32 (b.inst_index + 1))
  let op1 :=
    if i = 0 then (op0 ||| (63 - p.nonce2_offset.tmod 64).toNat) ||| INST_MID_INIT
    else op0 ||| INST_MID_LASTHASH
  let d := memcpy b.inst.data 0 (fun k => coinbase_byte p (prehash + i * 64 + k)) 64
  advance (fill { b with inst := ⟨op1, d⟩ })

/-- The coinbase loop `for (i = 0; i < a; i++)` (lines 391-402): `n` iterations
are left and the loop counter is `i`. -/
def coinbase_blocks (p : pool) (prehash : Nat) : Nat → Nat → builder → builder
  | 0, _, b => b
  | n + 1, i, b => coinbase_blocks p prehash n (i + 1) (coinbase_block p prehash i b)

/-- The length loop of the padding (lines 413-414): `n` iterations are left. -/
def length_bytes (bits : Nat) : Nat → List Nat → List Nat
  | 0, d => d
  | n + 1, d => length_bytes bits n (d.set (63 - (8 - (n + 1))) ((bits >>> ((8 - (n + 1)) * 8)) &&& 0xff))

/-- The trailing block `if (b) { ... }` (lines 404-417); `i` is the value the
coinbase loop left in the loop counter and `rem` is `b`. -/
def trailing_block (p : pool) (prehash i rem : Nat) (b : builder) : builder :=
  let coinbase_len_bits := (p.coinbase_len * 8 % 2 ^ 64).toNat
  let d0 := zero_data
  let op := (INST_DATA_IRAM ||| NEXT_ADDR (u32 (b.inst_index + 1))) ||| INST_MID_LASTHASH
  let d1 := memcpy d0 0 (fun k => coinbase_byte p (prehash + i * 64 + k)) rem
  let d2 := d1.set rem 0x80
  let d3 := length_bytes coinbase_len_bits 8 d2
  advance (fill { b with inst := ⟨op, d3⟩ })

/-- The double hash of the coinbase (lines 419-423); the third instruction of
every merkle round (lines 437-440) is the same code. -/
def double_hash (b : builder) : builder :=
  let op := (INST_DATA_LASTHASH_PAD ||| INST_MID_INIT) ||| NEXT_ADDR (u32 (b.inst_index + 1))
  advance (fill { b with inst := ⟨op, zero_data⟩ })

/-- The body of the merkle loop (lines 427-440) for branch `i`. -/
def merkle_round (p : pool) (i : Nat) (b : builder) : builder :=
  let op1 := (INST_DATA_LASTHASH_IRAM ||| INST_MID_INIT) ||| NEXT_ADDR (u32 (b.inst_index + 1))
  let d1 := memcpy b.inst.data 32 (fun k => merkle_byte p i k) 32
  let b1 := advance (fill { b with inst := ⟨op1, d1⟩ })
  let op2 := (INST_DATA_PAD512 ||| INST_MID_LASTHASH) ||| NEXT_ADDR (u32 (b1.inst_index + 1))
  let b2 := advance (fill { b1 with inst := ⟨op2, zero_data⟩ })
  double_hash b2

/-- The merkle loop `for (i = 0; i < pool->merkles; i++)` (lines 426-441). -/
def merkle_rounds (p : pool) : Nat → Nat → builder → builder
  | 0, _, b => b
  | n + 1, i, b => merkle_rounds p n (i + 1) (merkle_round p i b)

/-- The final instruction (lines 443-445): only the opcode is set. -/
def done_step (b : builder) : builder :=
  fill { b with inst := { b.inst with opcode := INST_DONE } }

/-- `coinbase_len_prehash` (line 381). -/
def coinbase_len_prehash (p : pool) : Int :=
  p.nonce2_offset - p.nonce2_offset.tmod SHA256_BLOCK_SIZE

/-- `coinbase_len_posthash` (line 387). -/
def coinbase_len_posthash (p : pool) : Int := p.coinbase_len - coinbase_len_prehash p

/-- The instruction sequence of `ssp_hasher_update_stratum` (lines 373-445)
from the point where the lengths are known: `prehash`, `a`, `rem` are
`coinbase_len_prehash`, `a` and `b` as natural numbers; `inst` is the
uninitialised local. -/
def build_program (sha : sha256_ops) (p : pool) (prehash a rem : Nat)
    (inst : ssp_hasher_instruction) (iram : Nat → Nat) : builder :=
  let b0 : builder := ⟨inst, 0, iram, []⟩
  let b1 := prehash_step sha p prehash b0
  let b2 := coinbase_blocks p prehash a 0 b1
  let b3 := if rem ≠ 0 then trailing_block p prehash a rem b2 else b2
  let b4 := double_hash b3
  let b5 := merkle_rounds p p.merkles.toNat 0 b4
  done_step b5

/-- `ssp_hasher_update_stratum` (lines 363-450); `inst` is the content of the
uninitialised local, and the parameter `clean`, which the C code never reads,
is left out.  The result is the new `sspinfo` and the record of the
instructions written.  There is no result when a negative length would reach
`sha256_update` or `memcpy` (`coinbase_len_prehash < 0` or `b < 0`), where the
C code has no defined behaviour. -/
def ssp_hasher_update_stratum (sha : sha256_ops) (p : pool) (inst : ssp_hasher_instruction)
    (s : ssp_info) : Option (ssp_info × List (Nat × ssp_hasher_instruction)) :=
  let s1 := ssp_hasher_stop s
  let prehash := coinbase_len_prehash p
  let a := (coinbase_len_posthash p).tdiv SHA256_BLOCK_SIZE
  let b := (coinbase_len_posthash p).tmod SHA256_BLOCK_SIZE
  if prehash < 0 ∨ b < 0 then none
  else
    let r := build_program sha p prehash.toNat a.toNat b.toNat inst s1.iram
    some (ssp_hasher_start { s1 with iram := r.iram, stratum_update := true }, r.written)

/-- The canonical coinbase of `ssp_hasher_test` (lines 460-465). -/
def test_coinbase : List Nat :=
  [0x01,0x00,0x00,0x00,0x01,0x00,0x00,0x00,0x00,0x00,0x00,0x00,0x00,0x00,0x00,0x00,0x00,0x00,0x00,0x00,0x00,0x00,0x00,0x00,0x00,0x00,0x00,0x00,0x00,0x00,0x00,0x00,
   0x00,0x00,0x00,0x00,0x00,0xff,0xff,0xff,0xff,0x45,0x03,0x0e,0x47,0x06,0xfa,0xbe,0x6d,0x6d,0x36,0xef,0x89,0xc9,0x76,0xd4,0xb8,0x75,0x52,0xf3,0x52,0x89,0x4a,0x26,
   0xd3,0x07,0x98,0x4b,0x28,0x1d,0x6e,0x3d,0x3a,0xa2,0xa8,0xc8,0x21,0x67,0x33,0x50,0x79,0x95,0x01,0x00,0x00,0x00,0x00,0x00,0x00,0x00,0xde,0xad,0xbe,0xef,0xca,0xfe,
   0xbe,0x00,0x00,0x00,0x00,0x10,0xe3,0x03,0x2f,0x73,0x6c,0x75,0x73,0x68,0x2f,0x00,0x00,0x00,0x00,0x01,0xeb,0xb9,0xed,0x97,0x00,0x00,0x00,0x00,0x19,0x76,0xa9,0x14,
   0x7c,0x15,0x4e,0xd1,0xdc,0x59,0x60,0x9e,0x3d,0x26,0xab,0xb2,0xdf,0x2e,0xa3,0xd5,0x87,0xcd,0x8c,0x41,0x88,0xac,0x00,0x00,0x00,0x00]

/-- The canonical merkle branches of `ssp_hasher_test` (lines 467-480). -/
def test_merkle_branches : List (List Nat) :=
  [[0xf2,0xe1,0xd3,0x58,0x4d,0x02,0x24,0xfb,0x0b,0x7b,0x43,0xc8,0x87,0x41,0x3b,0xb6,0xab,0x3e,0xaf,0x5a,0x79,0x92,0x90,0xc2,0x56,0x9f,0x20,0xb5,0xfe,0x6b,0x0b,0x36],
   [0x36,0xb3,0xff,0xba,0x99,0xb8,0x9f,0xe4,0x0f,0xf3,0x21,0x64,0xf0,0xa1,0x19,0x86,0x0f,0x09,0x13,0x4c,0xe2,0x54,0x1e,0xff,0x38,0xc6,0xab,0x55,0xcc,0x58,0xd2,0xe4],
   [0x13,0xb1,0x66,0xdc,0x92,0x6f,0x3f,0x37,0xdb,0x30,0xec,0x4d,0x7b,0x37,0x38,0xac,0xf5,0x38,0xb6,0x4d,0x1f,0x11,0x6c,0xd2,0xee,0x84,0x5b,0xd2,0x15,0x62,0x99,0x78],
   [0x72,0x24,0xd0,0x31,0x90,0x4a,0x30,0xe0,0x7f,0x8d,0x41,0x48,0xa7,0x26,0x21,0xed,0xd3,0x47,0x0a,0xb7,0x38,0x52,0x0e,0xaf,0x65,0xab,0x3b,0xcd,0xf0,0x1c,0xeb,0x67],
   [0x81,0x85,0xe7,0x18,0x92,0xe5,0xf6,0xc5,0x05,0xba,0xe0,0xdb,0x45,0x45,0xfe,0x86,0x68,0x9a,0x11,0xb8,0x04,0x32,0x14,0x5c,0x72,0x1f,0xf9,0x6c,0xe5,0x26,0x86,0x0a],
   [0xea,0xff,0xbf,0x99,0x8f,0xfc,0x3c,0xa8,0x35,0x14,0x60,0x79,0xa3,0xdc,0x6c,0x97,0x3a,0xe7,0xb0,0xb9,0x64,0x69,0xc7,0x16,0x7b,0x17,0x12,0x46,0x87,0xdd,0x10,0x3f],
   [0x99,0x5a,0x04,0xf1,0x56,0xdf,0x6b,0x09,0x46,0xd2,0x65,0x23,0x6d,0x59,0xdf,0xeb,0xaa,0x60,0xda,0xd0,0x09,0xc3,0x22,0x56,0x14,0xf8,0xbd,0xd1,0x1c,0x74,0x7e,0x71],
   [0xf8,0x3f,0xe9,0x84,0x7c,0x0b,0x35,0x5e,0xfa,0x59,0x06,0x11,0xd2,0x82,0xd2,0x33,0x0b,0x28,0xd2,0x3d,0x18,0x4a,0x45,0x6d,0x05,0xff,0x5f,0x7b,0xaf,0x6a,0xda,0x81],
   [0x13,0xd7,0x5e,0xf4,0xda,0x4b,0x1a,0x2a,0xc9,0x42,0x19,0x7d,0x18,0x5e,0x93,0x4a,0xec,0x72,0x09,0xbc,0x95,0x2a,0xa2,0xdd,0xc6,0x77,0x4f,0xdb,0x1e,0x65,0x2c,0xd7],
   [0x85,0x6b,0x96,0xe8,0x56,0x3e,0xaa,0x9e,0x59,0x3a,0xa7,0xe0,0x29,0xc2,0xd4,0x01,0xc5,0x66,0xf7,0x8d,0x8e,0xf8,0x22,0xda,0xfe,0x79,0x5f,0x10,0x8a,0x59,0x8a,0x28],
   [0xce,0x79,0x63,0xa5,0x43,0xe1,0x00,0x18,0xf2,0x3e,0x3d,0xfd,0x52,0x01,0x17,0x55,0xe5,0xc8,0x47,0x37,0xa0,0xd0,0x86,0x51,0xb8,0x8c,0x89,0x56,0x71,0xf3,0x96,0x49],
   [0x88,0x73,0x89,0x13,0xa3,0xc7,0x3a,0xee,0x99,0x6c,0xc9,0xf5,0x76,0x0a,0xec,0x41,0xf6,0x97,0x99,0xd4,0x9b,0x09,0x36,0x4c,0x12,0xb3,0x6a,0x37,0x9c,0x18,0x42,0xef]]

/-- The work template `ssp_hasher_test` builds (lines 481-491). -/
def test_pool : pool :=
  { coinbase := test_coinbase
    coinbase_len := 154
    nonce2_offset := 97
    merkles := 12
    merkle_bin := test_merkle_branches }

/-- The canonical work template cut down to its first 127 coinbase bytes:
`coinbase_len_prehash` is 64 and 63 bytes are left for the trailing block. -/
def short_pool : pool :=
  { test_pool with coinbase := test_coinbase.take 127, coinbase_len := 127 }

/-- The instruction at position `k` of a record of written instructions. -/
def written_at (w : List (Nat × ssp_hasher_instruction)) (k : Nat) : ssp_hasher_instruction :=
  (w.getD k (0, ⟨0, []⟩)).2

/-- A stand-in for SHA-256 where a statement holds for every `sha256_ops`. -/
def sha_stub : sha256_ops := ⟨List.replicate 8 0, fun h _ => h⟩

/-! ### The quantities of the specification's program builder -/

/-- Spec 4.3 step 1: `prehash_len = nonce2_offset - (nonce2_offset mod 64)`. -/
def prehash_len (p : pool) : Nat := p.nonce2_offset.toNat - p.nonce2_offset.toNat % 64

/-- Spec 4.3 step 2: `full_blocks = floor((coinbase_len - prehash_len) / 64)`. -/
def full_blocks (p : pool) : Nat := (p.coinbase_len.toNat - prehash_len p) / 64

/-- Spec 4.3 step 2: `remainder = (coinbase_len - prehash_len) mod 64`. -/
def remainder (p : pool) : Nat := (p.coinbase_len.toNat - prehash_len p) % 64

/-- The program length of claim C8:
`1 + full_blocks + (1 if remainder > 0) + 1 + 3 * m + 1`. -/
def program_length (p : pool) : Nat :=
  1 + full_blocks p + (if remainder p > 0 then 1 else 0) + 1 + 3 * p.merkles.toNat + 1

/-- Builder `b2` has written `c` more instructions than `b1`, at consecutive
(wrapping) indices following on those of `b1`, none with opcode bit 18 set. -/
def extends_by (b1 b2 : builder) (c : Nat) : Prop :=
  ∃ L : List (Nat × ssp_hasher_instruction),
    b2.written = b1.written ++ L ∧ L.length = c ∧
    L.map Prod.fst = (List.range c).map (fun k => u32 (b1.written.length + k)) ∧
    (∀ e ∈ L, e.2.opcode.testBit 18 = false) ∧
    b2.inst_index = u32 (b1.written.length + c)

/-! ### The stages of the program builder -/

/-- The builder after the prehash step of `build_program`. -/
def stage_prehash (sha : sha256_ops) (p : pool) (prehash : Nat)
    (inst : ssp_hasher_instruction) (iram : Nat → Nat) : builder :=
  prehash_step sha p prehash ⟨inst, 0, iram, []⟩

/-- The builder after the coinbase loop of `build_program`. -/
def stage_blocks (sha : sha256_ops) (p : pool) (prehash a : Nat)
    (inst : ssp_hasher_instruction) (iram : Nat → Nat) : builder :=
  coinbase_blocks p prehash a 0 (stage_prehash sha p prehash inst iram)

/-- The builder after the trailing block of `build_program`. -/
def stage_trailing (sha : sha256_ops) (p : pool) (prehash a rem : Nat)
    (inst : ssp_hasher_instruction) (iram : Nat → Nat) : builder :=
  if rem ≠ 0 then trailing_block p prehash a rem (stage_blocks sha p prehash a inst iram)
  else stage_blocks sha p prehash a inst iram

/-- The builder after the coinbase double hash of `build_program`. -/
def stage_double (sha : sha256_ops) (p : pool) (prehash a rem : Nat)
    (inst : ssp_hasher_instruction) (iram : Nat → Nat) : builder :=
  double_hash (stage_trailing sha p prehash a rem inst iram)

/-- The builder after the merkle loop of `build_program`. -/
def stage_merkle (sha : sha256_ops) (p : pool) (prehash a rem : Nat)
    (inst : ssp_hasher_instruction) (iram : Nat → Nat) : builder :=
  merkle_rounds p p.merkles.toNat 0 (stage_double sha p prehash a rem inst iram)

/-- The entry (index, instruction) at position `k` of a record of written
instructions. -/
def entry_at (w : List (Nat × ssp_hasher_instruction)) (k : Nat) : Nat × ssp_hasher_instruction :=
  w.getD k (0, ⟨0, []⟩)

/-- Position of the first merkle instruction: after the prehash, the full
blocks, the trailing block if there is one, and the coinbase double hash. -/
def merkle_start (p : pool) : Nat :=
  1 + full_blocks p + (if remainder p > 0 then 1 else 0) + 1

/-- The canonical work template cut down to its first 90 coinbase bytes while
`nonce2_offset` stays 97: the nonce2 field lies beyond the end of the
coinbase. -/
def malformed_pool : pool :=
  { test_pool with coinbase := test_coinbase.take 90, coinbase_len := 90 }

/-! ## The background loop -/

/-- `POINTS_RAM_SIZE` (line 27). -/
def POINTS_RAM_SIZE : Nat := 256 <<< 10

/-- `sizeof(struct ssp_point)`: two `uint32_t` fields. -/
def sizeof_ssp_point : Nat := 8

/-- The `struct ssp_point` that the cast `(struct ssp_point *)&pram_addr[i]` of
line 265 sees at the 64-bit entry `i` of the points RAM on a little-endian
target: `nonce2` is the low half of the entry and `tail` the high half. -/
def point_at (pram : Nat → Nat) (i : Nat) : ssp_point :=
  ⟨pram i % 2 ^ 32, pram i / 2 ^ 32 % 2 ^ 32⟩

/-- The state `ssp_hasher_thread` works on: the flags of `sspinfo`, the statics
of the sorter and the three locals that live across iterations (lines
229-230). -/
structure hasher_thread where
  info : ssp_info
  sorter : Sorter
  last_nonce2 : Nat
  point_index : Nat
  valid_nonce2 : Bool

/-- What one iteration of the loop did.  This is not C state: `consumed` tells
whether the branch of line 239 ran, `cursor` and `last` are `point_index` and
`last_nonce2` at the read of line 249, `nonce2` is the value read there and
`inserted` the point passed to `ssp_sorter_insert` at line 265, if any. -/
structure iteration_log where
  consumed : Bool
  cursor : Nat
  last : Nat
  nonce2 : Nat
  inserted : Option ssp_point
deriving DecidableEq, Repr

/-- The locals at the start of `ssp_hasher_thread` (lines 229-230). -/
def thread_start (info : ssp_info) (sorter : Sorter) : hasher_thread :=
  ⟨info, sorter, 0, 0, false⟩

/-- Lines 236-246 of an iteration: the run test and the job-changed branch. -/
def thread_enter (t : hasher_thread) : hasher_thread :=
  let t1 := if !t.info.run then { t with valid_nonce2 := false } else t
  if t1.info.stratum_update then
    { t1 with
      info := { t1.info with stratum_update := false }
      point_index := 0
      last_nonce2 := 0
      valid_nonce2 := false
      sorter := ssp_sorter_flush t1.sorter }
  else t1

/-- One iteration of the `while (1)` loop of `ssp_hasher_thread` (lines
234-269), between `mutex_lock` and `mutex_unlock`; `pram` is the content of the
points RAM during the iteration. -/
def ssp_hasher_thread (pram : Nat → Nat) (t : hasher_thread) : hasher_thread × iteration_log :=
  let t1 := thread_enter t
  let nonce2 := pram t1.point_index &&& 0xffffffff
  let valid_nonce2 := if t1.last_nonce2 > nonce2 then true else t1.valid_nonce2
  let point_index := u32 (t1.point_index + 1) % (POINTS_RAM_SIZE / sizeof_ssp_point)
  let sorter :=
    if valid_nonce2 then
      ssp_sorter_insert (point_at pram point_index)
        { t1.sorter with
          maxnonce := if nonce2 > t1.sorter.maxnonce then nonce2 else t1.sorter.maxnonce }
    else t1.sorter
  ({ t1 with
      valid_nonce2 := valid_nonce2
      point_index := point_index
      sorter := sorter
      last_nonce2 := nonce2 },
    { consumed := t.info.stratum_update
      cursor := t1.point_index
      last := t1.last_nonce2
      nonce2 := nonce2
      inserted := if valid_nonce2 then some (point_at pram point_index) else none })

/-- Consecutive iterations of the loop, one content of the points RAM each. -/
def iterations (t : hasher_thread) : List (Nat → Nat) → hasher_thread
  | [] => t
  | pram :: rest => iterations (ssp_hasher_thread pram t).1 rest

/-- The logs of consecutive iterations, first iteration first. -/
def iteration_logs (t : hasher_thread) : List (Nat → Nat) → List iteration_log
  | [] => []
  | pram :: rest =>
    (ssp_hasher_thread pram t).2 :: iteration_logs (ssp_hasher_thread pram t).1 rest

/-- The points passed to `ssp_sorter_insert` by consecutive iterations. -/
def iterations_inserted (t : hasher_thread) (prams : List (Nat → Nat)) : List ssp_point :=
  (iteration_logs t prams).filterMap (fun l => l.inserted)

/-- A points RAM whose entries 0 and 1 are `tail 7, nonce2 3` and
`tail 9, nonce2 5`; every other entry is 0. -/
def sample_pram : Nat → Nat :=
  fun i => if i = 0 then 0x0000000700000003 else if i = 1 then 0x0000000900000005 else 0

/-- A running loop that last read trial value 10 at the end of the points RAM
and has no entry accepted yet, over an empty table of 16 cells. -/
def sample_thread : hasher_thread :=
  ⟨⟨fun _ => 0, false, true⟩, ssp_sorter_init 16 4 1 1 no_element, 10, 0, false⟩

/-- A points RAM whose entries 0, 1 and 2 are `tail 1, nonce2 10`,
`tail 7, nonce2 3` and `tail 9, nonce2 5`; every other entry is 0. -/
def descending_pram : Nat → Nat :=
  fun i =>
    if i = 0 then 0x000000010000000a else if i = 1 then 0x0000000700000003
    else if i = 2 then 0x0000000900000005 else 0

/-- The loop as `ssp_hasher_init` leaves it: stopped, no job change pending,
over an empty table of 16 cells. -/
def stopped_thread : hasher_thread :=
  thread_start ⟨fun _ => 0, false, false⟩ (ssp_sorter_init 16 4 1 1 no_element)

/-- Cell content `c` stems from the points `hist`: it is the empty sentinel, or
it has the tail of one of the points and either that point's trial value or
the 0 a collision leaves. -/
def cell_from (hist : List ssp_point) (c : ssp_point) : Prop :=
  is_empty c ∨ ∃ q ∈ hist, c.tail = q.tail ∧ (c.nonce2 = q.nonce2 ∨ c.nonce2 = 0)

/-- The two kinds of critical section on `hasher_lock` that touch the loop's
state: a call of `ssp_hasher_update_stratum` and one iteration of the loop. -/
inductive ssp_event where
  | update (sha : sha256_ops) (p : pool) (inst : ssp_hasher_instruction)
  | iterate (pram : Nat → Nat)

/-- `ssp_hasher_update_stratum` on the whole state: it touches `sspinfo` only. -/
def system_update (sha : sha256_ops) (p : pool) (inst : ssp_hasher_instruction)
    (t : hasher_thread) : Option hasher_thread :=
  (ssp_hasher_update_stratum sha p inst t.info).map (fun r => { t with info := r.1 })

/-- One critical section. -/
def run_event (t : hasher_thread) : ssp_event → Option hasher_thread
  | .update sha p inst => system_update sha p inst t
  | .iterate pram => some (ssp_hasher_thread pram t).1

/-- An interleaving of job updates and loop iterations, each run as a whole
under the lock, first event first. -/
def run_events (t : hasher_thread) : List ssp_event → Option hasher_thread
  | [] => some t
  | e :: es => (run_event t e).bind (fun t1 => run_events t1 es)

/-- The canonical work template cut down to its first 110 coinbase bytes:
`nonce2_offset` 97 lies inside, `coinbase_len_prehash` is 64 and the 46 bytes
left make no full block, only the trailing one. -/
def tail_pool : pool :=
  { test_pool with coinbase := test_coinbase.take 110, coinbase_len := 110 }

/-! ## Theorems about the sorter -/

theorem u32_of_lt {x : Nat} (h : x < 2 ^ 32) : u32 x = x := Nat.mod_eq_of_lt h

/-- The wrapped probe expression is the plain one reduced once. -/
theorem probe_key_eq (ht : ssp_hashtable) (t i : Nat) :
    probe_key ht t i = (t + ht.c1 * i + ht.c2 * i * i) % 2 ^ 32 % ht.max_size := by
  unfold probe_key u32
  congr 1
  have h1 : (t + ht.c1 * i % 2 ^ 32) % 2 ^ 32 = (t + ht.c1 * i) % 2 ^ 32 := by
    rw [Nat.add_mod, Nat.mod_mod, ← Nat.add_mod]
  have h2 : ht.c2 * i % 2 ^ 32 * i % 2 ^ 32 = ht.c2 * i * i % 2 ^ 32 := by
    rw [Nat.mul_mod, Nat.mod_mod, ← Nat.mul_mod]
  rw [h1, h2, ← Nat.add_mod]

theorem probe_key_zero (ht : ssp_hashtable) {t : Nat} (h : t < 2 ^ 32) :
    probe_key ht t 0 = t % ht.max_size := by
  rw [probe_key_eq]
  simp only [Nat.mul_zero, Nat.add_zero]
  rw [Nat.mod_eq_of_lt h]

theorem probe_key_lt (ht : ssp_hashtable) (t i : Nat) (h : 0 < ht.max_size) :
    probe_key ht t i < ht.max_size := Nat.mod_lt _ h

/-- For a capacity dividing `2^32` (every power of two up to `2^32`) the wrap
is invisible in the index. -/
theorem probe_key_of_dvd (ht : ssp_hashtable) (t i : Nat) (h : ht.max_size ∣ 2 ^ 32) :
    probe_key ht t i = (t + ht.c1 * i + ht.c2 * i * i) % ht.max_size := by
  rw [probe_key_eq]; exact Nat.mod_mod_of_dvd _ h

theorem elem_set_append (heap : List ssp_pair_element) (i j : Nat) (v w : ssp_pair_element)
    (hj : j < heap.length) :
    elem (heap.set i v ++ [w]) j = if i = j then v else elem heap j := by
  unfold elem
  rw [List.getD_eq_getElem?_getD, List.getD_eq_getElem?_getD,
    List.getElem?_append_left (by simpa using hj), List.getElem?_set]
  by_cases h : i = j
  · subst h; simp [hj]
  · simp [h]

theorem elem_set (heap : List ssp_pair_element) (i j : Nat) (v : ssp_pair_element)
    (hi : i < heap.length) :
    elem (heap.set i v) j = if i = j then v else elem heap j := by
  unfold elem
  rw [List.getD_eq_getElem?_getD, List.getD_eq_getElem?_getD, List.getElem?_set]
  by_cases h : i = j
  · subst h; simp [hi]
  · simp [h]

theorem cell_set (ht : ssp_hashtable) (key k : Nat) (v : ssp_point)
    (hk : key < ht.cells.length) :
    (ht.cells.set key v).getD k empty_cell = if key = k then v else cell ht k := by
  unfold cell
  rw [List.getD_eq_getElem?_getD, List.getD_eq_getElem?_getD, List.getElem?_set]
  by_cases h : key = k
  · subst h; simp [hk]
  · simp [h]

/-- Members of a chain are allocated and differ from the tail element. -/
theorem linked_mem {heap : List ssp_pair_element} {tl : Nat} :
    ∀ {as : List Nat} {a : Nat}, linked heap tl as a → ∀ x ∈ as, x ≠ tl ∧ x < heap.length := by
  intro as
  induction as with
  | nil => intro a _ x hx; simp at hx
  | cons y ys ih =>
    intro a h x hx
    obtain ⟨_, h2, h3, h4⟩ := h
    rcases List.mem_cons.1 hx with rfl | hx
    · exact ⟨h2, h3⟩
    · exact ih h4 x hx

/-- The walk used by `queue_pairs` reads off exactly the payloads of a chain. -/
theorem queue_walk_linked {heap : List ssp_pair_element} {tl : Nat} :
    ∀ {as : List Nat} {a f : Nat}, linked heap tl as a → as.length ≤ f →
      queue_walk heap tl f a = as.map (fun x => ((elem heap x).nonce2_0, (elem heap x).nonce2_1)) := by
  intro as
  induction as with
  | nil =>
    intro a f h _
    cases f with
    | zero => rfl
    | succ f => simp only [linked] at h; simp [queue_walk, h]
  | cons y ys ih =>
    intro a f h hf
    obtain ⟨h1, h2, _, h4⟩ := h
    cases f with
    | zero => simp at hf
    | succ f =>
      subst h1
      simp only [queue_walk, if_neg h2, List.map_cons]
      rw [ih h4 (by simpa using hf)]

/-- Appending the old tail element to a chain after the collision branch has
filled it and linked a new tail. -/
theorem linked_push {heap : List ssp_pair_element} {tl : Nat} (v w : ssp_pair_element)
    (htl : tl < heap.length) (hv : v.next = heap.length) :
    ∀ {as : List Nat} {a : Nat}, linked heap tl as a →
      linked (heap.set tl v ++ [w]) heap.length (as ++ [tl]) a := by
  intro as
  induction as with
  | nil =>
    intro a h
    simp only [linked] at h
    subst h
    refine ⟨rfl, Nat.ne_of_lt htl, by simp; omega, ?_⟩
    rw [elem_set_append _ _ _ _ _ htl]
    simpa [linked] using hv
  | cons y ys ih =>
    intro a h
    obtain ⟨h1, h2, h3, h4⟩ := h
    refine ⟨h1, Nat.ne_of_lt h3, by simp; omega, ?_⟩
    rw [elem_set_append _ _ _ _ _ h3, if_neg (Ne.symm h2)]
    exact ih h4

/-- Relinking the head element leaves a chain that avoids it intact. -/
theorem linked_set_head {heap : List ssp_pair_element} {tl hd : Nat} (v : ssp_pair_element)
    (hhd : hd < heap.length) :
    ∀ {as : List Nat} {a : Nat}, linked heap tl as a → hd ∉ as →
      linked (heap.set hd v) tl as a := by
  intro as
  induction as with
  | nil => intro a h _; exact h
  | cons y ys ih =>
    intro a h hn
    obtain ⟨h1, h2, h3, h4⟩ := h
    have hy : hd ≠ y := fun e => hn (by simp [e])
    refine ⟨h1, h2, by simpa using h3, ?_⟩
    rw [elem_set _ _ _ _ hhd, if_neg hy]
    exact ih h4 (fun e => hn (List.mem_cons_of_mem _ e))

/-- What the pair list holds, in terms of its chain of addresses. -/
theorem queue_pairs_linked {s : Sorter} {as : List Nat}
    (h : linked s.heap s.ssp_pair_tail as (elem s.heap s.ssp_pair_head).next)
    (hlen : as.length ≤ s.heap.length) :
    queue_pairs s = as.map (fun x => ((elem s.heap x).nonce2_0, (elem s.heap x).nonce2_1)) :=
  queue_walk_linked h hlen

/-- The list append adds its pair at the end and keeps the list well formed. -/
theorem append_queue (n0 n1 : Nat) (s : Sorter) (hq : queue_ok s) :
    queue_ok (ssp_pair_append n0 n1 s) ∧
    queue_pairs (ssp_pair_append n0 n1 s) = queue_pairs s ++ [(n0, n1)] := by
  obtain ⟨hh, ht, hne, as, hl, hnot, hlen⟩ := hq
  have hmem := linked_mem hl
  have hhead : elem (s.heap.set s.ssp_pair_tail ⟨n0, n1, s.heap.length⟩ ++ [s.fresh])
      s.ssp_pair_head = elem s.heap s.ssp_pair_head := by
    rw [elem_set_append _ _ _ _ _ hh, if_neg (Ne.symm hne)]
  have hl2 := @linked_push s.heap s.ssp_pair_tail ⟨n0, n1, s.heap.length⟩ s.fresh ht rfl _ _ hl
  have hnot2 : s.ssp_pair_head ∉ as ++ [s.ssp_pair_tail] := by
    simp only [List.mem_append, List.mem_singleton, not_or]
    exact ⟨hnot, hne⟩
  refine ⟨⟨?_, ?_, ?_, as ++ [s.ssp_pair_tail], ?_, hnot2, ?_⟩, ?_⟩
  · simp [ssp_pair_append]; omega
  · simp [ssp_pair_append]
  · simp only [ssp_pair_append]; omega
  · simp only [ssp_pair_append]; rw [hhead]; exact hl2
  · simp [ssp_pair_append]; omega
  · have e1 : queue_pairs (ssp_pair_append n0 n1 s) = _ :=
      @queue_pairs_linked (ssp_pair_append n0 n1 s) (as ++ [s.ssp_pair_tail])
        (by simp only [ssp_pair_append]; rw [hhead]; exact hl2)
        (by simp [ssp_pair_append]; omega)
    rw [e1, queue_pairs_linked hl (by omega)]
    simp only [ssp_pair_append, List.map_append, List.map_cons, List.map_nil]
    congr 1
    · apply List.map_congr_left
      intro x hx
      obtain ⟨hx1, hx2⟩ := hmem x hx
      rw [elem_set_append _ _ _ _ _ hx2, if_neg (Ne.symm hx1)]
    · rw [elem_set_append _ _ _ _ _ ht, if_pos rfl]

/-- The collision branch appends its pair to the list and keeps it well formed. -/
theorem collide_queue (p : ssp_point) (key : Nat) (s : Sorter) (hq : queue_ok s) :
    queue_ok (ssp_sorter_collide p key s) ∧
    queue_pairs (ssp_sorter_collide p key s) =
      queue_pairs s ++ [(p.nonce2, (cell s.ssp_ht key).nonce2)] :=
  append_queue p.nonce2 (cell s.ssp_ht key).nonce2 s hq

/-- The three ways out of the probing loop. -/
theorem insert_loop_cases (p : ssp_point) :
    ∀ (n i : Nat) (s : Sorter),
      (∃ j, i ≤ j ∧ j < i + n ∧ is_empty (cell s.ssp_ht (probe_key s.ssp_ht p.tail j)) ∧
        ssp_sorter_insert_loop p n i s = ssp_sorter_store p (probe_key s.ssp_ht p.tail j) s) ∨
      (∃ j, i ≤ j ∧ j < i + n ∧ ¬ is_empty (cell s.ssp_ht (probe_key s.ssp_ht p.tail j)) ∧
        (cell s.ssp_ht (probe_key s.ssp_ht p.tail j)).tail = p.tail ∧
        ssp_sorter_insert_loop p n i s = ssp_sorter_collide p (probe_key s.ssp_ht p.tail j) s) ∨
      ssp_sorter_insert_loop p n i s = { s with discarded := u32 (s.discarded + 1) } := by
  intro n
  induction n with
  | zero => intro i s; right; right; rfl
  | succ n ih =>
    intro i s
    by_cases he : is_empty (cell s.ssp_ht (probe_key s.ssp_ht p.tail i))
    · left
      exact ⟨i, le_refl _, by omega, he, by simp only [ssp_sorter_insert_loop, if_pos he]⟩
    · by_cases ht : (cell s.ssp_ht (probe_key s.ssp_ht p.tail i)).tail = p.tail
      · right; left
        exact ⟨i, le_refl _, by omega, he, ht,
          by simp only [ssp_sorter_insert_loop, if_neg he, if_pos ht]⟩
      · have hstep : ssp_sorter_insert_loop p (n + 1) i s = ssp_sorter_insert_loop p n (i + 1) s := by
          simp only [ssp_sorter_insert_loop, if_neg he, if_neg ht]
        rw [hstep]
        rcases ih (i + 1) s with ⟨j, h1, h2, h3⟩ | ⟨j, h1, h2, h3⟩ | h
        · left; exact ⟨j, by omega, by omega, h3⟩
        · right; left; exact ⟨j, by omega, by omega, h3⟩
        · right; right; exact h

/-- Probes that find an occupied cell with another tail are skipped. -/
theorem insert_loop_skip (p : ssp_point) (s : Sorter) :
    ∀ (m n i : Nat),
      (∀ k, i ≤ k → k < i + m →
        ¬ is_empty (cell s.ssp_ht (probe_key s.ssp_ht p.tail k)) ∧
        (cell s.ssp_ht (probe_key s.ssp_ht p.tail k)).tail ≠ p.tail) →
      ssp_sorter_insert_loop p (m + n) i s = ssp_sorter_insert_loop p n (i + m) s := by
  intro m
  induction m with
  | zero => intro n i _; simp
  | succ m ih =>
    intro n i h
    obtain ⟨he, ht⟩ := h i (le_refl _) (by omega)
    have e : m + 1 + n = (m + n) + 1 := by omega
    rw [e]
    simp only [ssp_sorter_insert_loop, if_neg he, if_neg ht]
    rw [ih n (i + 1) (fun k hk1 hk2 => h k (by omega) (by omega))]
    congr 1
    omega

/-- The pair list built by `ssp_sorter_init` is well formed and empty. -/
theorem init_queue_ok (max_size limit c1 c2 : Nat) (fresh : ssp_pair_element) :
    queue_ok (ssp_sorter_init max_size limit c1 c2 fresh) ∧
    queue_pairs (ssp_sorter_init max_size limit c1 c2 fresh) = [] := by
  refine ⟨⟨by simp [ssp_sorter_init], by simp [ssp_sorter_init], by simp [ssp_sorter_init],
    [], ?_, by simp, by simp [ssp_sorter_init]⟩, ?_⟩
  · simp [ssp_sorter_init, linked, elem]
  · simp [queue_pairs, ssp_sorter_init, queue_walk, elem]

theorem init_table_ok (max_size limit c1 c2 : Nat) (fresh : ssp_pair_element) :
    table_ok (ssp_sorter_init max_size limit c1 c2 fresh).ssp_ht := by
  simp [table_ok, ssp_sorter_init]

/-- First step of `ssp_sorter_insert` when the first probed cell is empty. -/
theorem insert_first_empty (p : ssp_point) (s : Sorter) (hlim : 1 ≤ s.ssp_ht.limit)
    (he : is_empty (cell s.ssp_ht (probe_key s.ssp_ht p.tail 0))) :
    ssp_sorter_insert p s =
      ssp_sorter_store p (probe_key s.ssp_ht p.tail 0) { s with calls := u32 (s.calls + 1) } := by
  obtain ⟨n, hn⟩ : ∃ n, s.ssp_ht.limit = n + 1 := ⟨s.ssp_ht.limit - 1, by omega⟩
  simp only [ssp_sorter_insert, hn, ssp_sorter_insert_loop, if_pos he]

/-- First step of `ssp_sorter_insert` when the first probed cell holds the tail. -/
theorem insert_first_match (p : ssp_point) (s : Sorter) (hlim : 1 ≤ s.ssp_ht.limit)
    (he : ¬ is_empty (cell s.ssp_ht (probe_key s.ssp_ht p.tail 0)))
    (ht : (cell s.ssp_ht (probe_key s.ssp_ht p.tail 0)).tail = p.tail) :
    ssp_sorter_insert p s =
      ssp_sorter_collide p (probe_key s.ssp_ht p.tail 0) { s with calls := u32 (s.calls + 1) } := by
  obtain ⟨n, hn⟩ : ∃ n, s.ssp_ht.limit = n + 1 := ⟨s.ssp_ht.limit - 1, by omega⟩
  simp only [ssp_sorter_insert, hn, ssp_sorter_insert_loop, if_neg he, if_pos ht]

/-- C1 (collision detection).  In a well-formed table with capacity > 0 and
probe limit >= 1 whose cell at `t mod capacity` is empty, inserting the
non-sentinel point `{a, t}` stores it at index `t mod capacity` and appends no
pair; inserting `{b, t}` next appends exactly the pair `{b, a}`. -/
theorem collision_detection (s : Sorter) (a b t : Nat)
    (htab : table_ok s.ssp_ht) (hq : queue_ok s)
    (hcap : 0 < s.ssp_ht.max_size) (hlim : 1 ≤ s.ssp_ht.limit) (ht : t < 2 ^ 32)
    (hempty : is_empty (cell s.ssp_ht (t % s.ssp_ht.max_size)))
    (h1 : non_sentinel ⟨a, t⟩) :
    (ssp_sorter_insert ⟨a, t⟩ s).ssp_ht.cells =
        s.ssp_ht.cells.set (t % s.ssp_ht.max_size) ⟨a, t⟩ ∧
      cell (ssp_sorter_insert ⟨a, t⟩ s).ssp_ht (t % s.ssp_ht.max_size) = ⟨a, t⟩ ∧
      queue_pairs (ssp_sorter_insert ⟨a, t⟩ s) = queue_pairs s ∧
      queue_pairs (ssp_sorter_insert ⟨b, t⟩ (ssp_sorter_insert ⟨a, t⟩ s)) =
        queue_pairs s ++ [(b, a)] := by
  have hkey : probe_key s.ssp_ht t 0 = t % s.ssp_ht.max_size := probe_key_zero _ ht
  have hklt : t % s.ssp_ht.max_size < s.ssp_ht.cells.length := by
    rw [htab]; exact Nat.mod_lt _ hcap
  have e1 : ssp_sorter_insert ⟨a, t⟩ s =
      ssp_sorter_store ⟨a, t⟩ (t % s.ssp_ht.max_size) { s with calls := u32 (s.calls + 1) } := by
    rw [insert_first_empty ⟨a, t⟩ s hlim (by rw [hkey]; exact hempty), hkey]
  have hcell : cell (ssp_sorter_insert ⟨a, t⟩ s).ssp_ht (t % s.ssp_ht.max_size) = ⟨a, t⟩ := by
    rw [e1]
    have := cell_set s.ssp_ht (t % s.ssp_ht.max_size) (t % s.ssp_ht.max_size) ⟨a, t⟩ hklt
    simpa [ssp_sorter_store, cell] using this
  have hms : (ssp_sorter_insert ⟨a, t⟩ s).ssp_ht.max_size = s.ssp_ht.max_size := by rw [e1]; rfl
  have hlm : (ssp_sorter_insert ⟨a, t⟩ s).ssp_ht.limit = s.ssp_ht.limit := by rw [e1]; rfl
  have hkey2 : probe_key (ssp_sorter_insert ⟨a, t⟩ s).ssp_ht t 0 = t % s.ssp_ht.max_size := by
    rw [probe_key_zero _ ht, hms]
  have hne : ¬ is_empty (⟨a, t⟩ : ssp_point) := by
    intro h
    rcases h1 with h1 | h1
    · exact h1 h.1
    · exact h1 h.2
  have e2 : ssp_sorter_insert ⟨b, t⟩ (ssp_sorter_insert ⟨a, t⟩ s) =
      ssp_sorter_collide ⟨b, t⟩ (t % s.ssp_ht.max_size)
        { ssp_sorter_insert ⟨a, t⟩ s with calls := u32 ((ssp_sorter_insert ⟨a, t⟩ s).calls + 1) } := by
    rw [insert_first_match ⟨b, t⟩ _ (by rw [hlm]; exact hlim)
      (by rw [hkey2, hcell]; exact hne) (by rw [hkey2, hcell]), hkey2]
  have hq1 : queue_ok (ssp_sorter_insert ⟨a, t⟩ s) := by rw [e1]; exact hq
  refine ⟨by rw [e1]; rfl, hcell, by rw [e1]; rfl, ?_⟩
  rw [e2]
  have hc := (collide_queue ⟨b, t⟩ (t % s.ssp_ht.max_size)
    { ssp_sorter_insert ⟨a, t⟩ s with calls := u32 ((ssp_sorter_insert ⟨a, t⟩ s).calls + 1) } hq1).2
  rw [hc]
  have hcell2 : (cell (ssp_sorter_insert ⟨a, t⟩ s).ssp_ht (t % s.ssp_ht.max_size)).nonce2 = a := by
    rw [hcell]
  have hqp : queue_pairs
      { ssp_sorter_insert ⟨a, t⟩ s with calls := u32 ((ssp_sorter_insert ⟨a, t⟩ s).calls + 1) } =
        queue_pairs s := by
    rw [e1]; rfl
  rw [hqp]
  show queue_pairs s ++ [(b, (cell (ssp_sorter_insert ⟨a, t⟩ s).ssp_ht (t % s.ssp_ht.max_size)).nonce2)] = _
  rw [hcell2]

/-- The worked example of the specification: capacity 16, probe limit 4,
c1 = c2 = 1, points {11, 5} then {22, 5} give index 5 and the pair {22, 11}. -/
theorem collision_detection_witness :
    cell (ssp_sorter_insert ⟨11, 5⟩ (ssp_sorter_init 16 4 1 1 no_element)).ssp_ht 5 = ⟨11, 5⟩ ∧
    queue_pairs (ssp_sorter_insert ⟨11, 5⟩ (ssp_sorter_init 16 4 1 1 no_element)) = [] ∧
    queue_pairs (ssp_sorter_insert ⟨22, 5⟩
      (ssp_sorter_insert ⟨11, 5⟩ (ssp_sorter_init 16 4 1 1 no_element))) = [(22, 11)] := by
  have h := collision_detection (ssp_sorter_init 16 4 1 1 no_element) 11 22 5
    (init_table_ok _ _ _ _ _) (init_queue_ok _ _ _ _ _).1 (by decide) (by decide) (by decide)
    (by decide) (by decide)
  exact ⟨h.2.1, h.2.2.1, h.2.2.2⟩

/-- When the probes before `j` are blocked (occupied by another tail) and the
cell of probe `j` is empty, the point is stored there. -/
theorem insert_store_at (p : ssp_point) (s : Sorter) (j : Nat) (hj : j < s.ssp_ht.limit)
    (hb : ∀ k, k < j → ¬ is_empty (cell s.ssp_ht (probe_key s.ssp_ht p.tail k)) ∧
      (cell s.ssp_ht (probe_key s.ssp_ht p.tail k)).tail ≠ p.tail)
    (he : is_empty (cell s.ssp_ht (probe_key s.ssp_ht p.tail j))) :
    ssp_sorter_insert p s =
      ssp_sorter_store p (probe_key s.ssp_ht p.tail j) { s with calls := u32 (s.calls + 1) } := by
  obtain ⟨n, hn⟩ : ∃ n, s.ssp_ht.limit = j + (n + 1) := ⟨s.ssp_ht.limit - j - 1, by omega⟩
  unfold ssp_sorter_insert
  rw [hn, insert_loop_skip p { s with calls := u32 (s.calls + 1) } j (n + 1) 0
    (fun k _ hk => hb k (by omega))]
  simp only [ssp_sorter_insert_loop, Nat.zero_add]
  rw [if_pos he]

theorem insert_collide_at (p : ssp_point) (s : Sorter) (j : Nat) (hj : j < s.ssp_ht.limit)
    (hb : ∀ k, k < j → ¬ is_empty (cell s.ssp_ht (probe_key s.ssp_ht p.tail k)) ∧
      (cell s.ssp_ht (probe_key s.ssp_ht p.tail k)).tail ≠ p.tail)
    (he : ¬ is_empty (cell s.ssp_ht (probe_key s.ssp_ht p.tail j)))
    (ht : (cell s.ssp_ht (probe_key s.ssp_ht p.tail j)).tail = p.tail) :
    ssp_sorter_insert p s =
      ssp_sorter_collide p (probe_key s.ssp_ht p.tail j) { s with calls := u32 (s.calls + 1) } := by
  obtain ⟨n, hn⟩ : ∃ n, s.ssp_ht.limit = j + (n + 1) := ⟨s.ssp_ht.limit - j - 1, by omega⟩
  unfold ssp_sorter_insert
  rw [hn, insert_loop_skip p { s with calls := u32 (s.calls + 1) } j (n + 1) 0
    (fun k _ hk => hb k (by omega))]
  simp only [ssp_sorter_insert_loop, Nat.zero_add]
  rw [if_neg he, if_pos ht]

theorem insert_discard (p : ssp_point) (s : Sorter)
    (hb : ∀ k, k < s.ssp_ht.limit → ¬ is_empty (cell s.ssp_ht (probe_key s.ssp_ht p.tail k)) ∧
      (cell s.ssp_ht (probe_key s.ssp_ht p.tail k)).tail ≠ p.tail) :
    ssp_sorter_insert p s =
      { s with calls := u32 (s.calls + 1), discarded := u32 (s.discarded + 1) } := by
  unfold ssp_sorter_insert
  have h := insert_loop_skip p { s with calls := u32 (s.calls + 1) } s.ssp_ht.limit 0 0
    (fun k _ hk => hb k (by omega))
  simp only [Nat.add_zero, Nat.zero_add] at h
  rw [h]
  rfl

theorem not_empty_of_non_sentinel {p : ssp_point} (h : non_sentinel p) : ¬ is_empty p := by
  intro he
  rcases h with h | h
  · exact h he.1
  · exact h he.2

/-- C2, as the code has it.  When `{a, t}` goes into an empty cell (the probes
before index `j` are occupied by other tails, the cell of probe `j` is empty)
and `{b, t}` is inserted next, the second insert matches that same cell and
appends `{b, a}`; afterwards the cell holds trial 0 and still holds tail `t`,
every other cell is as before the first insert, and `size` is one more than
before the first insert.  The cell is the empty sentinel only when `t = 0`. -/
theorem clear_on_collision (s : Sorter) (a b t j : Nat)
    (htab : table_ok s.ssp_ht) (hq : queue_ok s) (hcap : 0 < s.ssp_ht.max_size)
    (hj : j < s.ssp_ht.limit)
    (hb : ∀ k, k < j → ¬ is_empty (cell s.ssp_ht (probe_key s.ssp_ht t k)) ∧
      (cell s.ssp_ht (probe_key s.ssp_ht t k)).tail ≠ t)
    (he : is_empty (cell s.ssp_ht (probe_key s.ssp_ht t j)))
    (h1 : non_sentinel ⟨a, t⟩) :
    (ssp_sorter_insert ⟨a, t⟩ s).ssp_ht.cells =
        s.ssp_ht.cells.set (probe_key s.ssp_ht t j) ⟨a, t⟩ ∧
      queue_pairs (ssp_sorter_insert ⟨a, t⟩ s) = queue_pairs s ∧
      queue_pairs (ssp_sorter_insert ⟨b, t⟩ (ssp_sorter_insert ⟨a, t⟩ s)) =
        queue_pairs s ++ [(b, a)] ∧
      (ssp_sorter_insert ⟨b, t⟩ (ssp_sorter_insert ⟨a, t⟩ s)).ssp_ht.cells =
        s.ssp_ht.cells.set (probe_key s.ssp_ht t j) ⟨0, t⟩ ∧
      (ssp_sorter_insert ⟨b, t⟩ (ssp_sorter_insert ⟨a, t⟩ s)).ssp_ht.size =
        u32 (s.ssp_ht.size + 1) ∧
      (is_empty (cell (ssp_sorter_insert ⟨b, t⟩ (ssp_sorter_insert ⟨a, t⟩ s)).ssp_ht
        (probe_key s.ssp_ht t j)) ↔ t = 0) := by
  have hklt : probe_key s.ssp_ht t j < s.ssp_ht.cells.length := by
    rw [htab]; exact probe_key_lt _ _ _ hcap
  have e1 : ssp_sorter_insert ⟨a, t⟩ s =
      ssp_sorter_store ⟨a, t⟩ (probe_key s.ssp_ht t j) { s with calls := u32 (s.calls + 1) } :=
    insert_store_at ⟨a, t⟩ s j hj hb he
  have hkey : ∀ k, probe_key (ssp_sorter_insert ⟨a, t⟩ s).ssp_ht t k = probe_key s.ssp_ht t k := by
    intro k; rw [e1]; rfl
  have hcell : ∀ k, cell (ssp_sorter_insert ⟨a, t⟩ s).ssp_ht k =
      if probe_key s.ssp_ht t j = k then ⟨a, t⟩ else cell s.ssp_ht k := by
    intro k
    rw [e1]
    exact cell_set s.ssp_ht (probe_key s.ssp_ht t j) k ⟨a, t⟩ hklt
  have hlm : (ssp_sorter_insert ⟨a, t⟩ s).ssp_ht.limit = s.ssp_ht.limit := by rw [e1]; rfl
  have hb2 : ∀ k, k < j →
      ¬ is_empty (cell (ssp_sorter_insert ⟨a, t⟩ s).ssp_ht
        (probe_key (ssp_sorter_insert ⟨a, t⟩ s).ssp_ht t k)) ∧
      (cell (ssp_sorter_insert ⟨a, t⟩ s).ssp_ht
        (probe_key (ssp_sorter_insert ⟨a, t⟩ s).ssp_ht t k)).tail ≠ t := by
    intro k hk
    have hne : probe_key s.ssp_ht t j ≠ probe_key s.ssp_ht t k := by
      intro e
      exact (hb k hk).1 (e ▸ he)
    rw [hkey, hcell, if_neg hne]
    exact hb k hk
  have hcj : cell (ssp_sorter_insert ⟨a, t⟩ s).ssp_ht
      (probe_key (ssp_sorter_insert ⟨a, t⟩ s).ssp_ht t j) = ⟨a, t⟩ := by
    rw [hkey, hcell, if_pos rfl]
  have e2 : ssp_sorter_insert ⟨b, t⟩ (ssp_sorter_insert ⟨a, t⟩ s) =
      ssp_sorter_collide ⟨b, t⟩ (probe_key s.ssp_ht t j)
        { ssp_sorter_insert ⟨a, t⟩ s with
          calls := u32 ((ssp_sorter_insert ⟨a, t⟩ s).calls + 1) } := by
    rw [insert_collide_at ⟨b, t⟩ _ j (by rw [hlm]; exact hj) hb2
      (by rw [hcj]; exact not_empty_of_non_sentinel h1) (by rw [hcj]), hkey]
  have hq1 : queue_ok (ssp_sorter_insert ⟨a, t⟩ s) := by rw [e1]; exact hq
  have hqp1 : queue_pairs (ssp_sorter_insert ⟨a, t⟩ s) = queue_pairs s := by rw [e1]; rfl
  have hcj2 : cell (ssp_sorter_insert ⟨a, t⟩ s).ssp_ht (probe_key s.ssp_ht t j) = ⟨a, t⟩ := by
    rw [hcell, if_pos rfl]
  have hcells2 : (ssp_sorter_insert ⟨b, t⟩ (ssp_sorter_insert ⟨a, t⟩ s)).ssp_ht.cells =
      s.ssp_ht.cells.set (probe_key s.ssp_ht t j) ⟨0, t⟩ := by
    rw [e2]
    show (ssp_sorter_insert ⟨a, t⟩ s).ssp_ht.cells.set (probe_key s.ssp_ht t j)
      ⟨0, (cell (ssp_sorter_insert ⟨a, t⟩ s).ssp_ht (probe_key s.ssp_ht t j)).tail⟩ = _
    rw [hcj2, e1]
    show (s.ssp_ht.cells.set (probe_key s.ssp_ht t j) ⟨a, t⟩).set (probe_key s.ssp_ht t j) ⟨0, t⟩ = _
    rw [List.set_set]
  refine ⟨by rw [e1]; rfl, hqp1, ?_, hcells2, ?_, ?_⟩
  · rw [e2]
    have hc := (collide_queue ⟨b, t⟩ (probe_key s.ssp_ht t j)
      { ssp_sorter_insert ⟨a, t⟩ s with
        calls := u32 ((ssp_sorter_insert ⟨a, t⟩ s).calls + 1) } hq1).2
    rw [hc]
    show queue_pairs (ssp_sorter_insert ⟨a, t⟩ s) ++
      [(b, (cell (ssp_sorter_insert ⟨a, t⟩ s).ssp_ht (probe_key s.ssp_ht t j)).nonce2)] = _
    rw [hcj2, hqp1]
  · rw [e2]
    show (ssp_sorter_insert ⟨a, t⟩ s).ssp_ht.size = _
    rw [e1]; rfl
  · unfold cell
    rw [hcells2]
    have := cell_set s.ssp_ht (probe_key s.ssp_ht t j) (probe_key s.ssp_ht t j) ⟨0, t⟩ hklt
    rw [this, if_pos rfl]
    simp [is_empty]

/-- The amended C2 at the worked example: after {11, 5} and {22, 5} cell 5 is
{0, 5} and `size` is 1. -/
theorem clear_on_collision_witness :
    (ssp_sorter_insert ⟨22, 5⟩
      (ssp_sorter_insert ⟨11, 5⟩ (ssp_sorter_init 16 4 1 1 no_element))).ssp_ht.cells =
      (ssp_sorter_init 16 4 1 1 no_element).ssp_ht.cells.set 5 ⟨0, 5⟩ ∧
    (ssp_sorter_insert ⟨22, 5⟩
      (ssp_sorter_insert ⟨11, 5⟩ (ssp_sorter_init 16 4 1 1 no_element))).ssp_ht.size = 1 := by
  have h := clear_on_collision (ssp_sorter_init 16 4 1 1 no_element) 11 22 5 0
    (init_table_ok _ _ _ _ _) (init_queue_ok _ _ _ _ _).1 (by decide) (by decide)
    (fun k hk => absurd hk (Nat.not_lt_zero k)) (by decide) (by decide)
  exact ⟨h.2.2.2.1, h.2.2.2.2.1⟩

/-- C2 as stated fails on the worked example of the specification: after
{11, 5} and {22, 5} the matched cell 5 is {0, 5}, not the empty sentinel, and
`size` is 1 although it was 0 before the first insert. -/
theorem clear_on_collision_counterexample :
    queue_pairs (ssp_sorter_insert ⟨22, 5⟩
      (ssp_sorter_insert ⟨11, 5⟩ (ssp_sorter_init 16 4 1 1 no_element))) = [(22, 11)] ∧
    cell (ssp_sorter_insert ⟨22, 5⟩
      (ssp_sorter_insert ⟨11, 5⟩ (ssp_sorter_init 16 4 1 1 no_element))).ssp_ht 5 = ⟨0, 5⟩ ∧
    ¬ is_empty (cell (ssp_sorter_insert ⟨22, 5⟩
      (ssp_sorter_insert ⟨11, 5⟩ (ssp_sorter_init 16 4 1 1 no_element))).ssp_ht 5) ∧
    (ssp_sorter_init 16 4 1 1 no_element).ssp_ht.size = 0 ∧
    (ssp_sorter_insert ⟨22, 5⟩
      (ssp_sorter_insert ⟨11, 5⟩ (ssp_sorter_init 16 4 1 1 no_element))).ssp_ht.size = 1 ∧
    (ssp_sorter_insert ⟨22, 5⟩
      (ssp_sorter_insert ⟨11, 5⟩ (ssp_sorter_init 16 4 1 1 no_element))).ssp_ht ≠
      (ssp_sorter_init 16 4 1 1 no_element).ssp_ht := by
  decide

/-- C6 (discard under saturation).  When every probe of `p` finds a cell that
is occupied by another tail, `ssp_sorter_insert p` changes nothing but the
`calls` and `discarded` counters, each of which grows by one (as `uint32_t`):
no pair is appended, no cell and no `size` change. -/
theorem discard_under_saturation (s : Sorter) (p : ssp_point)
    (hb : ∀ i, i < s.ssp_ht.limit →
      ¬ is_empty (cell s.ssp_ht (probe_key s.ssp_ht p.tail i)) ∧
      (cell s.ssp_ht (probe_key s.ssp_ht p.tail i)).tail ≠ p.tail) :
    ssp_sorter_insert p s =
        { s with calls := u32 (s.calls + 1), discarded := u32 (s.discarded + 1) } ∧
      queue_pairs (ssp_sorter_insert p s) = queue_pairs s ∧
      (ssp_sorter_insert p s).ssp_ht = s.ssp_ht ∧
      (s.discarded + 1 < 2 ^ 32 → (ssp_sorter_insert p s).discarded = s.discarded + 1) := by
  have e := insert_discard p s hb
  refine ⟨e, by rw [e]; rfl, by rw [e], fun h => ?_⟩
  rw [e]
  exact u32_of_lt h

/-- C6 on a full table of capacity 2: cells {1, 2} and {1, 3}, incoming tail 4. -/
theorem discard_under_saturation_witness :
    (ssp_sorter_insert ⟨9, 4⟩
      (ssp_sorter_insert ⟨1, 3⟩ (ssp_sorter_insert ⟨1, 2⟩ (ssp_sorter_init 2 2 1 0 no_element)))).ssp_ht =
      (ssp_sorter_insert ⟨1, 3⟩ (ssp_sorter_insert ⟨1, 2⟩ (ssp_sorter_init 2 2 1 0 no_element))).ssp_ht ∧
    (ssp_sorter_insert ⟨9, 4⟩
      (ssp_sorter_insert ⟨1, 3⟩ (ssp_sorter_insert ⟨1, 2⟩ (ssp_sorter_init 2 2 1 0 no_element)))).discarded = 1 :=
  have h := discard_under_saturation
    (ssp_sorter_insert ⟨1, 3⟩ (ssp_sorter_insert ⟨1, 2⟩ (ssp_sorter_init 2 2 1 0 no_element)))
    ⟨9, 4⟩ (by decide)
  ⟨h.2.2.1, h.2.2.2 (by decide)⟩

/-! ### Flush -/

theorem memset_cells_length : ∀ (n : Nat) (cs : List ssp_point), cs.length = n →
    memset_cells n cs = List.replicate n empty_cell := by
  intro n
  induction n with
  | zero => intro cs h; simp [memset_cells, List.length_eq_zero.1 h]
  | succ n ih =>
    intro cs h
    cases cs with
    | nil => simp at h
    | cons c cs =>
      simp only [memset_cells, List.replicate_succ]
      rw [ih cs (by simpa using h)]

/-- The table part of the result of the probing loop depends on the table only. -/
theorem insert_loop_ht_congr (p : ssp_point) :
    ∀ (n i : Nat) (s s' : Sorter), s.ssp_ht = s'.ssp_ht →
      (ssp_sorter_insert_loop p n i s).ssp_ht = (ssp_sorter_insert_loop p n i s').ssp_ht := by
  intro n
  induction n with
  | zero => intro i s s' h; exact h
  | succ n ih =>
    intro i s s' h
    simp only [ssp_sorter_insert_loop, ← h]
    split
    · simp [ssp_sorter_store, ← h]
    · split
      · simp [ssp_sorter_collide, ssp_pair_append, ← h]
      · exact ih (i + 1) s s' h

theorem insert_ht_congr (p : ssp_point) (s s' : Sorter) (h : s.ssp_ht = s'.ssp_ht) :
    (ssp_sorter_insert p s).ssp_ht = (ssp_sorter_insert p s').ssp_ht := by
  unfold ssp_sorter_insert
  rw [← h]
  exact insert_loop_ht_congr p _ _ _ _ rfl

/-- An insert into a table without occupied cells appends no pair. -/
theorem insert_all_empty_queue (p : ssp_point) (s : Sorter)
    (h : ∀ k, is_empty (cell s.ssp_ht k)) :
    queue_pairs (ssp_sorter_insert p s) = queue_pairs s := by
  unfold ssp_sorter_insert
  rcases insert_loop_cases p s.ssp_ht.limit 0 { s with calls := u32 (s.calls + 1) } with
    ⟨j, _, _, _, e⟩ | ⟨j, _, _, hne, _⟩ | e
  · rw [e]; rfl
  · exact absurd (h _) hne
  · rw [e]; rfl

theorem cell_replicate (ht : ssp_hashtable) (n k : Nat)
    (h : ht.cells = List.replicate n empty_cell) : cell ht k = empty_cell := by
  unfold cell
  rw [h, List.getD_eq_getElem?_getD, List.getElem?_replicate]
  split <;> rfl

/-- C5 (flush).  On a well-formed table `ssp_sorter_flush` leaves `size` 0 and
every cell the empty sentinel and keeps `max_size`, `limit`, `c1`, `c2`, so the
table equals the one built by `ssp_sorter_init` with these parameters; an
insert after the flush has the same effect on cells and `size` as on that
fresh table and appends no pair in either; a second flush changes nothing in
the table. -/
theorem flush_resets (s : Sorter) (p : ssp_point) (fr : ssp_pair_element)
    (htab : table_ok s.ssp_ht) :
    (ssp_sorter_flush s).ssp_ht.size = 0 ∧
      (ssp_sorter_flush s).ssp_ht.cells.length = s.ssp_ht.max_size ∧
      (∀ c ∈ (ssp_sorter_flush s).ssp_ht.cells, c = empty_cell) ∧
      (ssp_sorter_flush s).ssp_ht.max_size = s.ssp_ht.max_size ∧
      (ssp_sorter_flush s).ssp_ht.limit = s.ssp_ht.limit ∧
      (ssp_sorter_flush s).ssp_ht.c1 = s.ssp_ht.c1 ∧
      (ssp_sorter_flush s).ssp_ht.c2 = s.ssp_ht.c2 ∧
      (ssp_sorter_flush s).ssp_ht =
        (ssp_sorter_init s.ssp_ht.max_size s.ssp_ht.limit s.ssp_ht.c1 s.ssp_ht.c2 fr).ssp_ht ∧
      (ssp_sorter_insert p (ssp_sorter_flush s)).ssp_ht =
        (ssp_sorter_insert p
          (ssp_sorter_init s.ssp_ht.max_size s.ssp_ht.limit s.ssp_ht.c1 s.ssp_ht.c2 fr)).ssp_ht ∧
      queue_pairs (ssp_sorter_insert p (ssp_sorter_flush s)) = queue_pairs (ssp_sorter_flush s) ∧
      queue_pairs (ssp_sorter_insert p
          (ssp_sorter_init s.ssp_ht.max_size s.ssp_ht.limit s.ssp_ht.c1 s.ssp_ht.c2 fr)) =
        queue_pairs (ssp_sorter_init s.ssp_ht.max_size s.ssp_ht.limit s.ssp_ht.c1 s.ssp_ht.c2 fr) ∧
      (ssp_sorter_flush (ssp_sorter_flush s)).ssp_ht = (ssp_sorter_flush s).ssp_ht := by
  have hcells : (ssp_sorter_flush s).ssp_ht.cells =
      List.replicate s.ssp_ht.max_size empty_cell :=
    memset_cells_length _ _ htab
  have heq : (ssp_sorter_flush s).ssp_ht =
      (ssp_sorter_init s.ssp_ht.max_size s.ssp_ht.limit s.ssp_ht.c1 s.ssp_ht.c2 fr).ssp_ht := by
    simp only [ssp_sorter_flush, ssp_sorter_init, memset_cells_length _ _ htab]
  refine ⟨rfl, by rw [hcells]; simp, ?_, rfl, rfl, rfl, rfl, heq,
    insert_ht_congr p _ _ heq, ?_, ?_, ?_⟩
  · intro c hc
    rw [hcells] at hc
    exact (List.mem_replicate.1 hc).2
  · apply insert_all_empty_queue
    intro k
    rw [cell_replicate _ _ k hcells]
    exact ⟨rfl, rfl⟩
  · apply insert_all_empty_queue
    intro k
    rw [cell_replicate _ s.ssp_ht.max_size k rfl]
    exact ⟨rfl, rfl⟩
  · have h2 : (ssp_sorter_flush (ssp_sorter_flush s)).ssp_ht.cells =
        List.replicate s.ssp_ht.max_size empty_cell :=
      memset_cells_length _ _ (by rw [hcells]; simp [ssp_sorter_flush])
    have h3 : (ssp_sorter_flush (ssp_sorter_flush s)).ssp_ht =
        { (ssp_sorter_flush s).ssp_ht with
          cells := (ssp_sorter_flush (ssp_sorter_flush s)).ssp_ht.cells } := rfl
    rw [h3, h2, ← hcells]

/-- C5 on the table of the worked example after one insert. -/
theorem flush_resets_witness :
    (ssp_sorter_flush (ssp_sorter_insert ⟨11, 5⟩ (ssp_sorter_init 16 4 1 1 no_element))).ssp_ht =
      (ssp_sorter_init 16 4 1 1 no_element).ssp_ht ∧
    (ssp_sorter_insert ⟨22, 5⟩
      (ssp_sorter_flush (ssp_sorter_insert ⟨11, 5⟩ (ssp_sorter_init 16 4 1 1 no_element)))).ssp_ht =
      (ssp_sorter_insert ⟨22, 5⟩ (ssp_sorter_init 16 4 1 1 no_element)).ssp_ht :=
  have h := flush_resets (ssp_sorter_insert ⟨11, 5⟩ (ssp_sorter_init 16 4 1 1 no_element))
    ⟨22, 5⟩ no_element (by decide)
  ⟨h.2.2.2.2.2.2.2.1, h.2.2.2.2.2.2.2.2.1⟩

/-! ### Dequeue -/

/-- What `ssp_sorter_get_pair` does to a well-formed pair list: on an empty
list it returns 0 and changes neither the buffer nor the state; otherwise it
returns 1, delivers the oldest pair and leaves the remaining ones. -/
theorem get_pair_queue (buf : Nat × Nat) (s : Sorter) (hq : queue_ok s) :
    (queue_pairs s = [] ∧ ssp_sorter_get_pair buf s = (0, buf, s)) ∨
    (∃ x rest, queue_pairs s = x :: rest ∧
      (ssp_sorter_get_pair buf s).1 = 1 ∧ (ssp_sorter_get_pair buf s).2.1 = x ∧
      queue_ok (ssp_sorter_get_pair buf s).2.2 ∧
      queue_pairs (ssp_sorter_get_pair buf s).2.2 = rest ∧
      (ssp_sorter_get_pair buf s).2.2.ssp_ht = s.ssp_ht) := by
  obtain ⟨hh, ht, hne, as, hl, hnot, hlen⟩ := hq
  cases as with
  | nil =>
    left
    have hnext : (elem s.heap s.ssp_pair_head).next = s.ssp_pair_tail := hl
    refine ⟨?_, ?_⟩
    · rw [queue_pairs_linked hl (by simp)]; rfl
    · simp only [ssp_sorter_get_pair, if_pos hnext]
  | cons y ys =>
    right
    obtain ⟨h1, h2, h3, h4⟩ := hl
    have hmem := linked_mem h4
    have hy : s.ssp_pair_head ≠ y := fun e => hnot (by simp [e])
    have hys : s.ssp_pair_head ∉ ys := fun e => hnot (List.mem_cons_of_mem _ e)
    have hnext : ¬ (elem s.heap s.ssp_pair_head).next = s.ssp_pair_tail := by rw [h1]; exact h2
    have hqs : queue_pairs s =
        ((elem s.heap y).nonce2_0, (elem s.heap y).nonce2_1) ::
          ys.map (fun x => ((elem s.heap x).nonce2_0, (elem s.heap x).nonce2_1)) := by
      rw [@queue_pairs_linked s (y :: ys) ⟨h1, h2, h3, h4⟩ (by omega)]; rfl
    have hl2 := @linked_set_head s.heap s.ssp_pair_tail s.ssp_pair_head
      { elem s.heap s.ssp_pair_head with next := (elem s.heap y).next } hh _ _ h4 hys
    have hhd2 : (elem (s.heap.set s.ssp_pair_head
        { elem s.heap s.ssp_pair_head with next := (elem s.heap y).next }) s.ssp_pair_head).next =
        (elem s.heap y).next := by
      rw [elem_set _ _ _ _ hh, if_pos rfl]
    have hlen2 : ys.length + 2 ≤ s.heap.length := by
      simp only [List.length_cons] at hlen; omega
    have hg : ssp_sorter_get_pair buf s =
        (1, ((elem s.heap y).nonce2_0, (elem s.heap y).nonce2_1),
          { s with
            heap := s.heap.set s.ssp_pair_head
              { elem s.heap s.ssp_pair_head with next := (elem s.heap y).next }
            consumed := u32 (s.consumed + 1) }) := by
      simp only [ssp_sorter_get_pair]
      rw [if_neg hnext, h1]
    rw [hg]
    refine ⟨_, _, hqs, rfl, rfl, ?_, ?_, rfl⟩
    · refine ⟨by simpa using hh, by simpa using ht, hne, ys, ?_, hys, by simpa using hlen2⟩
      show linked _ _ ys (elem (s.heap.set s.ssp_pair_head
        { elem s.heap s.ssp_pair_head with next := (elem s.heap y).next }) s.ssp_pair_head).next
      rw [hhd2]; exact hl2
    · have e := @queue_pairs_linked { s with
          heap := s.heap.set s.ssp_pair_head
            { elem s.heap s.ssp_pair_head with next := (elem s.heap y).next }
          consumed := u32 (s.consumed + 1) } ys
        (by
          show linked _ _ ys (elem (s.heap.set s.ssp_pair_head
            { elem s.heap s.ssp_pair_head with next := (elem s.heap y).next })
              s.ssp_pair_head).next
          rw [hhd2]; exact hl2)
        (by simp; omega)
      show queue_pairs { s with
          heap := s.heap.set s.ssp_pair_head
            { elem s.heap s.ssp_pair_head with next := (elem s.heap y).next }
          consumed := u32 (s.consumed + 1) } = _
      rw [e]
      apply List.map_congr_left
      intro x hx
      have hxne : s.ssp_pair_head ≠ x := fun e => hys (e ▸ hx)
      simp only [elem_set _ _ _ _ hh, if_neg hxne]

/-- `ssp_sorter_get_pair` never touches the table. -/
theorem get_pair_ht (buf : Nat × Nat) (s : Sorter) :
    (ssp_sorter_get_pair buf s).2.2.ssp_ht = s.ssp_ht := by
  simp only [ssp_sorter_get_pair]
  split <;> rfl

theorem get_pair_queue_ok (buf : Nat × Nat) (s : Sorter) (hq : queue_ok s) :
    queue_ok (ssp_sorter_get_pair buf s).2.2 := by
  rcases get_pair_queue buf s hq with ⟨_, e⟩ | ⟨_, _, _, _, _, h, _⟩
  · rw [e]; exact hq
  · exact h

/-! ### Occupancy -/

theorem occupied_set : ∀ (cs : List ssp_point) (key : Nat) (v : ssp_point), key < cs.length →
    occupied (cs.set key v) + (if is_empty (cs.getD key empty_cell) then 0 else 1) =
      occupied cs + (if is_empty v then 0 else 1) := by
  intro cs
  induction cs with
  | nil => intro key v h; simp at h
  | cons c cs ih =>
    intro key v h
    cases key with
    | zero =>
      simp only [List.set_cons_zero, occupied, List.countP_cons, List.getD_cons_zero,
        decide_not, Bool.not_eq_true', decide_eq_false_iff_not]
      split_ifs <;> omega
    | succ key =>
      have := ih key v (by simpa using h)
      simp only [occupied, List.set_cons_succ, List.countP_cons, List.getD_cons_succ] at this ⊢
      omega

theorem occupied_le (cs : List ssp_point) : occupied cs ≤ cs.length :=
  List.countP_le_length _

theorem occupied_replicate (n : Nat) : occupied (List.replicate n empty_cell) = 0 := by
  simp [occupied, List.countP_replicate, is_empty, empty_cell]

/-- One insert of a point with non-zero tail keeps `size` equal to the number
of occupied cells. -/
theorem insert_counted (p : ssp_point) (s : Sorter) (hp : p.tail ≠ 0)
    (hcap : 0 < s.ssp_ht.max_size) (hmax : s.ssp_ht.max_size < 2 ^ 32)
    (htab : table_ok s.ssp_ht) (hsz : s.ssp_ht.size = occupied s.ssp_ht.cells) :
    table_ok (ssp_sorter_insert p s).ssp_ht ∧
    (ssp_sorter_insert p s).ssp_ht.max_size = s.ssp_ht.max_size ∧
    (ssp_sorter_insert p s).ssp_ht.size = occupied (ssp_sorter_insert p s).ssp_ht.cells := by
  have hpne : ¬ is_empty (⟨p.nonce2, p.tail⟩ : ssp_point) := fun h => hp h.2
  unfold ssp_sorter_insert
  rcases insert_loop_cases p s.ssp_ht.limit 0 { s with calls := u32 (s.calls + 1) } with
    ⟨j, _, _, he, e⟩ | ⟨j, _, _, hne, ht, e⟩ | e
  · rw [e]
    have hk : probe_key s.ssp_ht p.tail j < s.ssp_ht.cells.length := by
      rw [htab]; exact probe_key_lt _ _ _ hcap
    have ho := occupied_set s.ssp_ht.cells (probe_key s.ssp_ht p.tail j) ⟨p.nonce2, p.tail⟩ hk
    have he2 : is_empty (s.ssp_ht.cells.getD (probe_key s.ssp_ht p.tail j) empty_cell) := he
    rw [if_pos he2, if_neg hpne] at ho
    have hle := occupied_le (s.ssp_ht.cells.set (probe_key s.ssp_ht p.tail j) ⟨p.nonce2, p.tail⟩)
    rw [List.length_set, htab] at hle
    refine ⟨by simp [table_ok, ssp_sorter_store]; exact htab, rfl, ?_⟩
    show u32 (s.ssp_ht.size + 1) =
      occupied (s.ssp_ht.cells.set (probe_key s.ssp_ht p.tail j) ⟨p.nonce2, p.tail⟩)
    rw [u32_of_lt (by omega)]
    omega
  · rw [e]
    have hk : probe_key s.ssp_ht p.tail j < s.ssp_ht.cells.length := by
      rw [htab]; exact probe_key_lt _ _ _ hcap
    have ho := occupied_set s.ssp_ht.cells (probe_key s.ssp_ht p.tail j)
      ⟨0, (cell s.ssp_ht (probe_key s.ssp_ht p.tail j)).tail⟩ hk
    have hne2 : ¬ is_empty (s.ssp_ht.cells.getD (probe_key s.ssp_ht p.tail j) empty_cell) := hne
    have hne3 : ¬ is_empty
        (⟨0, (cell s.ssp_ht (probe_key s.ssp_ht p.tail j)).tail⟩ : ssp_point) := by
      rw [ht]; exact fun h => hp h.2
    rw [if_neg hne2, if_neg hne3] at ho
    refine ⟨by simp [table_ok, ssp_sorter_collide, ssp_pair_append]; exact htab, rfl, ?_⟩
    show s.ssp_ht.size = occupied (s.ssp_ht.cells.set (probe_key s.ssp_ht p.tail j)
      ⟨0, (cell s.ssp_ht (probe_key s.ssp_ht p.tail j)).tail⟩)
    omega
  · rw [e]
    exact ⟨htab, rfl, hsz⟩

theorem run_calls_snoc (s : Sorter) (cs : List sorter_call) (c : sorter_call) :
    run_calls s (cs ++ [c]) = run_call (run_calls s cs) c := by
  simp [run_calls, List.foldl_append]

theorem inserted_since_flush_snoc (cs : List sorter_call) (c : sorter_call) :
    inserted_since_flush (cs ++ [c]) = record_call (inserted_since_flush cs) c := by
  simp [inserted_since_flush, List.foldl_append]

/-- The occupancy invariant along a run whose inserted points have non-zero tails. -/
theorem run_counted (max_size limit c1 c2 : Nat) (fresh : ssp_pair_element)
    (hcap : 0 < max_size) (hmax : max_size < 2 ^ 32) :
    ∀ cs : List sorter_call, inserts_all (fun p => p.tail ≠ 0) cs →
      table_ok (run_calls (ssp_sorter_init max_size limit c1 c2 fresh) cs).ssp_ht ∧
      (run_calls (ssp_sorter_init max_size limit c1 c2 fresh) cs).ssp_ht.max_size = max_size ∧
      (run_calls (ssp_sorter_init max_size limit c1 c2 fresh) cs).ssp_ht.size =
        occupied (run_calls (ssp_sorter_init max_size limit c1 c2 fresh) cs).ssp_ht.cells := by
  intro cs
  induction cs using List.reverseRecOn with
  | nil =>
    intro _
    refine ⟨init_table_ok _ _ _ _ _, rfl, ?_⟩
    show 0 = occupied (List.replicate max_size empty_cell)
    rw [occupied_replicate]
  | append_singleton cs c ih =>
    intro h
    obtain ⟨h1, h2, h3⟩ := ih (fun p hp => h p (List.mem_append_left _ hp))
    rw [run_calls_snoc]
    cases c with
    | insert p =>
      have hp : p.tail ≠ 0 := h p (by simp)
      obtain ⟨k1, k2, k3⟩ := insert_counted p _ hp (by rw [h2]; exact hcap)
        (by rw [h2]; exact hmax) h1 h3
      exact ⟨k1, k2.trans h2, k3⟩
    | flush =>
      have hc : (ssp_sorter_flush
          (run_calls (ssp_sorter_init max_size limit c1 c2 fresh) cs)).ssp_ht.cells =
          List.replicate _ empty_cell := memset_cells_length _ _ h1
      refine ⟨?_, h2, ?_⟩
      · show (ssp_sorter_flush _).ssp_ht.cells.length = _
        rw [hc]; simp only [List.length_replicate]; rfl
      · show 0 = occupied (ssp_sorter_flush _).ssp_ht.cells
        rw [hc, occupied_replicate]
    | get_pair =>
      show table_ok (ssp_sorter_get_pair (0, 0) _).2.2.ssp_ht ∧
        (ssp_sorter_get_pair (0, 0) _).2.2.ssp_ht.max_size = max_size ∧
        (ssp_sorter_get_pair (0, 0) _).2.2.ssp_ht.size =
          occupied (ssp_sorter_get_pair (0, 0) _).2.2.ssp_ht.cells
      rw [get_pair_ht]
      exact ⟨h1, h2, h3⟩

/-- C3, as the code has it.  From the table built by `ssp_sorter_init` with
0 < capacity < 2^32, after every sequence of inserts of points with non-zero
tail, flushes and dequeues, `size` equals the number of cells that are not the
empty sentinel and is at most `max_size`. -/
theorem capacity_invariant (max_size limit c1 c2 : Nat) (fresh : ssp_pair_element)
    (cs : List sorter_call) (hcap : 0 < max_size) (hmax : max_size < 2 ^ 32)
    (htails : inserts_all (fun p => p.tail ≠ 0) cs) :
    (run_calls (ssp_sorter_init max_size limit c1 c2 fresh) cs).ssp_ht.size =
        occupied (run_calls (ssp_sorter_init max_size limit c1 c2 fresh) cs).ssp_ht.cells ∧
      (run_calls (ssp_sorter_init max_size limit c1 c2 fresh) cs).ssp_ht.size ≤
        (run_calls (ssp_sorter_init max_size limit c1 c2 fresh) cs).ssp_ht.max_size := by
  obtain ⟨h1, _, h3⟩ := run_counted max_size limit c1 c2 fresh hcap hmax cs htails
  refine ⟨h3, ?_⟩
  rw [h3, ← h1]
  exact occupied_le _

/-- C3 on a short run of the worked example's table. -/
theorem capacity_invariant_witness :
    (run_calls (ssp_sorter_init 16 4 1 1 no_element)
      [.insert ⟨11, 5⟩, .insert ⟨22, 5⟩, .insert ⟨33, 21⟩, .flush, .insert ⟨1, 7⟩]).ssp_ht.size =
      occupied (run_calls (ssp_sorter_init 16 4 1 1 no_element)
        [.insert ⟨11, 5⟩, .insert ⟨22, 5⟩, .insert ⟨33, 21⟩, .flush, .insert ⟨1, 7⟩]).ssp_ht.cells ∧
    (run_calls (ssp_sorter_init 16 4 1 1 no_element)
      [.insert ⟨11, 5⟩, .insert ⟨22, 5⟩, .insert ⟨33, 21⟩, .flush, .insert ⟨1, 7⟩]).ssp_ht.size ≤
      (run_calls (ssp_sorter_init 16 4 1 1 no_element)
        [.insert ⟨11, 5⟩, .insert ⟨22, 5⟩, .insert ⟨33, 21⟩, .flush, .insert ⟨1, 7⟩]).ssp_ht.max_size :=
  capacity_invariant 16 4 1 1 no_element
    [.insert ⟨11, 5⟩, .insert ⟨22, 5⟩, .insert ⟨33, 21⟩, .flush, .insert ⟨1, 7⟩]
    (by decide) (by decide)
    (by
      intro p hp
      simp only [List.mem_cons, sorter_call.insert.injEq, List.mem_singleton, List.not_mem_nil,
        or_false, reduceCtorEq, false_or] at hp
      rcases hp with rfl | rfl | rfl | rfl <;> decide)

/-- C3 as stated fails for points with tail 0.  With capacity 2 and probe
limit 1, inserting the non-sentinel points {1,0}, {2,0}, {1,0}, {2,0}, {1,0}
leaves one occupied cell while `size` is 3, more than `max_size`. -/
theorem capacity_invariant_counterexample :
    non_sentinel ⟨1, 0⟩ ∧ non_sentinel ⟨2, 0⟩ ∧
    (run_calls (ssp_sorter_init 2 1 0 0 no_element)
      [.insert ⟨1, 0⟩, .insert ⟨2, 0⟩, .insert ⟨1, 0⟩, .insert ⟨2, 0⟩, .insert ⟨1, 0⟩]).ssp_ht.size = 3 ∧
    occupied (run_calls (ssp_sorter_init 2 1 0 0 no_element)
      [.insert ⟨1, 0⟩, .insert ⟨2, 0⟩, .insert ⟨1, 0⟩, .insert ⟨2, 0⟩, .insert ⟨1, 0⟩]).ssp_ht.cells = 1 ∧
    (run_calls (ssp_sorter_init 2 1 0 0 no_element)
      [.insert ⟨1, 0⟩, .insert ⟨2, 0⟩, .insert ⟨1, 0⟩, .insert ⟨2, 0⟩, .insert ⟨1, 0⟩]).ssp_ht.max_size = 2 ∧
    ¬ ((run_calls (ssp_sorter_init 2 1 0 0 no_element)
      [.insert ⟨1, 0⟩, .insert ⟨2, 0⟩, .insert ⟨1, 0⟩, .insert ⟨2, 0⟩, .insert ⟨1, 0⟩]).ssp_ht.size ≤
      (run_calls (ssp_sorter_init 2 1 0 0 no_element)
      [.insert ⟨1, 0⟩, .insert ⟨2, 0⟩, .insert ⟨1, 0⟩, .insert ⟨2, 0⟩, .insert ⟨1, 0⟩]).ssp_ht.max_size) := by
  decide

/-! ### Where the pairs come from -/

theorem getD_set_cases (cs : List ssp_point) (key k : Nat) (v : ssp_point) :
    (cs.set key v).getD k empty_cell = v ∨ (cs.set key v).getD k empty_cell = cs.getD k empty_cell := by
  rw [List.getD_eq_getElem?_getD, List.getD_eq_getElem?_getD, List.getElem?_set]
  by_cases h : key = k
  · subst h
    by_cases h2 : key < cs.length
    · left; simp [h2]
    · right; simp [h2, List.getElem?_eq_none (Nat.le_of_not_lt h2)]
  · right; simp [h]

/-- One insert keeps every cell either with trial 0 or equal to a recorded point. -/
theorem insert_recorded (p : ssp_point) (s : Sorter) (hist : List ssp_point)
    (h : ∀ k, (cell s.ssp_ht k).nonce2 = 0 ∨ cell s.ssp_ht k ∈ hist) :
    ∀ k, (cell (ssp_sorter_insert p s).ssp_ht k).nonce2 = 0 ∨
      cell (ssp_sorter_insert p s).ssp_ht k ∈ hist ++ [p] := by
  intro k
  have hold : (cell s.ssp_ht k).nonce2 = 0 ∨ cell s.ssp_ht k ∈ hist ++ [p] := by
    rcases h k with h | h
    · exact Or.inl h
    · exact Or.inr (List.mem_append_left _ h)
  unfold ssp_sorter_insert
  rcases insert_loop_cases p s.ssp_ht.limit 0 { s with calls := u32 (s.calls + 1) } with
    ⟨j, _, _, _, e⟩ | ⟨j, _, _, _, _, e⟩ | e
  · rw [e]
    rcases getD_set_cases s.ssp_ht.cells (probe_key s.ssp_ht p.tail j) k ⟨p.nonce2, p.tail⟩ with
      h1 | h1
    · right
      show (s.ssp_ht.cells.set (probe_key s.ssp_ht p.tail j) ⟨p.nonce2, p.tail⟩).getD k empty_cell
        ∈ hist ++ [p]
      rw [h1]; simp
    · show ((s.ssp_ht.cells.set (probe_key s.ssp_ht p.tail j) ⟨p.nonce2, p.tail⟩).getD k
        empty_cell).nonce2 = 0 ∨
        (s.ssp_ht.cells.set (probe_key s.ssp_ht p.tail j) ⟨p.nonce2, p.tail⟩).getD k empty_cell
          ∈ hist ++ [p]
      rw [h1]; exact hold
  · rw [e]
    rcases getD_set_cases s.ssp_ht.cells (probe_key s.ssp_ht p.tail j) k
      ⟨0, (cell s.ssp_ht (probe_key s.ssp_ht p.tail j)).tail⟩ with h1 | h1
    · left
      show ((s.ssp_ht.cells.set (probe_key s.ssp_ht p.tail j)
        ⟨0, (cell s.ssp_ht (probe_key s.ssp_ht p.tail j)).tail⟩).getD k empty_cell).nonce2 = 0
      rw [h1]
    · show ((s.ssp_ht.cells.set (probe_key s.ssp_ht p.tail j)
        ⟨0, (cell s.ssp_ht (probe_key s.ssp_ht p.tail j)).tail⟩).getD k empty_cell).nonce2 = 0 ∨
        (s.ssp_ht.cells.set (probe_key s.ssp_ht p.tail j)
          ⟨0, (cell s.ssp_ht (probe_key s.ssp_ht p.tail j)).tail⟩).getD k empty_cell ∈ hist ++ [p]
      rw [h1]; exact hold
  · rw [e]; exact hold

theorem insert_table_ok (p : ssp_point) (s : Sorter) (h : table_ok s.ssp_ht) :
    table_ok (ssp_sorter_insert p s).ssp_ht := by
  unfold ssp_sorter_insert
  rcases insert_loop_cases p s.ssp_ht.limit 0 { s with calls := u32 (s.calls + 1) } with
    ⟨j, _, _, _, e⟩ | ⟨j, _, _, _, _, e⟩ | e
  · rw [e]; simp [table_ok, ssp_sorter_store]; exact h
  · rw [e]; simp [table_ok, ssp_sorter_collide, ssp_pair_append]; exact h
  · rw [e]; exact h

theorem insert_queue_ok (p : ssp_point) (s : Sorter) (h : queue_ok s) :
    queue_ok (ssp_sorter_insert p s) := by
  unfold ssp_sorter_insert
  rcases insert_loop_cases p s.ssp_ht.limit 0 { s with calls := u32 (s.calls + 1) } with
    ⟨j, _, _, _, e⟩ | ⟨j, _, _, _, _, e⟩ | e
  · rw [e]; exact h
  · rw [e]; exact (collide_queue p _ { s with calls := u32 (s.calls + 1) } h).1
  · rw [e]; exact h

/-- Along every run from `ssp_sorter_init` the table and the pair list stay
well formed and every cell has trial 0 or is a point inserted since the last
flush. -/
theorem run_recorded (max_size limit c1 c2 : Nat) (fresh : ssp_pair_element) :
    ∀ cs : List sorter_call,
      table_ok (run_calls (ssp_sorter_init max_size limit c1 c2 fresh) cs).ssp_ht ∧
      queue_ok (run_calls (ssp_sorter_init max_size limit c1 c2 fresh) cs) ∧
      ∀ k, (cell (run_calls (ssp_sorter_init max_size limit c1 c2 fresh) cs).ssp_ht k).nonce2 = 0 ∨
        cell (run_calls (ssp_sorter_init max_size limit c1 c2 fresh) cs).ssp_ht k ∈
          inserted_since_flush cs := by
  intro cs
  induction cs using List.reverseRecOn with
  | nil =>
    refine ⟨init_table_ok _ _ _ _ _, (init_queue_ok _ _ _ _ _).1, fun k => Or.inl ?_⟩
    show (cell (ssp_sorter_init max_size limit c1 c2 fresh).ssp_ht k).nonce2 = 0
    rw [cell_replicate _ max_size k rfl]; rfl
  | append_singleton cs c ih =>
    obtain ⟨h1, h2, h3⟩ := ih
    rw [run_calls_snoc, inserted_since_flush_snoc]
    cases c with
    | insert p =>
      exact ⟨insert_table_ok p _ h1, insert_queue_ok p _ h2, insert_recorded p _ _ h3⟩
    | flush =>
      have hc : (ssp_sorter_flush
          (run_calls (ssp_sorter_init max_size limit c1 c2 fresh) cs)).ssp_ht.cells =
          List.replicate _ empty_cell := memset_cells_length _ _ h1
      refine ⟨?_, h2, fun k => Or.inl ?_⟩
      · show (ssp_sorter_flush _).ssp_ht.cells.length = _
        rw [hc]; simp only [List.length_replicate]; rfl
      · show (cell (ssp_sorter_flush _).ssp_ht k).nonce2 = 0
        rw [cell_replicate _ _ k hc]; rfl
    | get_pair =>
      refine ⟨?_, get_pair_queue_ok _ _ h2, ?_⟩
      · show table_ok (ssp_sorter_get_pair (0, 0) _).2.2.ssp_ht
        rw [get_pair_ht]; exact h1
      · intro k
        show (cell (ssp_sorter_get_pair (0, 0) _).2.2.ssp_ht k).nonce2 = 0 ∨
          cell (ssp_sorter_get_pair (0, 0) _).2.2.ssp_ht k ∈ inserted_since_flush cs
        rw [get_pair_ht]; exact h3 k

/-- C4, as the code has it.  In every run from `ssp_sorter_init`, an insert of
`p` appends at most one pair; its first component is the trial of `p`, and its
second component is either the trial of a point inserted earlier since the
last flush with the same tail as `p`, or 0 (the trial left in a cell that an
earlier collision has already matched).  The two need not differ. -/
theorem pair_soundness (max_size limit c1 c2 : Nat) (fresh : ssp_pair_element)
    (cs : List sorter_call) (p : ssp_point) :
    ∃ new : List (Nat × Nat),
      queue_pairs (ssp_sorter_insert p (run_calls (ssp_sorter_init max_size limit c1 c2 fresh) cs)) =
        queue_pairs (run_calls (ssp_sorter_init max_size limit c1 c2 fresh) cs) ++ new ∧
      new.length ≤ 1 ∧
      ∀ xy ∈ new, xy.1 = p.nonce2 ∧
        (xy.2 = 0 ∨ (⟨xy.2, p.tail⟩ : ssp_point) ∈ inserted_since_flush cs) := by
  obtain ⟨_, hq, hrec⟩ := run_recorded max_size limit c1 c2 fresh cs
  generalize run_calls (ssp_sorter_init max_size limit c1 c2 fresh) cs = s at hq hrec
  unfold ssp_sorter_insert
  rcases insert_loop_cases p s.ssp_ht.limit 0 { s with calls := u32 (s.calls + 1) } with
    ⟨j, _, _, _, e⟩ | ⟨j, _, _, _, ht, e⟩ | e
  · exact ⟨[], by rw [e]; simp; rfl, by simp, by simp⟩
  · refine ⟨[(p.nonce2, (cell s.ssp_ht (probe_key s.ssp_ht p.tail j)).nonce2)], ?_, by simp, ?_⟩
    · rw [e]
      exact (collide_queue p _ { s with calls := u32 (s.calls + 1) } hq).2
    · intro xy hxy
      rw [List.mem_singleton] at hxy
      subst hxy
      refine ⟨rfl, ?_⟩
      rcases hrec (probe_key s.ssp_ht p.tail j) with h | h
      · exact Or.inl h
      · right
        have ht2 : (⟨(cell s.ssp_ht (probe_key s.ssp_ht p.tail j)).nonce2, p.tail⟩ : ssp_point) =
            cell s.ssp_ht (probe_key s.ssp_ht p.tail j) :=
          congrArg (ssp_point.mk (cell s.ssp_ht (probe_key s.ssp_ht p.tail j)).nonce2) ht.symm
        show (⟨(cell s.ssp_ht (probe_key s.ssp_ht p.tail j)).nonce2, p.tail⟩ : ssp_point) ∈ _
        rw [ht2]
        exact h
  · exact ⟨[], by rw [e]; simp; rfl, by simp, by simp⟩

/-- C4 as stated fails.  After {1,5}, {2,5}, {3,5} the list holds {2,1} and
{3,0} although no point with trial 0 was inserted; after {7,5}, {7,5} it holds
{7,7}, whose two trials are equal. -/
theorem pair_soundness_counterexample :
    queue_pairs (run_calls (ssp_sorter_init 16 4 1 1 no_element)
      [.insert ⟨1, 5⟩, .insert ⟨2, 5⟩, .insert ⟨3, 5⟩]) = [(2, 1), (3, 0)] ∧
    inserted_since_flush [.insert ⟨1, 5⟩, .insert ⟨2, 5⟩, .insert ⟨3, 5⟩] =
      [⟨1, 5⟩, ⟨2, 5⟩, ⟨3, 5⟩] ∧
    queue_pairs (run_calls (ssp_sorter_init 16 4 1 1 no_element)
      [.insert ⟨7, 5⟩, .insert ⟨7, 5⟩]) = [(7, 7)] := by
  decide

/-! ### First in, first out -/

theorem append_all_queue : ∀ (ps : List (Nat × Nat)) (s : Sorter), queue_ok s →
    queue_ok (append_all s ps) ∧ queue_pairs (append_all s ps) = queue_pairs s ++ ps := by
  intro ps
  induction ps with
  | nil => intro s h; exact ⟨h, by simp [append_all]⟩
  | cons q qs ih =>
    intro s h
    obtain ⟨h1, h2⟩ := append_queue q.1 q.2 s h
    obtain ⟨h3, h4⟩ := ih (ssp_pair_append q.1 q.2 s) h1
    refine ⟨h3, ?_⟩
    show queue_pairs (append_all (ssp_pair_append q.1 q.2 s) qs) = _
    rw [h4, h2]
    simp

/-- Draining a well-formed list delivers its pairs oldest first and empties it. -/
theorem get_pairs_queue : ∀ (q : List (Nat × Nat)) (buf : Nat × Nat) (s : Sorter),
    queue_ok s → queue_pairs s = q →
      (get_pairs q.length buf s).1 = q.map (fun x => (1, x)) ∧
      queue_ok (get_pairs q.length buf s).2 ∧ queue_pairs (get_pairs q.length buf s).2 = [] := by
  intro q
  induction q with
  | nil => intro buf s h hq; exact ⟨rfl, h, hq⟩
  | cons x xs ih =>
    intro buf s h hq
    rcases get_pair_queue buf s h with ⟨h0, _⟩ | ⟨y, rest, h1, h2, h3, h4, h5, _⟩
    · rw [h0] at hq; cases hq
    · rw [h1] at hq
      obtain ⟨rfl, rfl⟩ := List.cons.inj hq
      obtain ⟨k1, k2, k3⟩ := ih (ssp_sorter_get_pair buf s).2.1 (ssp_sorter_get_pair buf s).2.2 h4 h5
      refine ⟨?_, k2, k3⟩
      simp only [List.length_cons, get_pairs, List.map_cons]
      rw [k1, h2, h3]

/-- An interleaving of appends and dequeues delivers, followed by what is
still waiting, exactly what was there and what was appended, in order. -/
theorem run_queue_order : ∀ (cs : List queue_call) (s : Sorter) (got : List (Nat × Nat)),
    queue_ok s →
      (run_queue s got cs).2 ++ queue_pairs (run_queue s got cs).1 =
        got ++ queue_pairs s ++ appended cs := by
  intro cs
  induction cs with
  | nil => intro s got _; simp [run_queue, appended]
  | cons c cs ih =>
    intro s got h
    cases c with
    | append n0 n1 =>
      obtain ⟨h1, h2⟩ := append_queue n0 n1 s h
      simp only [run_queue, appended]
      rw [ih _ got h1, h2]
      simp
    | get_pair =>
      simp only [run_queue, appended]
      rcases get_pair_queue (0, 0) s h with ⟨h0, e⟩ | ⟨y, rest, h1, h2, h3, h4, h5, _⟩
      · rw [e]
        simp only [if_neg (show ¬ (0 : Nat) = 1 by decide)]
        exact ih s got h
      · rw [if_pos h2, ih _ _ h4, h5, h3, h1]
        simp

/-- C7 (queue ordering).  On the list built by `ssp_sorter_init`, after the
collision branch has appended the pairs `ps`, that many calls of
`ssp_sorter_get_pair` each return 1 and deliver `ps` in order; one more call
returns 0 and changes neither the caller's buffer nor the state.  Under any
interleaving of appends and dequeues the pairs delivered, followed by the ones
still waiting, are the appended pairs in the order of appending. -/
theorem queue_fifo (max_size limit c1 c2 : Nat) (fresh : ssp_pair_element)
    (ps : List (Nat × Nat)) (buf last : Nat × Nat) (cs : List queue_call) :
    (get_pairs ps.length buf
        (append_all (ssp_sorter_init max_size limit c1 c2 fresh) ps)).1 =
        ps.map (fun x => (1, x)) ∧
      ssp_sorter_get_pair last (get_pairs ps.length buf
        (append_all (ssp_sorter_init max_size limit c1 c2 fresh) ps)).2 =
        (0, last, (get_pairs ps.length buf
          (append_all (ssp_sorter_init max_size limit c1 c2 fresh) ps)).2) ∧
      (run_queue (ssp_sorter_init max_size limit c1 c2 fresh) [] cs).2 ++
        queue_pairs (run_queue (ssp_sorter_init max_size limit c1 c2 fresh) [] cs).1 =
        appended cs := by
  obtain ⟨hq0, he0⟩ := init_queue_ok max_size limit c1 c2 fresh
  obtain ⟨h1, h2⟩ := append_all_queue ps _ hq0
  rw [he0, List.nil_append] at h2
  obtain ⟨k1, k2, k3⟩ := get_pairs_queue ps buf _ h1 h2
  refine ⟨k1, ?_, ?_⟩
  · rcases get_pair_queue last _ k2 with ⟨_, e⟩ | ⟨y, rest, e, _⟩
    · exact e
    · rw [k3] at e; cases e
  · rw [run_queue_order cs _ [] hq0, he0]
    simp

/-- C7 on the example of the specification: {1,2}, {3,4}, {5,6} appended, then
four dequeues; the fourth returns 0 and leaves the buffer as the third left it. -/
theorem queue_fifo_witness :
    (get_pairs 3 (0, 0) (append_all (ssp_sorter_init 16 4 1 1 no_element)
      [(1, 2), (3, 4), (5, 6)])).1 = [(1, (1, 2)), (1, (3, 4)), (1, (5, 6))] ∧
    (ssp_sorter_get_pair (5, 6) (get_pairs 3 (0, 0) (append_all (ssp_sorter_init 16 4 1 1 no_element)
      [(1, 2), (3, 4), (5, 6)])).2).1 = 0 ∧
    (ssp_sorter_get_pair (5, 6) (get_pairs 3 (0, 0) (append_all (ssp_sorter_init 16 4 1 1 no_element)
      [(1, 2), (3, 4), (5, 6)])).2).2.1 = (5, 6) :=
  have h := queue_fifo 16 4 1 1 no_element [(1, 2), (3, 4), (5, 6)] (0, 0) (5, 6) []
  ⟨h.1, congrArg (fun r => r.1) h.2.1, congrArg (fun r => r.2.1) h.2.1⟩

/-! ## Theorems about the program builder -/

theorem u32_succ (n : Nat) : u32 (u32 n + 1) = u32 (n + 1) := by
  unfold u32; omega

/-- Under `0 <= nonce2_offset <= coinbase_len` the C lengths are the
quantities of the specification. -/
theorem lengths_eq (p : pool) (h0 : 0 ≤ p.nonce2_offset) (h1 : p.nonce2_offset ≤ p.coinbase_len) :
    coinbase_len_prehash p = (prehash_len p : Int) ∧
    ((coinbase_len_posthash p).tdiv SHA256_BLOCK_SIZE).toNat = full_blocks p ∧
    ((coinbase_len_posthash p).tmod SHA256_BLOCK_SIZE).toNat = remainder p ∧
    0 ≤ (coinbase_len_posthash p).tmod SHA256_BLOCK_SIZE := by
  have e1 : coinbase_len_prehash p = (prehash_len p : Int) := by
    unfold coinbase_len_prehash prehash_len SHA256_BLOCK_SIZE
    rw [Int.tmod_eq_emod h0 (by norm_num)]
    omega
  have hpos : 0 ≤ coinbase_len_posthash p := by
    unfold coinbase_len_posthash
    rw [e1]; unfold prehash_len; omega
  refine ⟨e1, ?_, ?_, ?_⟩
  · unfold SHA256_BLOCK_SIZE
    rw [Int.tdiv_eq_ediv hpos (by norm_num)]
    unfold coinbase_len_posthash full_blocks
    rw [e1]; unfold prehash_len; omega
  · unfold SHA256_BLOCK_SIZE
    rw [Int.tmod_eq_emod hpos (by norm_num)]
    unfold coinbase_len_posthash remainder
    rw [e1]; unfold prehash_len; omega
  · exact Int.tmod_nonneg _ hpos

/-- With consistent lengths `ssp_hasher_update_stratum` has a result, built
from the quantities of the specification. -/
theorem update_stratum_eq (sha : sha256_ops) (p : pool) (inst : ssp_hasher_instruction)
    (s : ssp_info) (h0 : 0 ≤ p.nonce2_offset) (h1 : p.nonce2_offset ≤ p.coinbase_len) :
    ssp_hasher_update_stratum sha p inst s =
      some (ssp_hasher_start
        { ssp_hasher_stop s with
          iram := (build_program sha p (prehash_len p) (full_blocks p) (remainder p) inst
            (ssp_hasher_stop s).iram).iram
          stratum_update := true },
        (build_program sha p (prehash_len p) (full_blocks p) (remainder p) inst
          (ssp_hasher_stop s).iram).written) := by
  obtain ⟨e1, e2, e3, e4⟩ := lengths_eq p h0 h1
  have hg : ¬ (coinbase_len_prehash p < 0 ∨
      (coinbase_len_posthash p).tmod SHA256_BLOCK_SIZE < 0) := by
    rw [e1]; omega
  simp only [ssp_hasher_update_stratum, if_neg hg, e2, e3]
  rw [e1]
  simp only [Int.toNat_ofNat]

theorem extends_by_refl (b : builder) (h : b.inst_index = u32 b.written.length) :
    extends_by b b 0 :=
  ⟨[], by simp, rfl, by simp, by simp, by simpa using h⟩

theorem extends_by_trans {b1 b2 b3 : builder} {c d : Nat}
    (h12 : extends_by b1 b2 c) (h23 : extends_by b2 b3 d) : extends_by b1 b3 (c + d) := by
  obtain ⟨L, e1, l1, m1, o1, i1⟩ := h12
  obtain ⟨M, e2, l2, m2, o2, i2⟩ := h23
  have hlen : b2.written.length = b1.written.length + c := by rw [e1]; simp [l1]
  refine ⟨L ++ M, by rw [e2, e1, List.append_assoc], by simp [l1, l2], ?_, ?_, ?_⟩
  · rw [List.map_append, m1, m2, List.range_add, List.map_append, List.map_map, hlen]
    congr 1
    apply List.map_congr_left
    intro k _
    simp [Nat.add_assoc]
  · intro e he
    rcases List.mem_append.1 he with h | h
    · exact o1 e h
    · exact o2 e h
  · rw [i2, hlen, Nat.add_assoc]

/-- Writing one instruction without the done bit and stepping the index. -/
theorem emit_extends (b : builder) (i : ssp_hasher_instruction)
    (h : b.inst_index = u32 b.written.length) (hop : i.opcode.testBit 18 = false) :
    extends_by b (advance (fill { b with inst := i })) 1 := by
  refine ⟨[(b.inst_index, i)], rfl, rfl, ?_, ?_, ?_⟩
  · simp [h, List.range_succ]
  · intro e he
    rw [List.mem_singleton] at he
    rw [he]; exact hop
  · show u32 (b.inst_index + 1) = _
    rw [h, u32_succ]

theorem extends_by_index {b1 b2 : builder} {c : Nat} (h : extends_by b1 b2 c) :
    b2.inst_index = u32 b2.written.length := by
  obtain ⟨L, e1, l1, _, _, i1⟩ := h
  rw [i1, e1]; simp [l1]

theorem next_addr_bit (x : Nat) : (NEXT_ADDR x).testBit 18 = false := by
  unfold NEXT_ADDR
  rw [Nat.testBit_shiftLeft, Nat.testBit_and]
  have : (0x1ff : Nat).testBit (18 - 8) = false :=
    Nat.testBit_lt_two_pow (by norm_num)
  simp [this]

theorem prehash_step_extends (sha : sha256_ops) (p : pool) (prehash : Nat) (b : builder)
    (h : b.inst_index = u32 b.written.length) :
    extends_by b (prehash_step sha p prehash b) 1 :=
  emit_extends b _ h (Nat.zero_testBit 18)

theorem coinbase_block_extends (p : pool) (prehash i : Nat) (b : builder)
    (h0 : 0 ≤ p.nonce2_offset) (h : b.inst_index = u32 b.written.length) :
    extends_by b (coinbase_block p prehash i b) 1 := by
  apply emit_extends b _ h
  have hpos : (63 - p.nonce2_offset.tmod 64).toNat < 2 ^ 18 := by
    rw [Int.tmod_eq_emod h0 (by norm_num)]
    omega
  have h1 : (INST_DATA_IRAM : Nat).testBit 18 = false := by decide
  have h2 : (INST_MID_INIT : Nat).testBit 18 = false := by decide
  have h3 : (INST_MID_LASTHASH : Nat).testBit 18 = false := by decide
  show (if i = 0 then _ else _ : Nat).testBit 18 = false
  split
  · simp only [Nat.testBit_lor, h1, h2, next_addr_bit, Nat.testBit_lt_two_pow hpos, Bool.or_self]
  · simp only [Nat.testBit_lor, h1, h3, next_addr_bit, Bool.or_self]

theorem coinbase_blocks_extends (p : pool) (prehash : Nat) (h0 : 0 ≤ p.nonce2_offset) :
    ∀ (n i : Nat) (b : builder), b.inst_index = u32 b.written.length →
      extends_by b (coinbase_blocks p prehash n i b) n := by
  intro n
  induction n with
  | zero => intro i b h; exact extends_by_refl b h
  | succ n ih =>
    intro i b h
    have h1 := coinbase_block_extends p prehash i b h0 h
    have h2 := ih (i + 1) _ (extends_by_index h1)
    have := extends_by_trans h1 h2
    have e : 1 + n = n + 1 := by omega
    rw [e] at this
    exact this

theorem trailing_block_extends (p : pool) (prehash i rem : Nat) (b : builder)
    (h : b.inst_index = u32 b.written.length) :
    extends_by b (trailing_block p prehash i rem b) 1 := by
  apply emit_extends b _ h
  have h1 : (INST_DATA_IRAM : Nat).testBit 18 = false := by decide
  have h3 : (INST_MID_LASTHASH : Nat).testBit 18 = false := by decide
  simp only [Nat.testBit_lor, h1, h3, next_addr_bit, Bool.or_self]

theorem double_hash_extends (b : builder) (h : b.inst_index = u32 b.written.length) :
    extends_by b (double_hash b) 1 := by
  apply emit_extends b _ h
  have h1 : (INST_DATA_LASTHASH_PAD : Nat).testBit 18 = false := by decide
  have h2 : (INST_MID_INIT : Nat).testBit 18 = false := by decide
  simp only [Nat.testBit_lor, h1, h2, next_addr_bit, Bool.or_self]

theorem merkle_round_extends (p : pool) (i : Nat) (b : builder)
    (h : b.inst_index = u32 b.written.length) :
    extends_by b (merkle_round p i b) 3 := by
  have k1 : (INST_DATA_LASTHASH_IRAM : Nat).testBit 18 = false := by decide
  have k2 : (INST_MID_INIT : Nat).testBit 18 = false := by decide
  have k3 : (INST_DATA_PAD512 : Nat).testBit 18 = false := by decide
  have k4 : (INST_MID_LASTHASH : Nat).testBit 18 = false := by decide
  have e1 := emit_extends b
    ⟨(INST_DATA_LASTHASH_IRAM ||| INST_MID_INIT) ||| NEXT_ADDR (u32 (b.inst_index + 1)),
      memcpy b.inst.data 32 (fun k => merkle_byte p i k) 32⟩ h
    (by simp only [Nat.testBit_lor, k1, k2, next_addr_bit, Bool.or_self])
  have e2 := emit_extends _
    ⟨(INST_DATA_PAD512 ||| INST_MID_LASTHASH) ||| NEXT_ADDR (u32 ((advance (fill { b with inst :=
      ⟨(INST_DATA_LASTHASH_IRAM ||| INST_MID_INIT) ||| NEXT_ADDR (u32 (b.inst_index + 1)),
        memcpy b.inst.data 32 (fun k => merkle_byte p i k) 32⟩ })).inst_index + 1)), zero_data⟩
    (extends_by_index e1)
    (by simp only [Nat.testBit_lor, k3, k4, next_addr_bit, Bool.or_self])
  have e3 := double_hash_extends _ (extends_by_index e2)
  exact extends_by_trans (extends_by_trans e1 e2) e3

theorem merkle_rounds_extends (p : pool) :
    ∀ (n i : Nat) (b : builder), b.inst_index = u32 b.written.length →
      extends_by b (merkle_rounds p n i b) (3 * n) := by
  intro n
  induction n with
  | zero => intro i b h; exact extends_by_refl b h
  | succ n ih =>
    intro i b h
    have h1 := merkle_round_extends p i b h
    have h2 := ih (i + 1) _ (extends_by_index h1)
    have := extends_by_trans h1 h2
    have e : 3 + 3 * n = 3 * (n + 1) := by omega
    rw [e] at this
    exact this

/-- Everything `build_program` writes before the final instruction. -/
theorem build_program_body (sha : sha256_ops) (p : pool) (prehash a rem : Nat)
    (inst : ssp_hasher_instruction) (iram : Nat → Nat) (h0 : 0 ≤ p.nonce2_offset) :
    ∃ b : builder,
      build_program sha p prehash a rem inst iram = done_step b ∧
      extends_by ⟨inst, 0, iram, []⟩ b
        (1 + a + (if rem ≠ 0 then 1 else 0) + 1 + 3 * p.merkles.toNat) := by
  have s1 := prehash_step_extends sha p prehash ⟨inst, 0, iram, []⟩ rfl
  have s2 := coinbase_blocks_extends p prehash h0 a 0 _ (extends_by_index s1)
  have s12 := extends_by_trans s1 s2
  by_cases hr : rem ≠ 0
  · have s3 := trailing_block_extends p prehash a rem _ (extends_by_index s12)
    have s123 := extends_by_trans s12 s3
    have s4 := double_hash_extends _ (extends_by_index s123)
    have s1234 := extends_by_trans s123 s4
    have s5 := merkle_rounds_extends p p.merkles.toNat 0 _ (extends_by_index s1234)
    refine ⟨_, ?_, by simpa only [if_pos hr] using extends_by_trans s1234 s5⟩
    simp only [build_program, if_pos hr]
  · have s4 := double_hash_extends _ (extends_by_index s12)
    have s124 := extends_by_trans s12 s4
    have s5 := merkle_rounds_extends p p.merkles.toNat 0 _ (extends_by_index s124)
    refine ⟨_, ?_, by simpa only [if_neg hr, Nat.add_zero] using extends_by_trans s124 s5⟩
    simp only [build_program, if_neg hr]

theorem program_length_eq (p : pool) :
    program_length p =
      1 + full_blocks p + (if remainder p ≠ 0 then 1 else 0) + 1 + 3 * p.merkles.toNat + 1 := by
  unfold program_length
  by_cases h : remainder p = 0
  · simp [h]
  · have h2 : remainder p > 0 := Nat.pos_of_ne_zero h
    simp [h, h2]

/-- C8 (program length).  For a work template with
`0 <= nonce2_offset <= coinbase_len` whose program fits the 32-bit instruction
index, `ssp_hasher_update_stratum` writes exactly
`N = 1 + full_blocks + (1 if remainder > 0) + 1 + 3 * m + 1` instructions, at
the consecutive indices `0 .. N-1` in this order. -/
theorem program_indices (sha : sha256_ops) (p : pool) (inst : ssp_hasher_instruction)
    (s : ssp_info) (h0 : 0 ≤ p.nonce2_offset) (h1 : p.nonce2_offset ≤ p.coinbase_len)
    (hN : program_length p ≤ 2 ^ 32) :
    ∃ r, ssp_hasher_update_stratum sha p inst s = some r ∧
      r.2.length = program_length p ∧
      r.2.map Prod.fst = List.range (program_length p) := by
  rw [update_stratum_eq sha p inst s h0 h1]
  obtain ⟨b, hb, L, e1, l1, m1, _, i1⟩ :=
    build_program_body sha p (prehash_len p) (full_blocks p) (remainder p) inst
      (ssp_hasher_stop s).iram h0
  refine ⟨_, rfl, ?_, ?_⟩
  · show (build_program sha p (prehash_len p) (full_blocks p) (remainder p) inst
      (ssp_hasher_stop s).iram).written.length = _
    rw [hb, program_length_eq]
    show (b.written ++ [(b.inst_index, _)]).length = _
    rw [e1]
    simp [l1]
  · show (build_program sha p (prehash_len p) (full_blocks p) (remainder p) inst
      (ssp_hasher_stop s).iram).written.map Prod.fst = _
    rw [hb, program_length_eq] at *
    show (b.written ++ [(b.inst_index, _)]).map Prod.fst = _
    rw [e1, i1, List.range_succ]
    simp only [List.nil_append, List.map_append, List.map_cons, List.map_nil, m1,
      List.length_nil, Nat.zero_add]
    congr 1
    · conv_rhs => rw [← List.map_id (List.range _)]
      apply List.map_congr_left
      intro k hk
      rw [List.mem_range] at hk
      exact u32_of_lt (by omega)
    · rw [u32_of_lt (by omega)]

/-- C8 on the canonical vector of `ssp_hasher_test`: 41 instructions at
indices 0 .. 40. -/
theorem program_indices_witness :
    program_length test_pool = 41 ∧
    ∃ r, ssp_hasher_update_stratum sha_stub test_pool ⟨0, []⟩ ⟨fun _ => 0, false, false⟩ = some r ∧
      r.2.length = 41 ∧ r.2.map Prod.fst = List.range 41 := by
  have e : program_length test_pool = 41 := by decide
  have h := program_indices sha_stub test_pool ⟨0, []⟩ ⟨fun _ => 0, false, false⟩
    (by decide) (by decide) (by rw [e]; norm_num)
  rw [e] at h
  exact ⟨e, h⟩

/-- C9 (terminal instruction).  For a work template with
`0 <= nonce2_offset <= coinbase_len` the last instruction written has opcode
`0x00040000`, and no instruction written before it has bit 18 set; in
particular none of them has opcode `0x00040000`. -/
theorem terminal_instruction (sha : sha256_ops) (p : pool) (inst : ssp_hasher_instruction)
    (s : ssp_info) (h0 : 0 ≤ p.nonce2_offset) (h1 : p.nonce2_offset ≤ p.coinbase_len) :
    ∃ r body last, ssp_hasher_update_stratum sha p inst s = some r ∧
      r.2 = body ++ [last] ∧ last.2.opcode = 0x00040000 ∧
      ∀ e ∈ body, e.2.opcode.testBit 18 = false ∧ e.2.opcode ≠ 0x00040000 := by
  rw [update_stratum_eq sha p inst s h0 h1]
  obtain ⟨b, hb, L, e1, _, _, o1, _⟩ :=
    build_program_body sha p (prehash_len p) (full_blocks p) (remainder p) inst
      (ssp_hasher_stop s).iram h0
  refine ⟨_, L, (b.inst_index, { b.inst with opcode := INST_DONE }), rfl, ?_, rfl, ?_⟩
  · show (build_program sha p (prehash_len p) (full_blocks p) (remainder p) inst
      (ssp_hasher_stop s).iram).written = _
    rw [hb]
    show b.written ++ [(b.inst_index, _)] = _
    rw [e1]; rfl
  · intro e he
    refine ⟨o1 e he, fun h => ?_⟩
    have := o1 e he
    rw [h] at this
    revert this
    decide

/-- C9 on the canonical vector of `ssp_hasher_test`. -/
theorem terminal_instruction_witness :
    ∃ r body last,
      ssp_hasher_update_stratum sha_stub test_pool ⟨0, []⟩ ⟨fun _ => 0, false, false⟩ = some r ∧
      r.2 = body ++ [last] ∧ last.2.opcode = 0x00040000 ∧
      ∀ e ∈ body, e.2.opcode.testBit 18 = false ∧ e.2.opcode ≠ 0x00040000 :=
  terminal_instruction sha_stub test_pool ⟨0, []⟩ ⟨fun _ => 0, false, false⟩
    (by decide) (by decide)

/-! ### The trailing block -/

theorem getD_set (d : List Nat) (j k v : Nat) :
    (d.set j v).getD k 0 = if j = k ∧ j < d.length then v else d.getD k 0 := by
  rw [List.getD_eq_getElem?_getD, List.getD_eq_getElem?_getD, List.getElem?_set]
  by_cases h : j = k
  · subst h
    by_cases h2 : j < d.length
    · simp [h2]
    · simp [h2, List.getElem?_eq_none (Nat.le_of_not_lt h2)]
  · simp [h]

theorem getD_memcpy (d : List Nat) (off : Nat) (src : Nat → Nat) (n k : Nat) (hk : k < d.length) :
    (memcpy d off src n).getD k 0 = if off ≤ k ∧ k < off + n then src (k - off) else d.getD k 0 := by
  unfold memcpy
  rw [List.getD_eq_getElem?_getD, List.getElem?_map, List.getElem?_range hk]
  rfl

theorem length_memcpy (d : List Nat) (off : Nat) (src : Nat → Nat) (n : Nat) :
    (memcpy d off src n).length = d.length := by
  simp [memcpy]

theorem getD_zero_data (k : Nat) : zero_data.getD k 0 = 0 := by
  unfold zero_data
  rw [List.getD_eq_getElem?_getD, List.getElem?_replicate]
  split <;> rfl

/-- The length loop with `n` iterations left writes bytes `56 .. 55 + n`, byte
`k` receiving bits `8 * (63 - k) ..` of the length, and nothing else. -/
theorem getD_length_bytes (bits : Nat) : ∀ (n : Nat) (d : List Nat) (k : Nat), n ≤ 8 →
    (length_bytes bits n d).getD k 0 =
      if 56 ≤ k ∧ k ≤ 55 + n ∧ k < d.length then (bits >>> ((63 - k) * 8)) &&& 0xff
      else d.getD k 0 := by
  intro n
  induction n with
  | zero =>
    intro d k _
    have : ¬ (56 ≤ k ∧ k ≤ 55 + 0 ∧ k < d.length) := by omega
    rw [if_neg this]; rfl
  | succ n ih =>
    intro d k hn
    simp only [length_bytes]
    rw [ih _ k (by omega), List.length_set, getD_set]
    by_cases hk : k = 56 + n
    · subst hk
      have e1 : 63 - (8 - (n + 1)) = 56 + n := by omega
      have e2 : 8 - (n + 1) = 63 - (56 + n) := by omega
      rw [e1, e2]
      by_cases hl : 56 + n < d.length
      · have c1 : ¬ (56 ≤ 56 + n ∧ 56 + n ≤ 55 + n ∧ 56 + n < d.length) := by omega
        have c2 : 56 ≤ 56 + n ∧ 56 + n ≤ 55 + (n + 1) ∧ 56 + n < d.length := by omega
        rw [if_neg c1, if_pos ⟨rfl, hl⟩, if_pos c2]
      · have c1 : ¬ (56 ≤ 56 + n ∧ 56 + n ≤ 55 + n ∧ 56 + n < d.length) := by omega
        have c2 : ¬ (56 ≤ 56 + n ∧ 56 + n ≤ 55 + (n + 1) ∧ 56 + n < d.length) := by omega
        have c3 : ¬ (56 + n = 56 + n ∧ 56 + n < d.length) := by omega
        rw [if_neg c1, if_neg c3, if_neg c2]
    · have c3 : ¬ (63 - (8 - (n + 1)) = k ∧ 63 - (8 - (n + 1)) < d.length) := by omega
      rw [if_neg c3]
      by_cases c : 56 ≤ k ∧ k ≤ 55 + n ∧ k < d.length
      · rw [if_pos c, if_pos (by omega)]
      · rw [if_neg c, if_neg (by omega)]

/-- The payload the trailing block builds, byte by byte, for `rem <= 55`. -/
theorem trailing_data (bits rem : Nat) (src : Nat → Nat) (k : Nat) (hr : rem ≤ 55) (hk : k < 64) :
    (length_bytes bits 8 ((memcpy zero_data 0 src rem).set rem 0x80)).getD k 0 =
      if k < rem then src k
      else if k = rem then 0x80
      else if k ≤ 55 then 0
      else (bits >>> ((63 - k) * 8)) &&& 0xff := by
  have hlen : (memcpy zero_data 0 src rem).length = 64 := by
    rw [length_memcpy]; rfl
  rw [getD_length_bytes bits 8 _ k (le_refl _), List.length_set, hlen, getD_set, hlen,
    getD_memcpy _ _ _ _ _ (by rw [show zero_data.length = 64 from rfl]; exact hk), getD_zero_data]
  by_cases h1 : k < rem
  · rw [if_neg (by omega), if_neg (by omega), if_pos (by omega), if_pos h1]
    simp
  · rw [if_neg h1]
    by_cases h2 : k = rem
    · rw [if_neg (by omega), if_pos (by omega), if_pos h2]
    · rw [if_neg h2]
      by_cases h3 : k ≤ 55
      · rw [if_neg (by omega), if_neg (by omega), if_neg (by omega), if_pos h3]
      · rw [if_pos (by omega), if_neg h3]

theorem written_at_length (w1 w2 : List (Nat × ssp_hasher_instruction))
    (e : Nat × ssp_hasher_instruction) :
    written_at (w1 ++ e :: w2) w1.length = e.2 := by
  unfold written_at
  rw [List.getD_eq_getElem?_getD, List.getElem?_append_right (le_refl _)]
  simp

/-- The instruction at position `1 + a` of the program when `rem` is not 0 is
the one the trailing block writes. -/
theorem build_program_trailing (sha : sha256_ops) (p : pool) (prehash a rem : Nat)
    (inst : ssp_hasher_instruction) (iram : Nat → Nat) (h0 : 0 ≤ p.nonce2_offset)
    (hr : rem ≠ 0) :
    ∃ idx : Nat,
      written_at (build_program sha p prehash a rem inst iram).written (1 + a) =
        ⟨(INST_DATA_IRAM ||| NEXT_ADDR (u32 (idx + 1))) ||| INST_MID_LASTHASH,
          length_bytes (p.coinbase_len * 8 % 2 ^ 64).toNat 8
            ((memcpy zero_data 0 (fun k => coinbase_byte p (prehash + a * 64 + k)) rem).set
              rem 0x80)⟩ := by
  have s1 := prehash_step_extends sha p prehash ⟨inst, 0, iram, []⟩ rfl
  have s2 := coinbase_blocks_extends p prehash h0 a 0 _ (extends_by_index s1)
  have s12 := extends_by_trans s1 s2
  have s3 := trailing_block_extends p prehash a rem _ (extends_by_index s12)
  have s4 := double_hash_extends _ (extends_by_index (extends_by_trans s12 s3))
  have s5 := merkle_rounds_extends p p.merkles.toNat 0 _
    (extends_by_index (extends_by_trans (extends_by_trans s12 s3) s4))
  obtain ⟨L45, e45, _⟩ := extends_by_trans s4 s5
  obtain ⟨L12, e12, l12, _⟩ := s12
  refine ⟨(coinbase_blocks p prehash a 0
    (prehash_step sha p prehash ⟨inst, 0, iram, []⟩)).inst_index, ?_⟩
  have hb : (build_program sha p prehash a rem inst iram).written =
      (coinbase_blocks p prehash a 0 (prehash_step sha p prehash ⟨inst, 0, iram, []⟩)).written ++
        ((coinbase_blocks p prehash a 0
            (prehash_step sha p prehash ⟨inst, 0, iram, []⟩)).inst_index,
          (⟨(INST_DATA_IRAM ||| NEXT_ADDR (u32 ((coinbase_blocks p prehash a 0
            (prehash_step sha p prehash ⟨inst, 0, iram, []⟩)).inst_index + 1))) |||
              INST_MID_LASTHASH,
            length_bytes (p.coinbase_len * 8 % 2 ^ 64).toNat 8
              ((memcpy zero_data 0 (fun k => coinbase_byte p (prehash + a * 64 + k)) rem).set
                rem 0x80)⟩ : ssp_hasher_instruction)) ::
        (L45 ++ [((merkle_rounds p p.merkles.toNat 0 (double_hash (trailing_block p prehash a rem
          (coinbase_blocks p prehash a 0
            (prehash_step sha p prehash ⟨inst, 0, iram, []⟩))))).inst_index,
          { (merkle_rounds p p.merkles.toNat 0 (double_hash (trailing_block p prehash a rem
            (coinbase_blocks p prehash a 0
              (prehash_step sha p prehash ⟨inst, 0, iram, []⟩))))).inst with
            opcode := INST_DONE })]) := by
    simp only [build_program, if_pos hr]
    show (merkle_rounds p p.merkles.toNat 0 _).written ++ [_] = _
    rw [e45]
    show ((coinbase_blocks p prehash a 0 _).written ++ [_]) ++ L45 ++ [_] = _
    simp
  have hlen : (coinbase_blocks p prehash a 0
      (prehash_step sha p prehash ⟨inst, 0, iram, []⟩)).written.length = 1 + a := by
    rw [e12]; simp [l12]
  rw [hb, ← hlen, written_at_length]

/-- The trailing block is padded as SHA-256 asks whenever its `remainder`
bytes leave room for the marker in front of the length, that is for
`0 < remainder <= 55`: the instruction at position `1 + full_blocks` carries
the last `remainder` coinbase bytes, then `0x80`, zeros up to offset 55 and
the 64-bit big-endian bit length in bytes 56 .. 63, and its opcode has the
continue-from-previous bit `0x00100000`. -/
theorem trailing_padding (sha : sha256_ops) (p : pool) (inst : ssp_hasher_instruction)
    (s : ssp_info) (h0 : 0 ≤ p.nonce2_offset) (h1 : p.nonce2_offset ≤ p.coinbase_len)
    (hr0 : 0 < remainder p) (hr : remainder p ≤ 55) :
    ∃ r, ssp_hasher_update_stratum sha p inst s = some r ∧
      (∀ k, k < remainder p →
        (written_at r.2 (1 + full_blocks p)).data.getD k 0 =
          coinbase_byte p (p.coinbase_len.toNat - remainder p + k)) ∧
      (written_at r.2 (1 + full_blocks p)).data.getD (remainder p) 0 = 0x80 ∧
      (∀ k, remainder p < k → k ≤ 55 →
        (written_at r.2 (1 + full_blocks p)).data.getD k 0 = 0) ∧
      (∀ i, i < 8 →
        (written_at r.2 (1 + full_blocks p)).data.getD (63 - i) 0 =
          (8 * p.coinbase_len.toNat) % 2 ^ 64 / 2 ^ (8 * i) % 256) ∧
      (written_at r.2 (1 + full_blocks p)).opcode.testBit 20 = true := by
  rw [update_stratum_eq sha p inst s h0 h1]
  obtain ⟨idx, hT⟩ := build_program_trailing sha p (prehash_len p) (full_blocks p) (remainder p)
    inst (ssp_hasher_stop s).iram h0 (Nat.pos_iff_ne_zero.1 hr0)
  have hsum : prehash_len p + full_blocks p * 64 = p.coinbase_len.toNat - remainder p := by
    unfold full_blocks remainder prehash_len
    omega
  have hbits : (p.coinbase_len * 8 % 2 ^ 64).toNat = (8 * p.coinbase_len.toNat) % 2 ^ 64 := by
    omega
  refine ⟨_, rfl, ?_, ?_, ?_, ?_, ?_⟩
  · intro k hk
    show (written_at (build_program sha p (prehash_len p) (full_blocks p) (remainder p) inst
      (ssp_hasher_stop s).iram).written (1 + full_blocks p)).data.getD k 0 = _
    rw [hT]
    show (length_bytes _ 8 _).getD k 0 = _
    rw [trailing_data _ _ _ k hr (by omega), if_pos hk, hsum]
  · show (written_at (build_program sha p (prehash_len p) (full_blocks p) (remainder p) inst
      (ssp_hasher_stop s).iram).written (1 + full_blocks p)).data.getD (remainder p) 0 = _
    rw [hT]
    show (length_bytes _ 8 _).getD (remainder p) 0 = _
    rw [trailing_data _ _ _ _ hr (by omega), if_neg (by omega), if_pos rfl]
  · intro k hk1 hk2
    show (written_at (build_program sha p (prehash_len p) (full_blocks p) (remainder p) inst
      (ssp_hasher_stop s).iram).written (1 + full_blocks p)).data.getD k 0 = _
    rw [hT]
    show (length_bytes _ 8 _).getD k 0 = _
    rw [trailing_data _ _ _ k hr (by omega), if_neg (by omega), if_neg (by omega), if_pos hk2]
  · intro i hi
    show (written_at (build_program sha p (prehash_len p) (full_blocks p) (remainder p) inst
      (ssp_hasher_stop s).iram).written (1 + full_blocks p)).data.getD (63 - i) 0 = _
    rw [hT]
    show (length_bytes _ 8 _).getD (63 - i) 0 = _
    rw [trailing_data _ _ _ (63 - i) hr (by omega), if_neg (by omega), if_neg (by omega),
      if_neg (by omega), hbits, Nat.shiftRight_eq_div_pow]
    have e : (63 - (63 - i)) * 8 = 8 * i := by omega
    rw [e]
    exact Nat.and_pow_two_sub_one_eq_mod _ 8
  · show (written_at (build_program sha p (prehash_len p) (full_blocks p) (remainder p) inst
      (ssp_hasher_stop s).iram).written (1 + full_blocks p)).opcode.testBit 20 = true
    rw [hT]
    show ((INST_DATA_IRAM ||| NEXT_ADDR _) ||| INST_MID_LASTHASH).testBit 20 = true
    rw [Nat.testBit_lor]
    have : (INST_MID_LASTHASH : Nat).testBit 20 = true := by decide
    rw [this, Bool.or_true]

/-- The padding on the canonical vector of `ssp_hasher_test`: 26 trailing
bytes, `0x80` at offset 26 and the length field 1232 = 0x04d0. -/
theorem trailing_padding_witness :
    remainder test_pool = 26 ∧ full_blocks test_pool = 1 ∧
    ∃ r, ssp_hasher_update_stratum sha_stub test_pool ⟨0, []⟩ ⟨fun _ => 0, false, false⟩ = some r ∧
      (written_at r.2 2).data.getD 26 0 = 0x80 ∧
      (∀ k, 26 < k → k ≤ 55 → (written_at r.2 2).data.getD k 0 = 0) ∧
      (written_at r.2 2).data.getD 63 0 = 1232 % 256 ∧
      (written_at r.2 2).data.getD 62 0 = 1232 / 256 := by
  have e1 : remainder test_pool = 26 := by decide
  have e2 : full_blocks test_pool = 1 := by decide
  obtain ⟨r, hr, _, k2, k3, k4, _⟩ := trailing_padding sha_stub test_pool ⟨0, []⟩
    ⟨fun _ => 0, false, false⟩ (by decide) (by decide) (by decide) (by decide)
  rw [e1] at k2 k3
  rw [e2] at k2 k3 k4
  refine ⟨e1, e2, r, hr, k2, k3, ?_, ?_⟩
  · have := k4 0 (by decide)
    simpa [show test_pool.coinbase_len.toNat = 154 from rfl] using this
  · have := k4 1 (by decide)
    simpa [show test_pool.coinbase_len.toNat = 154 from rfl] using this

/-- C10 fails on the code for `remainder >= 56`.  With the first 127 bytes of
the canonical coinbase (`nonce2_offset` 97, so 63 bytes are left for the
trailing block) the program has no extra instruction and bytes 56 .. 63 of the
trailing payload are the length field `00 00 00 00 00 00 03 f8`: they replace
the coinbase bytes `00 00 00 00 19 76 a9` and the `0x80` marker that the block
would have to hold at offsets 56 .. 63. -/
theorem trailing_padding_overwritten :
    remainder short_pool = 63 ∧ full_blocks short_pool = 0 ∧
    (ssp_hasher_update_stratum sha_stub short_pool ⟨0, []⟩ ⟨fun _ => 0, false, false⟩).map
      (fun r => (written_at r.2 1).data.drop 56) = some [0, 0, 0, 0, 0, 0, 0x03, 0xf8] ∧
    short_pool.coinbase.drop 120 = [0, 0, 0, 0, 0x19, 0x76, 0xa9] ∧
    (ssp_hasher_update_stratum sha_stub short_pool ⟨0, []⟩ ⟨fun _ => 0, false, false⟩).map
      (fun r => (written_at r.2 1).data.getD 63 0) ≠ some 0x80 ∧
    (ssp_hasher_update_stratum sha_stub short_pool ⟨0, []⟩ ⟨fun _ => 0, false, false⟩).map
      (fun r => r.2.length) = some 40 := by
  decide

/-! ### First free slot and the probe addresses -/

/-- C15 (first free slot, exact probe arithmetic).  In a well-formed table whose
capacity is a power of two `2^e`, `e <= 31`, let `K i` be
`(tail + c1*i + c2*i*i) mod capacity` over the natural numbers.  When the cells
at `K i`, `i < j`, are occupied by other tails and the cell at `K j` is empty
(`j < limit`), the code's 32-bit index agrees with `K j`, which is below the
capacity, and `ssp_sorter_insert p` stores `p` at `K j`, leaves every other
cell unchanged, adds one to `size` (as `uint32_t`) and appends no pair. -/
theorem first_free_slot (s : Sorter) (p : ssp_point) (j e : Nat)
    (htab : table_ok s.ssp_ht) (he : e ≤ 31) (hcap : s.ssp_ht.max_size = 2 ^ e)
    (hj : j < s.ssp_ht.limit)
    (hb : ∀ i, i < j →
      ¬ is_empty (cell s.ssp_ht
        ((p.tail + s.ssp_ht.c1 * i + s.ssp_ht.c2 * i * i) % s.ssp_ht.max_size)) ∧
      (cell s.ssp_ht
        ((p.tail + s.ssp_ht.c1 * i + s.ssp_ht.c2 * i * i) % s.ssp_ht.max_size)).tail ≠ p.tail)
    (hfree : is_empty (cell s.ssp_ht
      ((p.tail + s.ssp_ht.c1 * j + s.ssp_ht.c2 * j * j) % s.ssp_ht.max_size))) :
    (p.tail + s.ssp_ht.c1 * j + s.ssp_ht.c2 * j * j) % s.ssp_ht.max_size < s.ssp_ht.max_size ∧
      probe_key s.ssp_ht p.tail j =
        (p.tail + s.ssp_ht.c1 * j + s.ssp_ht.c2 * j * j) % s.ssp_ht.max_size ∧
      cell (ssp_sorter_insert p s).ssp_ht
        ((p.tail + s.ssp_ht.c1 * j + s.ssp_ht.c2 * j * j) % s.ssp_ht.max_size) = p ∧
      (∀ k, k ≠ (p.tail + s.ssp_ht.c1 * j + s.ssp_ht.c2 * j * j) % s.ssp_ht.max_size →
        cell (ssp_sorter_insert p s).ssp_ht k = cell s.ssp_ht k) ∧
      (ssp_sorter_insert p s).ssp_ht.cells.length = s.ssp_ht.cells.length ∧
      (ssp_sorter_insert p s).ssp_ht.size = u32 (s.ssp_ht.size + 1) ∧
      (s.ssp_ht.size + 1 < 2 ^ 32 → (ssp_sorter_insert p s).ssp_ht.size = s.ssp_ht.size + 1) ∧
      queue_pairs (ssp_sorter_insert p s) = queue_pairs s := by
  have hdvd : s.ssp_ht.max_size ∣ 2 ^ 32 := by
    rw [hcap]; exact Nat.pow_dvd_pow 2 (by omega)
  have hpos : 0 < s.ssp_ht.max_size := by rw [hcap]; exact Nat.pos_pow_of_pos _ (by norm_num)
  have hkey : ∀ i, probe_key s.ssp_ht p.tail i =
      (p.tail + s.ssp_ht.c1 * i + s.ssp_ht.c2 * i * i) % s.ssp_ht.max_size :=
    fun i => probe_key_of_dvd s.ssp_ht p.tail i hdvd
  have hlt : (p.tail + s.ssp_ht.c1 * j + s.ssp_ht.c2 * j * j) % s.ssp_ht.max_size <
      s.ssp_ht.max_size := Nat.mod_lt _ hpos
  have e1 : ssp_sorter_insert p s =
      ssp_sorter_store p (probe_key s.ssp_ht p.tail j) { s with calls := u32 (s.calls + 1) } :=
    insert_store_at p s j hj (fun k hk => by rw [hkey]; exact hb k hk) (by rw [hkey]; exact hfree)
  have hcell : ∀ k, cell (ssp_sorter_insert p s).ssp_ht k =
      if (p.tail + s.ssp_ht.c1 * j + s.ssp_ht.c2 * j * j) % s.ssp_ht.max_size = k then p
      else cell s.ssp_ht k := by
    intro k
    rw [e1, hkey]
    exact cell_set s.ssp_ht _ k ⟨p.nonce2, p.tail⟩ (by rw [htab]; exact hlt)
  refine ⟨hlt, hkey j, ?_, ?_, ?_, ?_, ?_, ?_⟩
  · rw [hcell, if_pos rfl]
  · intro k hk
    rw [hcell, if_neg (Ne.symm hk)]
  · rw [e1]; simp [ssp_sorter_store]
  · rw [e1]; rfl
  · intro h
    rw [e1]
    exact u32_of_lt h
  · rw [e1]; rfl

/-- C15 on the table of the worked example holding {1, 5}: the point {2, 21}
finds cell 5 taken by tail 5 and goes to cell (21 + 1 + 1) mod 16 = 7. -/
theorem first_free_slot_witness :
    cell (ssp_sorter_insert ⟨2, 21⟩
      (ssp_sorter_insert ⟨1, 5⟩ (ssp_sorter_init 16 4 1 1 no_element))).ssp_ht 7 = ⟨2, 21⟩ ∧
    (ssp_sorter_insert ⟨2, 21⟩
      (ssp_sorter_insert ⟨1, 5⟩ (ssp_sorter_init 16 4 1 1 no_element))).ssp_ht.size = 2 ∧
    queue_pairs (ssp_sorter_insert ⟨2, 21⟩
      (ssp_sorter_insert ⟨1, 5⟩ (ssp_sorter_init 16 4 1 1 no_element))) = [] :=
  have h := first_free_slot (ssp_sorter_insert ⟨1, 5⟩ (ssp_sorter_init 16 4 1 1 no_element))
    ⟨2, 21⟩ 1 4 (by decide) (by decide) (by decide) (by decide) (by decide) (by decide)
  ⟨h.2.2.1, h.2.2.2.2.2.2.1 (by decide), h.2.2.2.2.2.2.2⟩

/-- One insert keeps every occupied cell at a probe address of its tail and
keeps the table parameters. -/
theorem insert_addressed (p : ssp_point) (s : Sorter) (hcap : 0 < s.ssp_ht.max_size)
    (htab : table_ok s.ssp_ht)
    (h : ∀ k, ¬ is_empty (cell s.ssp_ht k) →
      ∃ i, i < s.ssp_ht.limit ∧ k = probe_key s.ssp_ht (cell s.ssp_ht k).tail i) :
    ((ssp_sorter_insert p s).ssp_ht.limit = s.ssp_ht.limit ∧
      (ssp_sorter_insert p s).ssp_ht.c1 = s.ssp_ht.c1 ∧
      (ssp_sorter_insert p s).ssp_ht.c2 = s.ssp_ht.c2 ∧
      (ssp_sorter_insert p s).ssp_ht.max_size = s.ssp_ht.max_size) ∧
    ∀ k, ¬ is_empty (cell (ssp_sorter_insert p s).ssp_ht k) →
      ∃ i, i < s.ssp_ht.limit ∧ k = probe_key s.ssp_ht (cell (ssp_sorter_insert p s).ssp_ht k).tail i := by
  unfold ssp_sorter_insert
  rcases insert_loop_cases p s.ssp_ht.limit 0 { s with calls := u32 (s.calls + 1) } with
    ⟨j, _, hj, _, e⟩ | ⟨j, _, hj, _, ht, e⟩ | e
  · rw [e]
    refine ⟨⟨rfl, rfl, rfl, rfl⟩, fun k hk => ?_⟩
    have hc : cell (ssp_sorter_store p (probe_key s.ssp_ht p.tail j)
        { s with calls := u32 (s.calls + 1) }).ssp_ht k =
        if probe_key s.ssp_ht p.tail j = k then ⟨p.nonce2, p.tail⟩ else cell s.ssp_ht k :=
      cell_set s.ssp_ht _ k _ (by rw [htab]; exact probe_key_lt _ _ _ hcap)
    rw [hc] at hk ⊢
    by_cases hkk : probe_key s.ssp_ht p.tail j = k
    · rw [if_pos hkk]
      exact ⟨j, by omega, hkk.symm⟩
    · rw [if_neg hkk] at hk ⊢
      exact h k hk
  · rw [e]
    refine ⟨⟨rfl, rfl, rfl, rfl⟩, fun k hk => ?_⟩
    have hc : cell (ssp_sorter_collide p (probe_key s.ssp_ht p.tail j)
        { s with calls := u32 (s.calls + 1) }).ssp_ht k =
        if probe_key s.ssp_ht p.tail j = k then
          ⟨0, (cell s.ssp_ht (probe_key s.ssp_ht p.tail j)).tail⟩
        else cell s.ssp_ht k :=
      cell_set s.ssp_ht _ k _ (by rw [htab]; exact probe_key_lt _ _ _ hcap)
    rw [hc] at hk ⊢
    by_cases hkk : probe_key s.ssp_ht p.tail j = k
    · rw [if_pos hkk]
      have ht2 : (cell s.ssp_ht (probe_key s.ssp_ht p.tail j)).tail = p.tail := ht
      show ∃ i, i < s.ssp_ht.limit ∧
        k = probe_key s.ssp_ht (cell s.ssp_ht (probe_key s.ssp_ht p.tail j)).tail i
      rw [ht2]
      exact ⟨j, by omega, hkk.symm⟩
    · rw [if_neg hkk] at hk ⊢
      exact h k hk
  · rw [e]
    exact ⟨⟨rfl, rfl, rfl, rfl⟩, h⟩

/-- Along a run from `ssp_sorter_init` the table keeps its parameters and every
occupied cell sits at a probe address of the tail it holds. -/
theorem run_addressed (max_size limit c1 c2 : Nat) (fresh : ssp_pair_element)
    (hcap : 0 < max_size) :
    ∀ cs : List sorter_call,
      table_ok (run_calls (ssp_sorter_init max_size limit c1 c2 fresh) cs).ssp_ht ∧
      ((run_calls (ssp_sorter_init max_size limit c1 c2 fresh) cs).ssp_ht.limit = limit ∧
        (run_calls (ssp_sorter_init max_size limit c1 c2 fresh) cs).ssp_ht.c1 = c1 ∧
        (run_calls (ssp_sorter_init max_size limit c1 c2 fresh) cs).ssp_ht.c2 = c2 ∧
        (run_calls (ssp_sorter_init max_size limit c1 c2 fresh) cs).ssp_ht.max_size = max_size) ∧
      ∀ k, ¬ is_empty (cell (run_calls (ssp_sorter_init max_size limit c1 c2 fresh) cs).ssp_ht k) →
        ∃ i, i < (run_calls (ssp_sorter_init max_size limit c1 c2 fresh) cs).ssp_ht.limit ∧
          k = probe_key (run_calls (ssp_sorter_init max_size limit c1 c2 fresh) cs).ssp_ht
            (cell (run_calls (ssp_sorter_init max_size limit c1 c2 fresh) cs).ssp_ht k).tail i := by
  intro cs
  induction cs using List.reverseRecOn with
  | nil =>
    refine ⟨init_table_ok _ _ _ _ _, ⟨rfl, rfl, rfl, rfl⟩, fun k hk => ?_⟩
    exfalso
    apply hk
    show is_empty (cell (ssp_sorter_init max_size limit c1 c2 fresh).ssp_ht k)
    rw [cell_replicate _ max_size k rfl]
    exact ⟨rfl, rfl⟩
  | append_singleton cs c ih =>
    obtain ⟨h1, ⟨p1, p2, p3, p4⟩, h3⟩ := ih
    rw [run_calls_snoc]
    cases c with
    | insert p =>
      obtain ⟨⟨q1, q2, q3, q4⟩, q5⟩ := insert_addressed p _ (by rw [p4]; exact hcap) h1 h3
      refine ⟨insert_table_ok p _ h1, ⟨q1.trans p1, q2.trans p2, q3.trans p3, q4.trans p4⟩, ?_⟩
      intro k hk
      obtain ⟨i, hi, hki⟩ := q5 k hk
      refine ⟨i, ?_, ?_⟩
      · show i < (ssp_sorter_insert p _).ssp_ht.limit
        rw [q1]; exact hi
      · have hpk : ∀ t, probe_key (run_calls (ssp_sorter_init max_size limit c1 c2 fresh) cs).ssp_ht
            t i = probe_key (ssp_sorter_insert p
              (run_calls (ssp_sorter_init max_size limit c1 c2 fresh) cs)).ssp_ht t i := by
          intro t
          unfold probe_key
          rw [q2, q3, q4]
        exact hki.trans (hpk _)
    | flush =>
      have hc : (ssp_sorter_flush
          (run_calls (ssp_sorter_init max_size limit c1 c2 fresh) cs)).ssp_ht.cells =
          List.replicate _ empty_cell := memset_cells_length _ _ h1
      refine ⟨?_, ⟨p1, p2, p3, p4⟩, fun k hk => ?_⟩
      · show (ssp_sorter_flush _).ssp_ht.cells.length = _
        rw [hc]; simp only [List.length_replicate]; rfl
      · exfalso
        apply hk
        show is_empty (cell (ssp_sorter_flush _).ssp_ht k)
        rw [cell_replicate _ _ k hc]
        exact ⟨rfl, rfl⟩
    | get_pair =>
      show table_ok (ssp_sorter_get_pair (0, 0) _).2.2.ssp_ht ∧
        ((ssp_sorter_get_pair (0, 0) _).2.2.ssp_ht.limit = limit ∧
          (ssp_sorter_get_pair (0, 0) _).2.2.ssp_ht.c1 = c1 ∧
          (ssp_sorter_get_pair (0, 0) _).2.2.ssp_ht.c2 = c2 ∧
          (ssp_sorter_get_pair (0, 0) _).2.2.ssp_ht.max_size = max_size) ∧
        ∀ k, ¬ is_empty (cell (ssp_sorter_get_pair (0, 0) _).2.2.ssp_ht k) →
          ∃ i, i < (ssp_sorter_get_pair (0, 0) _).2.2.ssp_ht.limit ∧
            k = probe_key (ssp_sorter_get_pair (0, 0) _).2.2.ssp_ht
              (cell (ssp_sorter_get_pair (0, 0) _).2.2.ssp_ht k).tail i
      rw [get_pair_ht]
      exact ⟨h1, ⟨p1, p2, p3, p4⟩, h3⟩

/-- C20 (invariant for non-zero tails).  From the table built by
`ssp_sorter_init` with 0 < capacity < 2^32, after every sequence of flushes,
dequeues and inserts of points with non-zero tail, `size` equals the number of
cells that are not the empty sentinel and is at most the capacity, and every
such cell, at index `k`, holds a tail `t` with
`k = (t + c1*i + c2*i*i) mod 2^32 mod capacity` for some `i < limit`. -/
theorem nonzero_tail_invariant (max_size limit c1 c2 : Nat) (fresh : ssp_pair_element)
    (cs : List sorter_call) (hcap : 0 < max_size) (hmax : max_size < 2 ^ 32)
    (htails : inserts_all (fun p => p.tail ≠ 0) cs) :
    (run_calls (ssp_sorter_init max_size limit c1 c2 fresh) cs).ssp_ht.size =
        occupied (run_calls (ssp_sorter_init max_size limit c1 c2 fresh) cs).ssp_ht.cells ∧
      (run_calls (ssp_sorter_init max_size limit c1 c2 fresh) cs).ssp_ht.size ≤ max_size ∧
      (run_calls (ssp_sorter_init max_size limit c1 c2 fresh) cs).ssp_ht.max_size = max_size ∧
      ∀ k, ¬ is_empty (cell (run_calls (ssp_sorter_init max_size limit c1 c2 fresh) cs).ssp_ht k) →
        ∃ i, i < limit ∧
          k = ((cell (run_calls (ssp_sorter_init max_size limit c1 c2 fresh) cs).ssp_ht k).tail +
            c1 * i + c2 * i * i) % 2 ^ 32 % max_size := by
  obtain ⟨h1, h2, h3⟩ := run_counted max_size limit c1 c2 fresh hcap hmax cs htails
  obtain ⟨_, ⟨p1, p2, p3, p4⟩, h5⟩ := run_addressed max_size limit c1 c2 fresh hcap cs
  refine ⟨h3, ?_, h2, fun k hk => ?_⟩
  · have hle := occupied_le (run_calls (ssp_sorter_init max_size limit c1 c2 fresh) cs).ssp_ht.cells
    rw [h1, h2] at hle
    rw [h3]
    exact hle
  · obtain ⟨i, hi, hki⟩ := h5 k hk
    refine ⟨i, by rw [← p1]; exact hi, ?_⟩
    rw [probe_key_eq, p2, p3, p4] at hki
    exact hki

/-- C20 on a run over the table of the worked example: two points on the same
probe sequence, a collision, a flush and a further point. -/
theorem nonzero_tail_invariant_witness :
    (run_calls (ssp_sorter_init 16 4 1 1 no_element)
      [.insert ⟨1, 5⟩, .insert ⟨2, 21⟩, .insert ⟨3, 5⟩, .flush, .insert ⟨4, 9⟩]).ssp_ht.size =
      occupied (run_calls (ssp_sorter_init 16 4 1 1 no_element)
        [.insert ⟨1, 5⟩, .insert ⟨2, 21⟩, .insert ⟨3, 5⟩, .flush, .insert ⟨4, 9⟩]).ssp_ht.cells ∧
    (run_calls (ssp_sorter_init 16 4 1 1 no_element)
      [.insert ⟨1, 5⟩, .insert ⟨2, 21⟩, .insert ⟨3, 5⟩, .flush, .insert ⟨4, 9⟩]).ssp_ht.size ≤ 16 ∧
    ∀ k, ¬ is_empty (cell (run_calls (ssp_sorter_init 16 4 1 1 no_element)
        [.insert ⟨1, 5⟩, .insert ⟨2, 21⟩, .insert ⟨3, 5⟩, .flush, .insert ⟨4, 9⟩]).ssp_ht k) →
      ∃ i, i < 4 ∧
        k = ((cell (run_calls (ssp_sorter_init 16 4 1 1 no_element)
          [.insert ⟨1, 5⟩, .insert ⟨2, 21⟩, .insert ⟨3, 5⟩, .flush, .insert ⟨4, 9⟩]).ssp_ht k).tail +
          1 * i + 1 * i * i) % 2 ^ 32 % 16 :=
  have h := nonzero_tail_invariant 16 4 1 1 no_element
    [.insert ⟨1, 5⟩, .insert ⟨2, 21⟩, .insert ⟨3, 5⟩, .flush, .insert ⟨4, 9⟩]
    (by decide) (by decide)
    (by
      intro p hp
      simp only [List.mem_cons, sorter_call.insert.injEq, List.mem_singleton, List.not_mem_nil,
        or_false, reduceCtorEq, false_or] at hp
      rcases hp with rfl | rfl | rfl | rfl <;> decide)
  ⟨h.1, h.2.1, h.2.2.2⟩

/-! ### The instruction store -/

theorem iram_write_apply (iram : Nat → Nat) (a v w : Nat) :
    iram_write iram a v w = if w = a then v else iram w := rfl

/-- The word loop with `n` iterations left writes words `base + 17 - n ..
base + 16`, word `base + 1 + i` receiving payload word `i`. -/
theorem fill_words_apply (data : List Nat) (base : Nat) :
    ∀ (n : Nat) (iram : Nat → Nat) (w : Nat), n ≤ 16 →
      fill_words data base n iram w =
        if base + 17 - n ≤ w ∧ w ≤ base + 16 then data_word data (w - base - 1) else iram w := by
  intro n
  induction n with
  | zero =>
    intro iram w _
    have : ¬ (base + 17 - 0 ≤ w ∧ w ≤ base + 16) := by omega
    rw [if_neg this]; rfl
  | succ n ih =>
    intro iram w hn
    simp only [fill_words]
    rw [ih _ w (by omega), iram_write_apply]
    by_cases h1 : base + 17 - n ≤ w ∧ w ≤ base + 16
    · rw [if_pos h1, if_pos (by omega)]
    · rw [if_neg h1]
      by_cases h2 : w = base + (16 - (n + 1)) + 1
      · rw [if_pos h2, if_pos (by omega)]
        congr 1
        omega
      · rw [if_neg h2, if_neg (by omega)]

theorem be_word (a b c d : Nat) (ha : a < 256) (hb : b < 256) (hc : c < 256) (hd : d < 256) :
    ((a <<< 24) ||| (b <<< 16) ||| (c <<< 8) ||| d) % 2 ^ 32 =
      a * 2 ^ 24 + b * 2 ^ 16 + c * 2 ^ 8 + d := by
  have e3 : 2 ^ 8 * c + d = 2 ^ 8 * c ||| d := Nat.mul_add_lt_is_or (by omega) c
  have e2 : 2 ^ 16 * b + (2 ^ 8 * c + d) = 2 ^ 16 * b ||| (2 ^ 8 * c + d) :=
    Nat.mul_add_lt_is_or (by omega) b
  have e1 : 2 ^ 24 * a + (2 ^ 16 * b + (2 ^ 8 * c + d)) =
      2 ^ 24 * a ||| (2 ^ 16 * b + (2 ^ 8 * c + d)) := Nat.mul_add_lt_is_or (by omega) a
  rw [Nat.shiftLeft_eq, Nat.shiftLeft_eq, Nat.shiftLeft_eq, Nat.or_assoc, Nat.or_assoc,
    Nat.mul_comm a, Nat.mul_comm b, Nat.mul_comm c, ← e3, ← e2, ← e1]
  omega

theorem getD_lt_of_bytes (data : List Nat) (h : ∀ x ∈ data, x < 256) (k : Nat) :
    data.getD k 0 < 256 := by
  rw [List.getD_eq_getElem?_getD]
  cases hk : data[k]? with
  | none => simp
  | some x => exact h x (List.getElem?_mem hk)

/-- The word built from four bytes is their big-endian value. -/
theorem data_word_eq (data : List Nat) (i : Nat) (h : ∀ x ∈ data, x < 256) :
    data_word data i =
      data.getD (4 * i) 0 * 2 ^ 24 + data.getD (4 * i + 1) 0 * 2 ^ 16 +
        data.getD (4 * i + 2) 0 * 2 ^ 8 + data.getD (4 * i + 3) 0 := by
  have e0 : i * 4 + 0 = 4 * i := by omega
  have e1 : i * 4 + 1 = 4 * i + 1 := by omega
  have e2 : i * 4 + 2 = 4 * i + 2 := by omega
  have e3 : i * 4 + 3 = 4 * i + 3 := by omega
  unfold data_word u32
  rw [e0, e1, e2, e3]
  exact be_word _ _ _ _ (getD_lt_of_bytes data h _) (getD_lt_of_bytes data h _)
    (getD_lt_of_bytes data h _) (getD_lt_of_bytes data h _)

/-- Every word of the store after `ssp_haser_fill_iram` at an index below 2^27. -/
theorem fill_iram_apply (inst : ssp_hasher_instruction) (k : Nat) (iram : Nat → Nat) (w : Nat)
    (hk : k < 2 ^ 27) :
    ssp_haser_fill_iram inst k iram w =
      if w = 32 * k then inst.opcode
      else if 32 * k + 1 ≤ w ∧ w ≤ 32 * k + 16 then data_word inst.data (w - 32 * k - 1)
      else if w = 32 * k + 17 then 1
      else iram w := by
  have hb : u32 (k * 32) = 32 * k := by
    rw [u32_of_lt (by omega)]; omega
  simp only [ssp_haser_fill_iram, hb, iram_write_apply]
  rw [fill_words_apply _ _ 16 _ w (le_refl _), iram_write_apply]
  by_cases h1 : w = 32 * k
  · rw [if_neg (by omega), if_neg (by omega), if_pos (by omega), if_pos h1]
  · rw [if_neg h1]
    by_cases h2 : 32 * k + 1 ≤ w ∧ w ≤ 32 * k + 16
    · rw [if_neg (by omega), if_pos (by omega), if_pos h2]
    · rw [if_neg h2]
      by_cases h3 : w = 32 * k + 17
      · rw [if_pos (by omega), if_pos h3]
      · rw [if_neg (by omega), if_neg (by omega), if_neg (by omega), if_neg h3]

/-- C19 (instruction upload layout and frame).  For an instruction whose
payload bytes are below 256 and an index `k < 512`, `ssp_haser_fill_iram` sets
word `32k` to the opcode, word `32k + 1 + i` to the big-endian value of payload
bytes `4i .. 4i+3` for `i < 16` and word `32k + 17` to 1, and leaves every
other word unchanged, the run indicator at word 31 among them; after
`ssp_hasher_update_stratum` the run indicator is 0 as `ssp_hasher_start` set
it, and the run flag is true. -/
theorem fill_iram_layout (inst : ssp_hasher_instruction) (k : Nat) (iram : Nat → Nat)
    (hk : k < 512) (hbytes : ∀ x ∈ inst.data, x < 256) :
    ssp_haser_fill_iram inst k iram (32 * k) = inst.opcode ∧
      (∀ i, i < 16 →
        ssp_haser_fill_iram inst k iram (32 * k + 1 + i) =
          inst.data.getD (4 * i) 0 * 2 ^ 24 + inst.data.getD (4 * i + 1) 0 * 2 ^ 16 +
            inst.data.getD (4 * i + 2) 0 * 2 ^ 8 + inst.data.getD (4 * i + 3) 0) ∧
      ssp_haser_fill_iram inst k iram (32 * k + 17) = 0x1 ∧
      (∀ w, w < 32 * k ∨ 32 * k + 17 < w → ssp_haser_fill_iram inst k iram w = iram w) ∧
      ssp_haser_fill_iram inst k iram 31 = iram 31 ∧
      (∀ (sha : sha256_ops) (p : pool) (i0 : ssp_hasher_instruction) (s : ssp_info)
        (r : ssp_info × List (Nat × ssp_hasher_instruction)),
        ssp_hasher_update_stratum sha p i0 s = some r → r.1.iram 31 = 0 ∧ r.1.run = true) := by
  have hk2 : k < 2 ^ 27 := by omega
  refine ⟨?_, ?_, ?_, ?_, ?_, ?_⟩
  · rw [fill_iram_apply inst k iram _ hk2, if_pos rfl]
  · intro i hi
    rw [fill_iram_apply inst k iram _ hk2, if_neg (by omega), if_pos (by omega),
      data_word_eq _ _ hbytes]
    have e : 32 * k + 1 + i - 32 * k - 1 = i := by omega
    rw [e]
  · rw [fill_iram_apply inst k iram _ hk2, if_neg (by omega), if_neg (by omega), if_pos rfl]
  · intro w hw
    rw [fill_iram_apply inst k iram _ hk2, if_neg (by omega), if_neg (by omega),
      if_neg (by omega)]
  · rw [fill_iram_apply inst k iram _ hk2, if_neg (by omega), if_neg (by omega),
      if_neg (by omega)]
  · intro sha p i0 s r hr
    simp only [ssp_hasher_update_stratum] at hr
    split at hr
    · cases hr
    · cases hr
      exact ⟨rfl, rfl⟩

/-- C19 on the first full coinbase block of the canonical vector, written at
index 1: words 32 .. 49 are set, word 31 and word 50 keep their content. -/
theorem fill_iram_layout_witness :
    ssp_haser_fill_iram ⟨0x21e, (test_coinbase.drop 64).take 64⟩ 1 (fun w => w + 7) 32 = 0x21e ∧
    ssp_haser_fill_iram ⟨0x21e, (test_coinbase.drop 64).take 64⟩ 1 (fun w => w + 7) 33 =
      0xd3 * 2 ^ 24 + 0x07 * 2 ^ 16 + 0x98 * 2 ^ 8 + 0x4b ∧
    ssp_haser_fill_iram ⟨0x21e, (test_coinbase.drop 64).take 64⟩ 1 (fun w => w + 7) 49 = 1 ∧
    ssp_haser_fill_iram ⟨0x21e, (test_coinbase.drop 64).take 64⟩ 1 (fun w => w + 7) 31 = 38 ∧
    ssp_haser_fill_iram ⟨0x21e, (test_coinbase.drop 64).take 64⟩ 1 (fun w => w + 7) 50 = 57 :=
  have h := fill_iram_layout ⟨0x21e, (test_coinbase.drop 64).take 64⟩ 1 (fun w => w + 7)
    (by decide) (by decide)
  ⟨h.1, h.2.1 0 (by decide), h.2.2.1, h.2.2.2.2.1, h.2.2.2.1 50 (by decide)⟩

/-! ### The program, instruction by instruction -/

theorem build_program_stages (sha : sha256_ops) (p : pool) (prehash a rem : Nat)
    (inst : ssp_hasher_instruction) (iram : Nat → Nat) :
    build_program sha p prehash a rem inst iram =
      done_step (stage_merkle sha p prehash a rem inst iram) := rfl

theorem extends_by_length {b1 b2 : builder} {c : Nat} (h : extends_by b1 b2 c) :
    b2.written.length = b1.written.length + c := by
  obtain ⟨L, e1, l1, _⟩ := h
  rw [e1]; simp [l1]

/-- Instructions already written stay where they are. -/
theorem extends_by_entry {b1 b2 : builder} {c : Nat} (h : extends_by b1 b2 c) (q : Nat)
    (hq : q < b1.written.length) : entry_at b2.written q = entry_at b1.written q := by
  obtain ⟨L, e1, _⟩ := h
  unfold entry_at
  rw [e1, List.getD_eq_getElem?_getD, List.getD_eq_getElem?_getD, List.getElem?_append_left hq]

theorem entry_at_snoc (w : List (Nat × ssp_hasher_instruction)) (e : Nat × ssp_hasher_instruction) :
    entry_at (w ++ [e]) w.length = e := by
  unfold entry_at
  rw [List.getD_eq_getElem?_getD, List.getElem?_append_right (le_refl _)]
  simp

theorem entry_at_append_left (w v : List (Nat × ssp_hasher_instruction)) (q : Nat)
    (hq : q < w.length) : entry_at (w ++ v) q = entry_at w q := by
  unfold entry_at
  rw [List.getD_eq_getElem?_getD, List.getD_eq_getElem?_getD, List.getElem?_append_left hq]

/-- The next-address field wraps at 512, so the 32-bit wrap of the index is
invisible in it. -/
theorem next_addr_wrap (n : Nat) : NEXT_ADDR (u32 n) = NEXT_ADDR n := by
  unfold NEXT_ADDR u32
  have h1 := Nat.and_pow_two_sub_one_eq_mod (n % 2 ^ 32) 9
  have h2 := Nat.and_pow_two_sub_one_eq_mod n 9
  have e : (2 : Nat) ^ 9 - 1 = 0x1ff := by norm_num
  rw [e] at h1 h2
  rw [h1, h2]
  congr 1
  exact Nat.mod_mod_of_dvd _ (by norm_num)

theorem next_addr_u32 (n : Nat) : NEXT_ADDR (u32 (u32 n + 1)) = NEXT_ADDR (n + 1) := by
  rw [u32_succ, next_addr_wrap]

theorem memcpy_whole (d : List Nat) (src : Nat → Nat) (h : d.length = 64) :
    memcpy d 0 src 64 = (List.range 64).map src := by
  unfold memcpy
  rw [h]
  apply List.map_congr_left
  intro k hk
  rw [List.mem_range] at hk
  rw [if_pos (by omega)]
  rfl

/-- What one pass of the coinbase loop writes. -/
theorem coinbase_block_spec (p : pool) (prehash i : Nat) (b : builder)
    (h : b.inst_index = u32 b.written.length) (hd : b.inst.data.length = 64) :
    (coinbase_block p prehash i b).written = b.written ++
      [(u32 b.written.length,
        ⟨if i = 0 then NEXT_ADDR (b.written.length + 1) ||| (63 - p.nonce2_offset.tmod 64).toNat
          else NEXT_ADDR (b.written.length + 1) ||| INST_MID_LASTHASH,
         (List.range 64).map (fun k => coinbase_byte p (prehash + i * 64 + k))⟩)] ∧
    (coinbase_block p prehash i b).inst.data.length = 64 := by
  have hop : (if i = 0 then
        ((INST_DATA_IRAM ||| NEXT_ADDR (u32 (b.inst_index + 1))) |||
          (63 - p.nonce2_offset.tmod 64).toNat) ||| INST_MID_INIT
      else (INST_DATA_IRAM ||| NEXT_ADDR (u32 (b.inst_index + 1))) ||| INST_MID_LASTHASH) =
      (if i = 0 then NEXT_ADDR (b.written.length + 1) ||| (63 - p.nonce2_offset.tmod 64).toNat
        else NEXT_ADDR (b.written.length + 1) ||| INST_MID_LASTHASH) := by
    rw [h, next_addr_u32]
    simp only [INST_DATA_IRAM, INST_MID_INIT, Nat.zero_or, Nat.or_zero]
  refine ⟨?_, ?_⟩
  · show b.written ++ [(b.inst_index, (⟨_, memcpy b.inst.data 0 _ 64⟩ : ssp_hasher_instruction))] = _
    rw [memcpy_whole _ _ hd, hop, h]
  · show (memcpy b.inst.data 0 (fun k => coinbase_byte p (prehash + i * 64 + k)) 64).length = 64
    rw [length_memcpy, hd]

/-- The coinbase loop writes block `i + j` at position `length + j`. -/
theorem coinbase_blocks_entry (p : pool) (prehash : Nat) (h0 : 0 ≤ p.nonce2_offset) :
    ∀ (n i : Nat) (b : builder), b.inst_index = u32 b.written.length →
      b.inst.data.length = 64 → ∀ j, j < n →
        entry_at (coinbase_blocks p prehash n i b).written (b.written.length + j) =
          (u32 (b.written.length + j),
            ⟨if i + j = 0 then
                NEXT_ADDR (b.written.length + j + 1) ||| (63 - p.nonce2_offset.tmod 64).toNat
              else NEXT_ADDR (b.written.length + j + 1) ||| INST_MID_LASTHASH,
             (List.range 64).map (fun k => coinbase_byte p (prehash + (i + j) * 64 + k))⟩) := by
  intro n
  induction n with
  | zero => intro i b _ _ j hj; omega
  | succ n ih =>
    intro i b h hd j hj
    obtain ⟨e1, d1⟩ := coinbase_block_spec p prehash i b h hd
    have x1 := coinbase_block_extends p prehash i b h0 h
    have hlen : (coinbase_block p prehash i b).written.length = b.written.length + 1 :=
      extends_by_length x1
    have x2 := coinbase_blocks_extends p prehash h0 n (i + 1) _ (extends_by_index x1)
    show entry_at (coinbase_blocks p prehash n (i + 1) (coinbase_block p prehash i b)).written _ = _
    cases j with
    | zero =>
      simp only [Nat.add_zero]
      rw [extends_by_entry x2 _ (by omega), e1, entry_at_snoc]
    | succ j =>
      have := ih (i + 1) _ (extends_by_index x1) d1 j (by omega)
      rw [hlen] at this
      have e2 : b.written.length + 1 + j = b.written.length + (j + 1) := by omega
      have e3 : i + 1 + j = i + (j + 1) := by omega
      rw [e2, e3] at this
      exact this

/-- What the double hash writes. -/
theorem double_hash_spec (b : builder) (h : b.inst_index = u32 b.written.length) :
    (double_hash b).written = b.written ++
      [(u32 b.written.length,
        ⟨INST_DATA_LASTHASH_PAD ||| NEXT_ADDR (b.written.length + 1), zero_data⟩)] ∧
    (double_hash b).inst.data = zero_data := by
  refine ⟨?_, rfl⟩
  show b.written ++ [(b.inst_index,
    (⟨(INST_DATA_LASTHASH_PAD ||| INST_MID_INIT) ||| NEXT_ADDR (u32 (b.inst_index + 1)),
      zero_data⟩ : ssp_hasher_instruction))] = _
  rw [h, next_addr_u32]
  simp only [INST_MID_INIT, Nat.or_zero]

/-- What one pass of the merkle loop writes. -/
theorem merkle_round_spec (p : pool) (i : Nat) (b : builder)
    (h : b.inst_index = u32 b.written.length) (hd : b.inst.data = zero_data) :
    (merkle_round p i b).written = b.written ++
      [(u32 b.written.length,
          ⟨INST_DATA_LASTHASH_IRAM ||| NEXT_ADDR (b.written.length + 1),
            memcpy zero_data 32 (fun k => merkle_byte p i k) 32⟩),
        (u32 (b.written.length + 1),
          ⟨(INST_DATA_PAD512 ||| INST_MID_LASTHASH) ||| NEXT_ADDR (b.written.length + 2),
            zero_data⟩),
        (u32 (b.written.length + 2),
          ⟨INST_DATA_LASTHASH_PAD ||| NEXT_ADDR (b.written.length + 3), zero_data⟩)] ∧
    (merkle_round p i b).inst.data = zero_data := by
  refine ⟨?_, rfl⟩
  have a1 : u32 (u32 b.written.length + 1) = u32 (b.written.length + 1) := u32_succ _
  have a2 : u32 (u32 (b.written.length + 1) + 1) = u32 (b.written.length + 2) := u32_succ _
  show (b.written ++ [(b.inst_index,
      (⟨(INST_DATA_LASTHASH_IRAM ||| INST_MID_INIT) ||| NEXT_ADDR (u32 (b.inst_index + 1)),
        memcpy b.inst.data 32 (fun k => merkle_byte p i k) 32⟩ : ssp_hasher_instruction))] ++
    [(u32 (b.inst_index + 1),
      (⟨(INST_DATA_PAD512 ||| INST_MID_LASTHASH) ||| NEXT_ADDR (u32 (u32 (b.inst_index + 1) + 1)),
        zero_data⟩ : ssp_hasher_instruction))]) ++
    [(u32 (u32 (b.inst_index + 1) + 1),
      (⟨(INST_DATA_LASTHASH_PAD ||| INST_MID_INIT) |||
        NEXT_ADDR (u32 (u32 (u32 (b.inst_index + 1) + 1) + 1)), zero_data⟩ :
        ssp_hasher_instruction))] = _
  rw [h, hd, a1, a2, next_addr_u32, next_addr_wrap, next_addr_wrap]
  simp only [INST_MID_INIT, Nat.or_zero, List.append_assoc, List.cons_append, List.nil_append]

theorem entry_at_three (w : List (Nat × ssp_hasher_instruction))
    (e1 e2 e3 : Nat × ssp_hasher_instruction) :
    entry_at (w ++ [e1, e2, e3]) w.length = e1 ∧
    entry_at (w ++ [e1, e2, e3]) (w.length + 1) = e2 ∧
    entry_at (w ++ [e1, e2, e3]) (w.length + 2) = e3 := by
  unfold entry_at
  refine ⟨?_, ?_, ?_⟩
  · rw [List.getD_eq_getElem?_getD, List.getElem?_append_right (le_refl _)]; simp
  · rw [List.getD_eq_getElem?_getD, List.getElem?_append_right (by omega)]; simp
  · rw [List.getD_eq_getElem?_getD, List.getElem?_append_right (by omega)]; simp

/-- The merkle loop writes the three instructions of branch `i + j` at
positions `length + 3j`, `length + 3j + 1`, `length + 3j + 2`. -/
theorem merkle_rounds_entry (p : pool) :
    ∀ (n i : Nat) (b : builder), b.inst_index = u32 b.written.length →
      b.inst.data = zero_data → ∀ j, j < n →
        entry_at (merkle_rounds p n i b).written (b.written.length + 3 * j) =
          (u32 (b.written.length + 3 * j),
            ⟨INST_DATA_LASTHASH_IRAM ||| NEXT_ADDR (b.written.length + 3 * j + 1),
              memcpy zero_data 32 (fun k => merkle_byte p (i + j) k) 32⟩) ∧
        entry_at (merkle_rounds p n i b).written (b.written.length + 3 * j + 1) =
          (u32 (b.written.length + 3 * j + 1),
            ⟨(INST_DATA_PAD512 ||| INST_MID_LASTHASH) ||| NEXT_ADDR (b.written.length + 3 * j + 2),
              zero_data⟩) ∧
        entry_at (merkle_rounds p n i b).written (b.written.length + 3 * j + 2) =
          (u32 (b.written.length + 3 * j + 2),
            ⟨INST_DATA_LASTHASH_PAD ||| NEXT_ADDR (b.written.length + 3 * j + 3), zero_data⟩) := by
  intro n
  induction n with
  | zero => intro i b _ _ j hj; omega
  | succ n ih =>
    intro i b h hd j hj
    obtain ⟨e1, d1⟩ := merkle_round_spec p i b h hd
    have x1 := merkle_round_extends p i b h
    have hlen : (merkle_round p i b).written.length = b.written.length + 3 :=
      extends_by_length x1
    have x2 := merkle_rounds_extends p n (i + 1) _ (extends_by_index x1)
    show entry_at (merkle_rounds p n (i + 1) (merkle_round p i b)).written _ = _ ∧
      entry_at (merkle_rounds p n (i + 1) (merkle_round p i b)).written _ = _ ∧
      entry_at (merkle_rounds p n (i + 1) (merkle_round p i b)).written _ = _
    cases j with
    | zero =>
      simp only [Nat.mul_zero, Nat.add_zero]
      rw [extends_by_entry x2 _ (by omega), extends_by_entry x2 _ (by omega),
        extends_by_entry x2 _ (by omega), e1]
      exact entry_at_three _ _ _ _
    | succ j =>
      have := ih (i + 1) _ (extends_by_index x1) d1 j (by omega)
      rw [hlen] at this
      have e2 : b.written.length + 3 + 3 * j = b.written.length + 3 * (j + 1) := by omega
      have e3 : i + 1 + j = i + (j + 1) := by omega
      rw [e2, e3] at this
      exact this

/-- How the stages of `build_program` follow on each other. -/
theorem stages_chain (sha : sha256_ops) (p : pool) (prehash a rem : Nat)
    (inst : ssp_hasher_instruction) (iram : Nat → Nat) (h0 : 0 ≤ p.nonce2_offset) :
    extends_by ⟨inst, 0, iram, []⟩ (stage_prehash sha p prehash inst iram) 1 ∧
    extends_by (stage_prehash sha p prehash inst iram) (stage_blocks sha p prehash a inst iram) a ∧
    extends_by (stage_blocks sha p prehash a inst iram)
      (stage_trailing sha p prehash a rem inst iram) (if rem ≠ 0 then 1 else 0) ∧
    extends_by (stage_trailing sha p prehash a rem inst iram)
      (stage_double sha p prehash a rem inst iram) 1 ∧
    extends_by (stage_double sha p prehash a rem inst iram)
      (stage_merkle sha p prehash a rem inst iram) (3 * p.merkles.toNat) := by
  have s1 : extends_by ⟨inst, 0, iram, []⟩ (stage_prehash sha p prehash inst iram) 1 :=
    prehash_step_extends sha p prehash ⟨inst, 0, iram, []⟩ rfl
  have s2 : extends_by (stage_prehash sha p prehash inst iram)
      (stage_blocks sha p prehash a inst iram) a :=
    coinbase_blocks_extends p prehash h0 a 0 _ (extends_by_index s1)
  have i2 := extends_by_index s2
  have s3 : extends_by (stage_blocks sha p prehash a inst iram)
      (stage_trailing sha p prehash a rem inst iram) (if rem ≠ 0 then 1 else 0) := by
    unfold stage_trailing
    by_cases hr : rem ≠ 0
    · rw [if_pos hr, if_pos hr]
      exact trailing_block_extends p prehash a rem _ i2
    · rw [if_neg hr, if_neg hr]
      exact extends_by_refl _ i2
  have i3 : (stage_trailing sha p prehash a rem inst iram).inst_index =
      u32 (stage_trailing sha p prehash a rem inst iram).written.length := extends_by_index s3
  have s4 : extends_by (stage_trailing sha p prehash a rem inst iram)
      (stage_double sha p prehash a rem inst iram) 1 := double_hash_extends _ i3
  have s5 : extends_by (stage_double sha p prehash a rem inst iram)
      (stage_merkle sha p prehash a rem inst iram) (3 * p.merkles.toNat) :=
    merkle_rounds_extends p p.merkles.toNat 0 _ (extends_by_index s4)
  exact ⟨s1, s2, s3, s4, s5⟩

/-- How many instructions each stage of `build_program` has written. -/
theorem stages_length (sha : sha256_ops) (p : pool) (prehash a rem : Nat)
    (inst : ssp_hasher_instruction) (iram : Nat → Nat) (h0 : 0 ≤ p.nonce2_offset) :
    (stage_prehash sha p prehash inst iram).written.length = 1 ∧
    (stage_blocks sha p prehash a inst iram).written.length = 1 + a ∧
    (stage_trailing sha p prehash a rem inst iram).written.length =
      1 + a + (if rem ≠ 0 then 1 else 0) ∧
    (stage_double sha p prehash a rem inst iram).written.length =
      1 + a + (if rem ≠ 0 then 1 else 0) + 1 ∧
    (stage_merkle sha p prehash a rem inst iram).written.length =
      1 + a + (if rem ≠ 0 then 1 else 0) + 1 + 3 * p.merkles.toNat := by
  obtain ⟨s1, s2, s3, s4, s5⟩ := stages_chain sha p prehash a rem inst iram h0
  have l1 := extends_by_length s1
  have l2 := extends_by_length s2
  have l3 := extends_by_length s3
  have l4 := extends_by_length s4
  have l5 := extends_by_length s5
  simp only [List.length_nil, Nat.zero_add] at l1
  refine ⟨l1, ?_, ?_, ?_, ?_⟩ <;> omega

/-- An instruction written by the merkle loop or before is found at the same
position in the finished program. -/
theorem program_entry_merkle (sha : sha256_ops) (p : pool) (prehash a rem : Nat)
    (inst : ssp_hasher_instruction) (iram : Nat → Nat) (q : Nat)
    (hq : q < (stage_merkle sha p prehash a rem inst iram).written.length) :
    entry_at (build_program sha p prehash a rem inst iram).written q =
      entry_at (stage_merkle sha p prehash a rem inst iram).written q := by
  rw [build_program_stages]
  show entry_at (_ ++ [_]) q = _
  exact entry_at_append_left _ _ q hq

/-- An instruction written by the coinbase loop or before is found at the same
position in the finished program. -/
theorem program_entry_blocks (sha : sha256_ops) (p : pool) (prehash a rem : Nat)
    (inst : ssp_hasher_instruction) (iram : Nat → Nat) (h0 : 0 ≤ p.nonce2_offset) (q : Nat)
    (hq : q < 1 + a) :
    entry_at (build_program sha p prehash a rem inst iram).written q =
      entry_at (stage_blocks sha p prehash a inst iram).written q := by
  obtain ⟨_, _, s3, s4, s5⟩ := stages_chain sha p prehash a rem inst iram h0
  obtain ⟨_, l2, _, _, l5⟩ := stages_length sha p prehash a rem inst iram h0
  rw [program_entry_merkle sha p prehash a rem inst iram q (by rw [l5]; omega)]
  exact extends_by_entry (extends_by_trans (extends_by_trans s3 s4) s5) q (by rw [l2]; exact hq)

/-- The first instruction of the finished program is the one the prehash step
writes. -/
theorem program_entry_prehash (sha : sha256_ops) (p : pool) (prehash a rem : Nat)
    (inst : ssp_hasher_instruction) (iram : Nat → Nat) (h0 : 0 ≤ p.nonce2_offset) :
    entry_at (build_program sha p prehash a rem inst iram).written 0 =
      entry_at (stage_prehash sha p prehash inst iram).written 0 := by
  obtain ⟨_, s2, _⟩ := stages_chain sha p prehash a rem inst iram h0
  obtain ⟨l1, _⟩ := stages_length sha p prehash a rem inst iram h0
  rw [program_entry_blocks sha p prehash a rem inst iram h0 0 (by omega)]
  exact extends_by_entry s2 0 (by rw [l1]; omega)

/-! ### Opcode fields -/

theorem testBit_of_lt {y n i : Nat} (hy : y < 2 ^ n) (hi : n ≤ i) : y.testBit i = false :=
  Nat.testBit_lt_two_pow (lt_of_lt_of_le hy (Nat.pow_le_pow_right (by norm_num) hi))

theorem testBit_1ff (i : Nat) : (0x1ff : Nat).testBit i = decide (i < 9) := by
  have := Nat.testBit_two_pow_sub_one 9 i
  simpa using this

theorem testBit_mid (i : Nat) : (0x100000 : Nat).testBit i = decide (20 = i) := by
  have := @Nat.testBit_two_pow 20 i
  simpa using this

theorem next_addr_field (x y : Nat) (hy : ∀ i, i < 9 → y.testBit (8 + i) = false) :
    ((NEXT_ADDR x ||| y) >>> 8) &&& 0x1ff = x &&& 0x1ff := by
  apply Nat.eq_of_testBit_eq
  intro i
  simp only [Nat.testBit_and, Nat.testBit_shiftRight, Nat.testBit_lor, NEXT_ADDR,
    Nat.testBit_shiftLeft, testBit_1ff]
  by_cases hi : i < 9
  · simp [hi, hy i hi]
  · simp [hi]

theorem next_addr_low (x : Nat) (i : Nat) (hi : i < 8) : (NEXT_ADDR x).testBit i = false := by
  simp only [NEXT_ADDR, Nat.testBit_shiftLeft]
  have : ¬ (i ≥ 8) := by omega
  simp [this]

theorem next_addr_high (x : Nat) (i : Nat) (hi : 17 ≤ i) : (NEXT_ADDR x).testBit i = false := by
  simp only [NEXT_ADDR, Nat.testBit_shiftLeft, Nat.testBit_and, testBit_1ff]
  have : ¬ (i - 8 < 9) := by omega
  simp [this]

theorem block0_mode (x y : Nat) (hy : y < 64) : (NEXT_ADDR x ||| y) &&& 0x100000 = 0 := by
  apply Nat.eq_of_testBit_eq
  intro i
  simp only [Nat.testBit_and, Nat.testBit_lor, testBit_mid, Nat.zero_testBit]
  by_cases hi : 20 = i
  · subst hi
    simp [next_addr_high x 20 (by omega), testBit_of_lt hy (by omega : 6 ≤ 20)]
  · simp [hi]

theorem blockn_low (x : Nat) : (NEXT_ADDR x ||| 0x100000) &&& 0xff = 0 := by
  apply Nat.eq_of_testBit_eq
  intro i
  have h255 : (0xff : Nat).testBit i = decide (i < 8) := by
    have := Nat.testBit_two_pow_sub_one 8 i
    simpa using this
  simp only [Nat.testBit_and, Nat.testBit_lor, testBit_mid, Nat.zero_testBit, h255]
  by_cases hi : i < 8
  · have : ¬ (20 = i) := by omega
    simp [next_addr_low x i hi, this]
  · simp [hi]

theorem stage_prehash_data (sha : sha256_ops) (p : pool) (prehash : Nat)
    (inst : ssp_hasher_instruction) (iram : Nat → Nat) :
    (stage_prehash sha p prehash inst iram).inst.data.length = 64 := by
  simp only [stage_prehash, prehash_step, advance, fill, length_memcpy, List.length_set]
  rfl

theorem nonce2_position (p : pool) (h0 : 0 ≤ p.nonce2_offset) :
    (63 - p.nonce2_offset.tmod 64).toNat = 63 - p.nonce2_offset.toNat % 64 := by
  rw [Int.tmod_eq_emod h0 (by norm_num)]
  omega

/-- C17 (full coinbase blocks).  For a work template with
`0 <= nonce2_offset <= coinbase_len` whose program fits the 32-bit index and
every `j < full_blocks`, the instruction written at position `1 + j` has index
`1 + j`, payload `coinbase[prehash_len + 64j .. prehash_len + 64j + 64)` and
next-address field `(2 + j) & 0x1ff`; for `j = 0` its opcode is
`NEXT_ADDR(2) | (63 - nonce2_offset mod 64)` with the mode bit clear, for
`j >= 1` it is `NEXT_ADDR(2 + j) | 0x00100000` with the low 8 bits zero. -/
theorem full_coinbase_blocks (sha : sha256_ops) (p : pool) (inst : ssp_hasher_instruction)
    (s : ssp_info) (h0 : 0 ≤ p.nonce2_offset) (h1 : p.nonce2_offset ≤ p.coinbase_len)
    (hN : program_length p ≤ 2 ^ 32) (j : Nat) (hj : j < full_blocks p) :
    ∃ r, ssp_hasher_update_stratum sha p inst s = some r ∧
      (entry_at r.2 (1 + j)).1 = 1 + j ∧
      (entry_at r.2 (1 + j)).2.data =
        (List.range 64).map (fun k => coinbase_byte p (prehash_len p + 64 * j + k)) ∧
      ((entry_at r.2 (1 + j)).2.opcode >>> 8) &&& 0x1ff = (2 + j) &&& 0x1ff ∧
      (j = 0 →
        (entry_at r.2 (1 + j)).2.opcode = NEXT_ADDR 2 ||| (63 - p.nonce2_offset.toNat % 64) ∧
        (entry_at r.2 (1 + j)).2.opcode &&& 0x00100000 = 0) ∧
      (1 ≤ j →
        (entry_at r.2 (1 + j)).2.opcode = NEXT_ADDR (2 + j) ||| 0x00100000 ∧
        (entry_at r.2 (1 + j)).2.opcode &&& 0xff = 0) := by
  rw [update_stratum_eq sha p inst s h0 h1]
  obtain ⟨s1, _⟩ := stages_chain sha p (prehash_len p) (full_blocks p) (remainder p) inst
    (ssp_hasher_stop s).iram h0
  obtain ⟨l1, _⟩ := stages_length sha p (prehash_len p) (full_blocks p) (remainder p) inst
    (ssp_hasher_stop s).iram h0
  have hent := coinbase_blocks_entry p (prehash_len p) h0 (full_blocks p) 0
    (stage_prehash sha p (prehash_len p) inst (ssp_hasher_stop s).iram) (extends_by_index s1)
    (stage_prehash_data _ _ _ _ _) j hj
  rw [l1] at hent
  have hE : entry_at (build_program sha p (prehash_len p) (full_blocks p) (remainder p) inst
      (ssp_hasher_stop s).iram).written (1 + j) = _ :=
    (program_entry_blocks sha p (prehash_len p) (full_blocks p) (remainder p) inst
      (ssp_hasher_stop s).iram h0 (1 + j) (by omega)).trans hent
  have hlt : 1 + j < 2 ^ 32 := by
    have := program_length_eq p
    omega
  have hpos := nonce2_position p h0
  have hy : 63 - p.nonce2_offset.toNat % 64 < 64 := by omega
  have hy6 : 63 - p.nonce2_offset.toNat % 64 < 2 ^ 6 := by omega
  refine ⟨_, rfl, ?_, ?_, ?_, ?_, ?_⟩
  · show (entry_at (build_program sha p (prehash_len p) (full_blocks p) (remainder p) inst
      (ssp_hasher_stop s).iram).written (1 + j)).1 = _
    rw [hE]
    exact u32_of_lt hlt
  · show (entry_at (build_program sha p (prehash_len p) (full_blocks p) (remainder p) inst
      (ssp_hasher_stop s).iram).written (1 + j)).2.data = _
    rw [hE]
    dsimp only
    apply List.map_congr_left
    intro k _
    congr 1
    omega
  · show ((entry_at (build_program sha p (prehash_len p) (full_blocks p) (remainder p) inst
      (ssp_hasher_stop s).iram).written (1 + j)).2.opcode >>> 8) &&& 0x1ff = _
    rw [hE]
    dsimp only
    have e : 1 + j + 1 = 2 + j := by omega
    rw [e]
    split
    · rw [hpos]
      exact next_addr_field _ _ (fun i _ => testBit_of_lt hy6 (by omega))
    · apply next_addr_field
      intro i hi
      show (0x100000 : Nat).testBit (8 + i) = false
      rw [testBit_mid]
      have : ¬ (20 = 8 + i) := by omega
      simp [this]
  · intro hj0
    subst hj0
    show (entry_at (build_program sha p (prehash_len p) (full_blocks p) (remainder p) inst
      (ssp_hasher_stop s).iram).written (1 + 0)).2.opcode = _ ∧
      (entry_at (build_program sha p (prehash_len p) (full_blocks p) (remainder p) inst
      (ssp_hasher_stop s).iram).written (1 + 0)).2.opcode &&& 0x00100000 = 0
    rw [hE]
    dsimp only
    have hc : 0 + 0 = 0 := rfl
    rw [if_pos hc, hpos]
    exact ⟨rfl, block0_mode _ _ hy⟩
  · intro hj1
    show (entry_at (build_program sha p (prehash_len p) (full_blocks p) (remainder p) inst
      (ssp_hasher_stop s).iram).written (1 + j)).2.opcode = _ ∧
      (entry_at (build_program sha p (prehash_len p) (full_blocks p) (remainder p) inst
      (ssp_hasher_stop s).iram).written (1 + j)).2.opcode &&& 0xff = 0
    rw [hE]
    dsimp only
    have e : 1 + j + 1 = 2 + j := by omega
    have hc : ¬ (0 + j = 0) := by omega
    rw [if_neg hc, e]
    exact ⟨rfl, blockn_low _⟩

/-- C17 on the canonical vector of `ssp_hasher_test`: its one full block, at
index 1, carries coinbase bytes 64 .. 127 and opcode `0x200 | 30`. -/
theorem full_coinbase_blocks_witness :
    ∃ r, ssp_hasher_update_stratum sha_stub test_pool ⟨0, []⟩ ⟨fun _ => 0, false, false⟩ = some r ∧
      (entry_at r.2 1).1 = 1 ∧
      (entry_at r.2 1).2.data = (test_coinbase.drop 64).take 64 ∧
      (entry_at r.2 1).2.opcode = 0x21e := by
  obtain ⟨r, hr, k1, k2, _, k4, _⟩ := full_coinbase_blocks sha_stub test_pool ⟨0, []⟩
    ⟨fun _ => 0, false, false⟩ (by decide) (by decide) (by decide) 0 (by decide)
  refine ⟨r, hr, k1, ?_, ?_⟩
  · rw [k2]; decide
  · rw [(k4 rfl).1]; decide

/-! ### Merkle folding -/

theorem memcpy_upper (src : Nat → Nat) :
    memcpy zero_data 32 src 32 = List.replicate 32 0 ++ (List.range 32).map src := by
  rfl

/-- The 32 bytes read from a branch are the branch when it has 32 bytes. -/
theorem branch_bytes (p : pool) (j : Nat) (br : List Nat) (h : p.merkle_bin[j]? = some br)
    (hl : br.length = 32) : (List.range 32).map (fun k => merkle_byte p j k) = br := by
  apply List.ext_getElem?
  intro k
  unfold merkle_byte
  rw [List.getD_eq_getElem?_getD, h, Option.getD_some, List.getElem?_map]
  by_cases hk : k < 32
  · rw [List.getElem?_range hk, Option.map_some', List.getD_eq_getElem?_getD,
      List.getElem?_eq_getElem (by omega)]
    simp
  · rw [List.getElem?_eq_none (by simp; omega), List.getElem?_eq_none (by omega)]
    rfl

theorem merkle_start_eq (p : pool) :
    merkle_start p = 1 + full_blocks p + (if remainder p ≠ 0 then 1 else 0) + 1 := by
  unfold merkle_start
  by_cases h : remainder p = 0
  · simp [h]
  · have h2 : remainder p > 0 := Nat.pos_of_ne_zero h
    simp [h, h2]

/-- C16 (merkle folding).  For a work template with
`0 <= nonce2_offset <= coinbase_len` whose program fits the 32-bit index, let
`s` be the position after the coinbase double hash.  For every branch
`j < merkles` the instructions at `s + 3j`, `s + 3j + 1`, `s + 3j + 2` carry
these indices and are: opcode `0x10000000 | NEXT_ADDR(s+3j+1)` with 32 zero
bytes followed by the 32 bytes read from branch `j`; opcode
`0x26000000 | 0x00100000 | NEXT_ADDR(s+3j+2)` with zero payload; opcode
`0x14000000 | NEXT_ADDR(s+3j+3)` with zero payload, the form of the coinbase
double hash at `s - 1`, whose opcode is `0x14000000 | NEXT_ADDR(s)`. -/
theorem merkle_folding (sha : sha256_ops) (p : pool) (inst : ssp_hasher_instruction)
    (s : ssp_info) (h0 : 0 ≤ p.nonce2_offset) (h1 : p.nonce2_offset ≤ p.coinbase_len)
    (hN : program_length p ≤ 2 ^ 32) (j : Nat) (hj : j < p.merkles.toNat) :
    ∃ r, ssp_hasher_update_stratum sha p inst s = some r ∧
      entry_at r.2 (merkle_start p - 1) =
        (merkle_start p - 1, ⟨0x14000000 ||| NEXT_ADDR (merkle_start p), List.replicate 64 0⟩) ∧
      entry_at r.2 (merkle_start p + 3 * j) =
        (merkle_start p + 3 * j,
          ⟨0x10000000 ||| NEXT_ADDR (merkle_start p + 3 * j + 1),
            List.replicate 32 0 ++ (List.range 32).map (fun k => merkle_byte p j k)⟩) ∧
      entry_at r.2 (merkle_start p + 3 * j + 1) =
        (merkle_start p + 3 * j + 1,
          ⟨(0x26000000 ||| 0x00100000) ||| NEXT_ADDR (merkle_start p + 3 * j + 2),
            List.replicate 64 0⟩) ∧
      entry_at r.2 (merkle_start p + 3 * j + 2) =
        (merkle_start p + 3 * j + 2,
          ⟨0x14000000 ||| NEXT_ADDR (merkle_start p + 3 * j + 3), List.replicate 64 0⟩) ∧
      (∀ br, p.merkle_bin[j]? = some br → br.length = 32 →
        (List.range 32).map (fun k => merkle_byte p j k) = br) := by
  rw [update_stratum_eq sha p inst s h0 h1]
  obtain ⟨_, _, _, s4, s5⟩ := stages_chain sha p (prehash_len p) (full_blocks p) (remainder p)
    inst (ssp_hasher_stop s).iram h0
  obtain ⟨_, _, l3, l4, l5⟩ := stages_length sha p (prehash_len p) (full_blocks p) (remainder p)
    inst (ssp_hasher_stop s).iram h0
  have hms := merkle_start_eq p
  have hpl := program_length_eq p
  have hl4 : (stage_double sha p (prehash_len p) (full_blocks p) (remainder p) inst
      (ssp_hasher_stop s).iram).written.length = merkle_start p := by rw [l4, hms]
  have hl3 : (stage_trailing sha p (prehash_len p) (full_blocks p) (remainder p) inst
      (ssp_hasher_stop s).iram).written.length = merkle_start p - 1 := by rw [l3, hms]; omega
  have hl5 : (stage_merkle sha p (prehash_len p) (full_blocks p) (remainder p) inst
      (ssp_hasher_stop s).iram).written.length = merkle_start p + 3 * p.merkles.toNat := by
    rw [l5, hms]
  obtain ⟨m1, m2, m3⟩ := merkle_rounds_entry p p.merkles.toNat 0
    (stage_double sha p (prehash_len p) (full_blocks p) (remainder p) inst (ssp_hasher_stop s).iram)
    (extends_by_index s4) rfl j hj
  rw [hl4] at m1 m2 m3
  rw [Nat.zero_add] at m1
  have hd := (double_hash_spec (stage_trailing sha p (prehash_len p) (full_blocks p)
    (remainder p) inst (ssp_hasher_stop s).iram) (extends_by_index
      (stages_chain sha p (prehash_len p) (full_blocks p) (remainder p)
        inst (ssp_hasher_stop s).iram h0).2.2.1)).1
  have hd2 : entry_at (stage_double sha p (prehash_len p) (full_blocks p) (remainder p) inst
      (ssp_hasher_stop s).iram).written (merkle_start p - 1) =
      (u32 (merkle_start p - 1),
        ⟨INST_DATA_LASTHASH_PAD ||| NEXT_ADDR (merkle_start p - 1 + 1), zero_data⟩) := by
    unfold stage_double
    rw [hd, ← hl3, entry_at_snoc]
  have hge : 1 ≤ merkle_start p := by rw [hms]; omega
  have e1 : merkle_start p - 1 + 1 = merkle_start p := by omega
  rw [e1] at hd2
  have f0 := (program_entry_merkle sha p (prehash_len p) (full_blocks p) (remainder p) inst
    (ssp_hasher_stop s).iram (merkle_start p - 1) (by rw [hl5]; omega)).trans
    ((extends_by_entry s5 _ (by rw [hl4]; omega)).trans hd2)
  have f1 := (program_entry_merkle sha p (prehash_len p) (full_blocks p) (remainder p) inst
    (ssp_hasher_stop s).iram (merkle_start p + 3 * j) (by rw [hl5]; omega)).trans m1
  have f2 := (program_entry_merkle sha p (prehash_len p) (full_blocks p) (remainder p) inst
    (ssp_hasher_stop s).iram (merkle_start p + 3 * j + 1) (by rw [hl5]; omega)).trans m2
  have f3 := (program_entry_merkle sha p (prehash_len p) (full_blocks p) (remainder p) inst
    (ssp_hasher_stop s).iram (merkle_start p + 3 * j + 2) (by rw [hl5]; omega)).trans m3
  have hN2 : merkle_start p + 3 * p.merkles.toNat + 1 ≤ 2 ^ 32 := by
    rw [hms]; omega
  rw [u32_of_lt (by omega)] at f0 f1 f2 f3
  rw [memcpy_upper] at f1
  exact ⟨_, rfl, f0, f1, f2, f3, fun br hb hl => branch_bytes p j br hb hl⟩

/-- C16 on the canonical vector of `ssp_hasher_test`: the merkle instructions
start at index 4, and those of branch 1 at indices 7, 8, 9. -/
theorem merkle_folding_witness :
    merkle_start test_pool = 4 ∧
    ∃ r, ssp_hasher_update_stratum sha_stub test_pool ⟨0, []⟩ ⟨fun _ => 0, false, false⟩ = some r ∧
      entry_at r.2 7 =
        (7, ⟨0x10000000 ||| NEXT_ADDR 8,
          List.replicate 32 0 ++ test_merkle_branches.getD 1 []⟩) ∧
      entry_at r.2 8 = (8, ⟨(0x26000000 ||| 0x00100000) ||| NEXT_ADDR 9, List.replicate 64 0⟩) ∧
      entry_at r.2 9 = (9, ⟨0x14000000 ||| NEXT_ADDR 10, List.replicate 64 0⟩) := by
  have e : merkle_start test_pool = 4 := by decide
  obtain ⟨r, hr, _, k1, k2, k3, k4⟩ := merkle_folding sha_stub test_pool ⟨0, []⟩
    ⟨fun _ => 0, false, false⟩ (by decide) (by decide) (by decide) 1 (by decide)
  rw [e] at k1 k2 k3
  rw [k4 (test_merkle_branches.getD 1 []) (by decide) (by decide)] at k1
  exact ⟨e, r, hr, k1, k2, k3⟩

/-! ### The prehash instruction -/

theorem unpack32_eq (x : Nat) :
    UNPACK32 x = [x / 2 ^ 24 % 256, x / 2 ^ 16 % 256, x / 2 ^ 8 % 256, x % 256] := by
  simp [UNPACK32, Nat.shiftRight_eq_div_pow]

/-- The payload of the prehash instruction: 32 zero bytes, then the digest. -/
theorem stage_prehash_written (sha : sha256_ops) (p : pool) (prehash : Nat)
    (inst : ssp_hasher_instruction) (iram : Nat → Nat) :
    (stage_prehash sha p prehash inst iram).written =
      [(0, ⟨0, List.replicate 32 0 ++ sha256_prehash sha (coinbase_byte p) prehash⟩)] := by
  rfl

/-- C18 (prehash step).  For a work template with
`0 <= nonce2_offset <= coinbase_len`, `coinbase_len_prehash` is the largest
multiple of 64 not above `nonce2_offset`, and the instruction at index 0 has
opcode 0 and payload 32 zero bytes followed by the eight words of the running
SHA-256 state, each as four bytes most significant first, where the state is
the initial one after the compression of the `prehash_len / 64` consecutive
64-byte blocks of the coinbase (the initial state itself for no block). -/
theorem prehash_instruction (sha : sha256_ops) (p : pool) (inst : ssp_hasher_instruction)
    (s : ssp_info) (h0 : 0 ≤ p.nonce2_offset) (h1 : p.nonce2_offset ≤ p.coinbase_len) :
    coinbase_len_prehash p = (prehash_len p : Int) ∧
      (prehash_len p : Int) ≤ p.nonce2_offset ∧ p.nonce2_offset < (prehash_len p : Int) + 64 ∧
      64 ∣ prehash_len p ∧
      (∀ m : Nat, 64 ∣ m → (m : Int) ≤ p.nonce2_offset → m ≤ prehash_len p) ∧
      (∃ r, ssp_hasher_update_stratum sha p inst s = some r ∧
        entry_at r.2 0 =
          (0, ⟨0, List.replicate 32 0 ++
            (List.range 8).flatMap (fun i =>
              UNPACK32 ((sha256_blocks sha (coinbase_byte p) (prehash_len p / 64)).getD i 0))⟩)) ∧
      (∀ x, UNPACK32 x = [x / 2 ^ 24 % 256, x / 2 ^ 16 % 256, x / 2 ^ 8 % 256, x % 256]) ∧
      sha256_blocks sha (coinbase_byte p) 0 = sha.h0 ∧
      (∀ n, sha256_blocks sha (coinbase_byte p) (n + 1) =
        sha.transf (sha256_blocks sha (coinbase_byte p) n)
          ((List.range 64).map (fun k => coinbase_byte p (n * 64 + k)))) := by
  have e1 := (lengths_eq p h0 h1).1
  refine ⟨e1, ?_, ?_, ?_, ?_, ?_, unpack32_eq, rfl, fun _ => rfl⟩
  · unfold prehash_len; omega
  · unfold prehash_len; omega
  · unfold prehash_len; omega
  · intro m hm hle
    unfold prehash_len
    omega
  · rw [update_stratum_eq sha p inst s h0 h1]
    refine ⟨_, rfl, ?_⟩
    show entry_at (build_program sha p (prehash_len p) (full_blocks p) (remainder p) inst
      (ssp_hasher_stop s).iram).written 0 = _
    rw [program_entry_prehash sha p _ _ _ inst _ h0, stage_prehash_written]
    rfl

/-- C18 on the canonical vector of `ssp_hasher_test` with a stand-in for
SHA-256 whose state words are 1 .. 8: `prehash_len` is 64 and the payload ends
in the words 1 .. 8, four bytes each. -/
theorem prehash_instruction_witness :
    prehash_len test_pool = 64 ∧
    ∃ r, ssp_hasher_update_stratum ⟨[1, 2, 3, 4, 5, 6, 7, 0x01020304], fun h _ => h⟩ test_pool
        ⟨0, []⟩ ⟨fun _ => 0, false, false⟩ = some r ∧
      entry_at r.2 0 =
        (0, ⟨0, List.replicate 32 0 ++
          [0, 0, 0, 1, 0, 0, 0, 2, 0, 0, 0, 3, 0, 0, 0, 4, 0, 0, 0, 5, 0, 0, 0, 6, 0, 0, 0, 7,
            1, 2, 3, 4]⟩) := by
  obtain ⟨_, _, _, _, _, ⟨r, hr, k⟩, _⟩ := prehash_instruction
    ⟨[1, 2, 3, 4, 5, 6, 7, 0x01020304], fun h _ => h⟩ test_pool ⟨0, []⟩
    ⟨fun _ => 0, false, false⟩ (by decide) (by decide)
  refine ⟨by decide, r, hr, ?_⟩
  rw [k]
  decide

/-! ### Work templates with inconsistent lengths -/

/-- The lengths of the code agree with the quantities of the specification as
soon as the prehashed part fits the coinbase. -/
theorem lengths_of_prehash (p : pool) (h0 : 0 ≤ p.nonce2_offset)
    (h1 : (prehash_len p : Int) ≤ p.coinbase_len) :
    coinbase_len_prehash p = (prehash_len p : Int) ∧
    ((coinbase_len_posthash p).tdiv SHA256_BLOCK_SIZE).toNat = full_blocks p ∧
    ((coinbase_len_posthash p).tmod SHA256_BLOCK_SIZE).toNat = remainder p ∧
    0 ≤ (coinbase_len_posthash p).tmod SHA256_BLOCK_SIZE := by
  have e1 : coinbase_len_prehash p = (prehash_len p : Int) := by
    unfold coinbase_len_prehash prehash_len SHA256_BLOCK_SIZE
    rw [Int.tmod_eq_emod h0 (by norm_num)]
    omega
  have hpos : 0 ≤ coinbase_len_posthash p := by
    unfold coinbase_len_posthash
    rw [e1]; omega
  refine ⟨e1, ?_, ?_, ?_⟩
  · unfold SHA256_BLOCK_SIZE
    rw [Int.tdiv_eq_ediv hpos (by norm_num)]
    unfold coinbase_len_posthash full_blocks
    rw [e1]; omega
  · unfold SHA256_BLOCK_SIZE
    rw [Int.tmod_eq_emod hpos (by norm_num)]
    unfold coinbase_len_posthash remainder
    rw [e1]; omega
  · exact Int.tmod_nonneg _ hpos

theorem update_stratum_of_prehash (sha : sha256_ops) (p : pool) (inst : ssp_hasher_instruction)
    (s : ssp_info) (h0 : 0 ≤ p.nonce2_offset) (h1 : (prehash_len p : Int) ≤ p.coinbase_len) :
    ssp_hasher_update_stratum sha p inst s =
      some (ssp_hasher_start
        { ssp_hasher_stop s with
          iram := (build_program sha p (prehash_len p) (full_blocks p) (remainder p) inst
            (ssp_hasher_stop s).iram).iram
          stratum_update := true },
        (build_program sha p (prehash_len p) (full_blocks p) (remainder p) inst
          (ssp_hasher_stop s).iram).written) := by
  obtain ⟨e1, e2, e3, e4⟩ := lengths_of_prehash p h0 h1
  have hg : ¬ (coinbase_len_prehash p < 0 ∨
      (coinbase_len_posthash p).tmod SHA256_BLOCK_SIZE < 0) := by
    rw [e1]; omega
  simp only [ssp_hasher_update_stratum, if_neg hg, e2, e3]
  rw [e1]
  simp only [Int.toNat_ofNat]

/-- C11 fails on the code: `ssp_hasher_update_stratum` has no check of the
template.  With `nonce2_offset` 97 beyond a coinbase of 90 bytes it returns,
having written a program of 40 instructions (flush marker of instruction 0 at
word 17, terminal opcode of instruction 39 at word 1248), with the job-changed
flag and the run flag set. -/
theorem malformed_template_accepted :
    malformed_pool.coinbase_len < malformed_pool.nonce2_offset ∧
    (ssp_hasher_update_stratum sha_stub malformed_pool ⟨0, []⟩ ⟨fun _ => 0, false, false⟩).map
      (fun r => (r.2.length, (written_at r.2 39).opcode, r.1.run, r.1.stratum_update)) =
        some (40, 0x00040000, true, true) ∧
    (ssp_hasher_update_stratum sha_stub malformed_pool ⟨0, []⟩ ⟨fun _ => 0, false, false⟩).map
      (fun r => (r.1.iram 17, r.1.iram 1248)) = some (1, 0x00040000) := by
  refine ⟨by decide, by decide, ?_⟩
  set_option maxRecDepth 20000 in decide

/-- C11 as the code has it.  `ssp_hasher_update_stratum` validates nothing:
for every work template with `0 <= nonce2_offset` and
`prehash_len <= coinbase_len`, also when `nonce2_offset > coinbase_len`, it
returns after writing the whole program of
`1 + full_blocks + (1 if remainder > 0) + 1 + 3 * m + 1` instructions, the last
one with the terminal opcode `0x00040000`, and leaves the job-changed flag set,
the run flag true and the run indicator word 0. -/
theorem no_template_validation (sha : sha256_ops) (p : pool) (inst : ssp_hasher_instruction)
    (s : ssp_info) (h0 : 0 ≤ p.nonce2_offset) (h1 : (prehash_len p : Int) ≤ p.coinbase_len) :
    ∃ r body last, ssp_hasher_update_stratum sha p inst s = some r ∧
      r.2 = body ++ [last] ∧ last.2.opcode = 0x00040000 ∧
      r.2.length = program_length p ∧ 0 < r.2.length ∧
      r.1.stratum_update = true ∧ r.1.run = true ∧ r.1.iram 31 = 0 := by
  rw [update_stratum_of_prehash sha p inst s h0 h1]
  obtain ⟨b, hb, L, e1, l1, _, _, _⟩ :=
    build_program_body sha p (prehash_len p) (full_blocks p) (remainder p) inst
      (ssp_hasher_stop s).iram h0
  have hw : (build_program sha p (prehash_len p) (full_blocks p) (remainder p) inst
      (ssp_hasher_stop s).iram).written = L ++ [(b.inst_index, { b.inst with opcode := INST_DONE })] := by
    rw [hb]
    show b.written ++ [(b.inst_index, _)] = _
    rw [e1]; rfl
  have hlen : (L ++ [(b.inst_index, { b.inst with opcode := INST_DONE })]).length =
      program_length p := by
    rw [program_length_eq]
    simp [l1]
  refine ⟨_, L, (b.inst_index, { b.inst with opcode := INST_DONE }), rfl, hw, rfl, ?_, ?_,
    rfl, rfl, ?_⟩
  · show (build_program sha p (prehash_len p) (full_blocks p) (remainder p) inst
      (ssp_hasher_stop s).iram).written.length = _
    rw [hw, hlen]
  · show 0 < (build_program sha p (prehash_len p) (full_blocks p) (remainder p) inst
      (ssp_hasher_stop s).iram).written.length
    rw [hw]
    simp
  · simp [ssp_hasher_start, iram_write]

/-- C11 as the code has it, on the template whose `nonce2_offset` 97 lies
beyond its 90 coinbase bytes. -/
theorem no_template_validation_witness :
    malformed_pool.coinbase_len < malformed_pool.nonce2_offset ∧
    ∃ r body last,
      ssp_hasher_update_stratum sha_stub malformed_pool ⟨0, []⟩ ⟨fun _ => 0, false, false⟩ =
        some r ∧
      r.2 = body ++ [last] ∧ last.2.opcode = 0x00040000 ∧
      r.2.length = program_length malformed_pool ∧ 0 < r.2.length ∧
      r.1.stratum_update = true ∧ r.1.run = true ∧ r.1.iram 31 = 0 :=
  ⟨by decide, no_template_validation sha_stub malformed_pool ⟨0, []⟩ ⟨fun _ => 0, false, false⟩
    (by decide) (by decide)⟩

/-! ### The background loop -/

theorem and_mask32 (x : Nat) : x &&& 0xffffffff = x % 2 ^ 32 :=
  Nat.and_pow_two_sub_one_eq_mod x 32

/-- The verdict of an iteration on the entry it read (lines 250-253). -/
theorem thread_inserted (pram : Nat → Nat) (t : hasher_thread) :
    (ssp_hasher_thread pram t).2.inserted =
      if (if (thread_enter t).last_nonce2 > pram (thread_enter t).point_index &&& 0xffffffff
          then true else (thread_enter t).valid_nonce2) = true
      then some (point_at pram (u32 ((thread_enter t).point_index + 1) % 32768))
      else none :=
  rfl

/-- C12 fails on the code.  The trial value an iteration checks is the low
half of the entry at the cursor, but the point it inserts is the entry at the
cursor already advanced by line 259: entry `(cursor + 1) mod 32768`.  With
entry 0 = `(nonce2 3, tail 7)` and entry 1 = `(nonce2 5, tail 9)`, cursor 0 and
last trial 10, the iteration reads trial 3 at cursor 0, turns valid and stores
`(5, 9)` in cell 9; the entry `(3, 7)` it read is not inserted and cell 7 stays
empty. -/
theorem thread_inserts_next_entry :
    (∀ (pram : Nat → Nat) (t : hasher_thread),
      (ssp_hasher_thread pram t).2.nonce2 =
        (point_at pram (ssp_hasher_thread pram t).2.cursor).nonce2 ∧
      ∀ pt, (ssp_hasher_thread pram t).2.inserted = some pt →
        pt = point_at pram (u32 ((ssp_hasher_thread pram t).2.cursor + 1) % 32768)) ∧
    (ssp_hasher_thread sample_pram sample_thread).2 = ⟨false, 0, 10, 3, some ⟨5, 9⟩⟩ ∧
    point_at sample_pram 0 = ⟨3, 7⟩ ∧
    cell (ssp_hasher_thread sample_pram sample_thread).1.sorter.ssp_ht 9 = ⟨5, 9⟩ ∧
    cell (ssp_hasher_thread sample_pram sample_thread).1.sorter.ssp_ht 7 = empty_cell ∧
    (ssp_hasher_thread sample_pram sample_thread).1.point_index = 1 := by
  refine ⟨fun pram t => ⟨and_mask32 _, fun pt h => ?_⟩, by decide, by decide, by decide,
    by decide, by decide⟩
  rw [thread_inserted] at h
  by_cases hv : (if (thread_enter t).last_nonce2 > pram (thread_enter t).point_index &&& 0xffffffff
      then true else (thread_enter t).valid_nonce2) = true
  · rw [if_pos hv] at h
    exact (Option.some.inj h).symm
  · rw [if_neg hv] at h
    cases h

theorem thread_enter_idle (t : hasher_thread) (h : t.info.stratum_update = false) :
    (thread_enter t).last_nonce2 = t.last_nonce2 ∧
    (thread_enter t).point_index = t.point_index ∧
    (thread_enter t).sorter = t.sorter ∧
    (thread_enter t).info = t.info ∧
    (thread_enter t).valid_nonce2 = (t.info.run && t.valid_nonce2) := by
  cases hr : t.info.run <;> simp [thread_enter, hr, h]

theorem thread_enter_consume (t : hasher_thread) (h : t.info.stratum_update = true) :
    (thread_enter t).last_nonce2 = 0 ∧
    (thread_enter t).point_index = 0 ∧
    (thread_enter t).sorter = ssp_sorter_flush t.sorter ∧
    (thread_enter t).info = { t.info with stratum_update := false } ∧
    (thread_enter t).valid_nonce2 = false := by
  cases hr : t.info.run <;> simp [thread_enter, hr, h]

/-- An iteration that consumes the job-changed flag reads at cursor 0 against
last trial 0 and inserts nothing. -/
theorem thread_consume (pram : Nat → Nat) (t : hasher_thread)
    (h : t.info.stratum_update = true) :
    (ssp_hasher_thread pram t).2.consumed = true ∧
    (ssp_hasher_thread pram t).2.cursor = 0 ∧
    (ssp_hasher_thread pram t).2.last = 0 ∧
    (ssp_hasher_thread pram t).2.inserted = none ∧
    (ssp_hasher_thread pram t).1.sorter = ssp_sorter_flush t.sorter ∧
    (ssp_hasher_thread pram t).1.valid_nonce2 = false := by
  obtain ⟨e1, e2, e3, e4, e5⟩ := thread_enter_consume t h
  have hv : (if (thread_enter t).last_nonce2 > pram (thread_enter t).point_index &&& 0xffffffff
      then true else (thread_enter t).valid_nonce2) = false := by
    rw [e1, e5]; simp
  refine ⟨h, e2, e1, ?_, ?_, ?_⟩
  · rw [thread_inserted, hv]; rfl
  · show (if (if (thread_enter t).last_nonce2 > pram (thread_enter t).point_index &&& 0xffffffff
        then true else (thread_enter t).valid_nonce2) = true then _ else (thread_enter t).sorter)
        = _
    rw [hv, e3]; rfl
  · exact hv

/-- No iteration leaves the job-changed flag set, and none touches the rest of
`sspinfo`. -/
theorem thread_info (pram : Nat → Nat) (t : hasher_thread) :
    (ssp_hasher_thread pram t).1.info.stratum_update = false ∧
    (ssp_hasher_thread pram t).1.info.run = t.info.run := by
  show (thread_enter t).info.stratum_update = false ∧ (thread_enter t).info.run = t.info.run
  cases hf : t.info.stratum_update
  · rw [(thread_enter_idle t hf).2.2.2.1]; exact ⟨hf, rfl⟩
  · rw [(thread_enter_consume t hf).2.2.2.1]; exact ⟨rfl, rfl⟩

/-- The first half of C13 holds on the code: an iteration that consumes the
job-changed flag inserts nothing, and neither do the iterations after it as
long as each reads a trial value not below the one read just before. -/
theorem no_insert_before_decrease (t : hasher_thread) (pram0 : Nat → Nat)
    (prams : List (Nat → Nat)) (h : t.info.stratum_update = true)
    (hup : List.Chain (fun a b : iteration_log => a.nonce2 ≤ b.nonce2)
      (ssp_hasher_thread pram0 t).2 (iteration_logs (ssp_hasher_thread pram0 t).1 prams)) :
    (ssp_hasher_thread pram0 t).2.inserted = none ∧
    ∀ l ∈ iteration_logs (ssp_hasher_thread pram0 t).1 prams, l.inserted = none := by
  refine ⟨(thread_consume pram0 t h).2.2.2.1, ?_⟩
  have key : ∀ (ps : List (Nat → Nat)) (t1 : hasher_thread) (l0 : iteration_log),
      t1.valid_nonce2 = false → t1.info.stratum_update = false → l0.nonce2 = t1.last_nonce2 →
      List.Chain (fun a b : iteration_log => a.nonce2 ≤ b.nonce2) l0 (iteration_logs t1 ps) →
      ∀ l ∈ iteration_logs t1 ps, l.inserted = none := by
    intro ps
    induction ps with
    | nil => intro t1 l0 _ _ _ _ l hl; cases hl
    | cons pram rest ih =>
      intro t1 l0 hv hf hl hc l hmem
      obtain ⟨e1, e2, e3, e4, e5⟩ := thread_enter_idle t1 hf
      have hc2 := List.chain_cons.1 hc
      have hle : t1.last_nonce2 ≤ pram t1.point_index &&& 0xffffffff := by
        have := hc2.1
        rw [hl] at this
        exact this.trans (le_of_eq (by show pram (thread_enter t1).point_index &&& _ = _; rw [e2]))
      have hv2 : (if (thread_enter t1).last_nonce2 >
          pram (thread_enter t1).point_index &&& 0xffffffff
          then true else (thread_enter t1).valid_nonce2) = false := by
        rw [e1, e2, e5, hv, if_neg (by omega)]; simp
      rcases List.mem_cons.1 hmem with hm | hm
      · rw [hm, thread_inserted, hv2]; rfl
      · exact ih (ssp_hasher_thread pram t1).1 (ssp_hasher_thread pram t1).2 hv2
          (thread_info pram t1).1 rfl hc2.2 l hm
  exact key prams _ _ (thread_consume pram0 t h).2.2.2.2.2 (thread_info pram0 t).1 rfl hup

/-- C13 fails on the code in its second half.  The test of `run` at line 236
only clears the valid flag; the comparison of line 250 sets it again in the
same iteration.  So an iteration that starts with `run == false` inserts
exactly when it reads a trial value below the last one.  From the state
`ssp_hasher_init` leaves (stopped, last trial 0, cursor 0), over entries with
trial values 10, 3, 5, the second iteration reads 3 after 10 and stores the
point `(5, 9)` in cell 9 while `run` is false throughout. -/
theorem stopped_iteration_inserts :
    (∀ (pram : Nat → Nat) (t : hasher_thread), t.info.run = false →
      t.info.stratum_update = false →
      ((ssp_hasher_thread pram t).2.inserted ≠ none ↔
        t.last_nonce2 > (ssp_hasher_thread pram t).2.nonce2)) ∧
    stopped_thread.info.run = false ∧
    iteration_logs stopped_thread [descending_pram, descending_pram] =
      [⟨false, 0, 0, 10, none⟩, ⟨false, 1, 10, 3, some ⟨5, 9⟩⟩] ∧
    (ssp_hasher_thread descending_pram stopped_thread).1.info.run = false ∧
    (iterations stopped_thread [descending_pram, descending_pram]).info.run = false ∧
    cell (iterations stopped_thread [descending_pram, descending_pram]).sorter.ssp_ht 9 =
      ⟨5, 9⟩ := by
  refine ⟨fun pram t hr hf => ?_, by decide, by decide, by decide, by decide, by decide⟩
  obtain ⟨e1, e2, e3, e4, e5⟩ := thread_enter_idle t hf
  rw [thread_inserted]
  show _ ↔ t.last_nonce2 > pram (thread_enter t).point_index &&& 0xffffffff
  rw [e1, e5, hr]
  by_cases hlt : t.last_nonce2 > pram (thread_enter t).point_index &&& 0xffffffff
  · simp [hlt]
  · simp [hlt]

/-! ### Job updates against the background loop -/

/-- What `ssp_hasher_update_stratum` leaves in `sspinfo` when it returns. -/
theorem update_flags (sha : sha256_ops) (p : pool) (inst : ssp_hasher_instruction)
    (s : ssp_info) (r : ssp_info × List (Nat × ssp_hasher_instruction))
    (hr : ssp_hasher_update_stratum sha p inst s = some r) :
    r.1.run = true ∧ r.1.iram 31 = 0 ∧ r.1.stratum_update = true := by
  simp only [ssp_hasher_update_stratum] at hr
  split at hr
  · cases hr
  · cases hr
    exact ⟨rfl, rfl, rfl⟩

theorem system_update_spec (sha : sha256_ops) (p : pool) (inst : ssp_hasher_instruction)
    (t tu : hasher_thread) (h : system_update sha p inst t = some tu) :
    tu.info.run = true ∧ tu.info.iram 31 = 0 ∧ tu.info.stratum_update = true ∧
    tu.sorter = t.sorter := by
  unfold system_update at h
  cases hu : ssp_hasher_update_stratum sha p inst t.info with
  | none => rw [hu] at h; cases h
  | some r =>
    rw [hu] at h
    cases h
    obtain ⟨f1, f2, f3⟩ := update_flags sha p inst t.info r hu
    exact ⟨f1, f2, f3, rfl⟩

theorem run_events_append (es fs : List ssp_event) : ∀ t : hasher_thread,
    run_events t (es ++ fs) = (run_events t es).bind (fun t1 => run_events t1 fs) := by
  induction es with
  | nil => intro t; rfl
  | cons e es ih =>
    intro t
    show (run_event t e).bind _ = ((run_event t e).bind _).bind _
    cases run_event t e with
    | none => rfl
    | some t1 => exact ih t1

theorem run_events_iterate (prams : List (Nat → Nat)) : ∀ t : hasher_thread,
    run_events t (prams.map ssp_event.iterate) = some (iterations t prams) := by
  induction prams with
  | nil => intro t; rfl
  | cons pram rest ih => intro t; exact ih _

theorem flush_cells_empty (s : Sorter) (h : table_ok s.ssp_ht) (k : Nat) :
    cell (ssp_sorter_flush s).ssp_ht k = empty_cell :=
  cell_replicate _ s.ssp_ht.max_size k (memset_cells_length _ _ h)

theorem flush_table_ok (s : Sorter) (h : table_ok s.ssp_ht) :
    table_ok (ssp_sorter_flush s).ssp_ht := by
  show (memset_cells s.ssp_ht.max_size s.ssp_ht.cells).length = s.ssp_ht.max_size
  rw [memset_cells_length _ _ h, List.length_replicate]

/-- The sorter after an iteration: flushed if the flag was consumed, then one
insert if the entry was accepted. -/
theorem thread_sorter (pram : Nat → Nat) (t : hasher_thread) :
    ((ssp_hasher_thread pram t).2.inserted = none ∧
      (ssp_hasher_thread pram t).1.sorter = (thread_enter t).sorter) ∨
    ∃ pt m, (ssp_hasher_thread pram t).2.inserted = some pt ∧
      (ssp_hasher_thread pram t).1.sorter =
        ssp_sorter_insert pt { (thread_enter t).sorter with maxnonce := m } := by
  by_cases hv : (if (thread_enter t).last_nonce2 > pram (thread_enter t).point_index &&& 0xffffffff
      then true else (thread_enter t).valid_nonce2) = true
  · right
    refine ⟨_, (if pram (thread_enter t).point_index &&& 0xffffffff >
        (thread_enter t).sorter.maxnonce then pram (thread_enter t).point_index &&& 0xffffffff
      else (thread_enter t).sorter.maxnonce), by rw [thread_inserted, if_pos hv], ?_⟩
    show (if (if (thread_enter t).last_nonce2 > pram (thread_enter t).point_index &&& 0xffffffff
        then true else (thread_enter t).valid_nonce2) = true then _ else (thread_enter t).sorter)
        = _
    rw [if_pos hv]
    rfl
  · left
    refine ⟨by rw [thread_inserted, if_neg hv], ?_⟩
    show (if (if (thread_enter t).last_nonce2 > pram (thread_enter t).point_index &&& 0xffffffff
        then true else (thread_enter t).valid_nonce2) = true then _ else (thread_enter t).sorter)
        = _
    rw [if_neg hv]

theorem thread_enter_table_ok (t : hasher_thread) (h : table_ok t.sorter.ssp_ht) :
    table_ok (thread_enter t).sorter.ssp_ht := by
  cases hf : t.info.stratum_update
  · rw [(thread_enter_idle t hf).2.2.1]; exact h
  · rw [(thread_enter_consume t hf).2.2.1]; exact flush_table_ok _ h

theorem thread_table_ok (pram : Nat → Nat) (t : hasher_thread) (h : table_ok t.sorter.ssp_ht) :
    table_ok (ssp_hasher_thread pram t).1.sorter.ssp_ht := by
  rcases thread_sorter pram t with ⟨_, e⟩ | ⟨pt, m, _, e⟩
  · rw [e]; exact thread_enter_table_ok t h
  · rw [e]; exact insert_table_ok _ _ (thread_enter_table_ok t h)

theorem run_events_table_ok (es : List ssp_event) : ∀ t t1 : hasher_thread,
    table_ok t.sorter.ssp_ht → run_events t es = some t1 → table_ok t1.sorter.ssp_ht := by
  induction es with
  | nil => intro t t1 h hr; cases hr; exact h
  | cons e es ih =>
    intro t t1 h hr
    change (run_event t e).bind _ = _ at hr
    cases e with
    | update sha p inst =>
      cases hu : system_update sha p inst t with
      | none => simp [run_event, hu] at hr
      | some tu =>
        simp only [run_event, hu, Option.some_bind] at hr
        exact ih tu t1 (by rw [(system_update_spec sha p inst t tu hu).2.2.2]; exact h) hr
    | iterate pram =>
      simp only [run_event, Option.some_bind] at hr
      exact ih _ t1 (thread_table_ok pram t h) hr

theorem cell_from_mono (hist more : List ssp_point) (c : ssp_point) (h : cell_from hist c) :
    cell_from (hist ++ more) c := by
  rcases h with h | ⟨q, hq, h⟩
  · exact Or.inl h
  · exact Or.inr ⟨q, List.mem_append_left _ hq, h⟩

/-- One insert keeps every cell stemming from the recorded points. -/
theorem insert_traced (p : ssp_point) (s : Sorter) (hist : List ssp_point)
    (h : ∀ k, cell_from hist (cell s.ssp_ht k)) :
    ∀ k, cell_from (hist ++ [p]) (cell (ssp_sorter_insert p s).ssp_ht k) := by
  intro k
  have hold : cell_from (hist ++ [p]) (cell s.ssp_ht k) := cell_from_mono _ _ _ (h k)
  have hp : p ∈ hist ++ [p] := by simp
  unfold ssp_sorter_insert
  rcases insert_loop_cases p s.ssp_ht.limit 0 { s with calls := u32 (s.calls + 1) } with
    ⟨j, _, _, _, e⟩ | ⟨j, _, _, _, ht, e⟩ | e
  · rw [e]
    rcases getD_set_cases s.ssp_ht.cells (probe_key s.ssp_ht p.tail j) k ⟨p.nonce2, p.tail⟩ with
      h1 | h1
    · show cell_from _ ((s.ssp_ht.cells.set (probe_key s.ssp_ht p.tail j)
        ⟨p.nonce2, p.tail⟩).getD k empty_cell)
      rw [h1]
      exact Or.inr ⟨p, hp, rfl, Or.inl rfl⟩
    · show cell_from _ ((s.ssp_ht.cells.set (probe_key s.ssp_ht p.tail j)
        ⟨p.nonce2, p.tail⟩).getD k empty_cell)
      rw [h1]; exact hold
  · rw [e]
    rcases getD_set_cases s.ssp_ht.cells (probe_key s.ssp_ht p.tail j) k
      ⟨0, (cell s.ssp_ht (probe_key s.ssp_ht p.tail j)).tail⟩ with h1 | h1
    · show cell_from _ ((s.ssp_ht.cells.set (probe_key s.ssp_ht p.tail j)
        ⟨0, (cell s.ssp_ht (probe_key s.ssp_ht p.tail j)).tail⟩).getD k empty_cell)
      rw [h1]
      exact Or.inr ⟨p, hp, ht, Or.inr rfl⟩
    · show cell_from _ ((s.ssp_ht.cells.set (probe_key s.ssp_ht p.tail j)
        ⟨0, (cell s.ssp_ht (probe_key s.ssp_ht p.tail j)).tail⟩).getD k empty_cell)
      rw [h1]; exact hold
  · rw [e]; exact hold

theorem iterations_flag (prams : List (Nat → Nat)) : ∀ t : hasher_thread,
    t.info.stratum_update = false → (iterations t prams).info.stratum_update = false := by
  induction prams with
  | nil => intro t h; exact h
  | cons pram rest ih => intro t _; exact ih _ (thread_info pram t).1

/-- Iterations that find no job change leave in the table only what stems from
the points that were there or that they inserted. -/
theorem iterations_traced (prams : List (Nat → Nat)) :
    ∀ (t : hasher_thread) (hist : List ssp_point), t.info.stratum_update = false →
      (∀ k, cell_from hist (cell t.sorter.ssp_ht k)) →
      ∀ k, cell_from (hist ++ iterations_inserted t prams)
        (cell (iterations t prams).sorter.ssp_ht k) := by
  induction prams with
  | nil =>
    intro t hist _ h k
    exact cell_from_mono _ _ _ (h k)
  | cons pram rest ih =>
    intro t hist hf h k
    have hs := (thread_enter_idle t hf).2.2.1
    rcases thread_sorter pram t with ⟨e1, e2⟩ | ⟨pt, m, e1, e2⟩
    · have hi : iterations_inserted t (pram :: rest) =
          iterations_inserted (ssp_hasher_thread pram t).1 rest := by
        simp [iterations_inserted, iteration_logs, List.filterMap_cons, e1]
      rw [hi]
      exact ih _ hist (thread_info pram t).1 (by rw [e2, hs]; exact h) k
    · have hi : iterations_inserted t (pram :: rest) =
          pt :: iterations_inserted (ssp_hasher_thread pram t).1 rest := by
        simp [iterations_inserted, iteration_logs, List.filterMap_cons, e1]
      rw [hi]
      have := ih _ (hist ++ [pt]) (thread_info pram t).1
        (by rw [e2, hs]; exact insert_traced pt _ hist h) k
      rw [List.append_assoc] at this
      exact this

/-- C14 (job-update atomicity).  Take any interleaving of job updates and loop
iterations, each a whole critical section, from a state with a well-formed
table: events `pre`, then a call of `ssp_hasher_update_stratum` that returns,
then the iterations `mid` and one more iteration that inserts a point.  After
the update the run flag is true, the run indicator word is 0 and the
job-changed flag is set.  `mid` is not empty: its first iteration consumed the
flag, read at cursor 0 against last trial 0, inserted nothing and left every
cell empty.  The inserting iteration flushes nothing, and every cell of the
table it inserts into is empty or stems from a point inserted by the
iterations of `mid` after that flush. -/
theorem job_update_atomicity (t0 : hasher_thread) (pre : List ssp_event) (sha : sha256_ops)
    (p : pool) (inst : ssp_hasher_instruction) (mid : List (Nat → Nat)) (pram : Nat → Nat)
    (t2 : hasher_thread) (pt : ssp_point)
    (htab : table_ok t0.sorter.ssp_ht)
    (hrun : run_events t0 (pre ++ ssp_event.update sha p inst :: mid.map ssp_event.iterate) =
      some t2)
    (hins : (ssp_hasher_thread pram t2).2.inserted = some pt) :
    ∃ t1 tu pram0 rest,
      run_events t0 pre = some t1 ∧
      system_update sha p inst t1 = some tu ∧
      tu.info.run = true ∧ tu.info.iram 31 = 0 ∧ tu.info.stratum_update = true ∧
      mid = pram0 :: rest ∧
      (ssp_hasher_thread pram0 tu).2.consumed = true ∧
      (ssp_hasher_thread pram0 tu).2.cursor = 0 ∧
      (ssp_hasher_thread pram0 tu).2.last = 0 ∧
      (ssp_hasher_thread pram0 tu).2.inserted = none ∧
      (∀ k, cell (ssp_hasher_thread pram0 tu).1.sorter.ssp_ht k = empty_cell) ∧
      t2 = iterations (ssp_hasher_thread pram0 tu).1 rest ∧
      (ssp_hasher_thread pram t2).2.consumed = false ∧
      (thread_enter t2).sorter = t2.sorter ∧
      ∀ k, cell_from (iterations_inserted (ssp_hasher_thread pram0 tu).1 rest)
        (cell t2.sorter.ssp_ht k) := by
  rw [run_events_append] at hrun
  cases h1 : run_events t0 pre with
  | none => rw [h1] at hrun; cases hrun
  | some t1 =>
    rw [h1] at hrun
    change (system_update sha p inst t1).bind _ = _ at hrun
    cases hu : system_update sha p inst t1 with
    | none => rw [hu] at hrun; cases hrun
    | some tu =>
      rw [hu] at hrun
      change run_events tu (mid.map ssp_event.iterate) = _ at hrun
      rw [run_events_iterate] at hrun
      have ht2 : t2 = iterations tu mid := (Option.some.inj hrun).symm
      obtain ⟨f1, f2, f3, f4⟩ := system_update_spec sha p inst t1 tu hu
      have htu : table_ok tu.sorter.ssp_ht := by
        rw [f4]; exact run_events_table_ok pre t0 t1 htab h1
      cases mid with
      | nil =>
        have : t2 = tu := ht2
        rw [this, (thread_consume pram tu f3).2.2.2.1] at hins
        cases hins
      | cons pram0 rest =>
        obtain ⟨c1, c2, c3, c4, c5, _⟩ := thread_consume pram0 tu f3
        have hflag : t2.info.stratum_update = false := by
          rw [ht2]; exact iterations_flag rest _ (thread_info pram0 tu).1
        have hempty : ∀ k, cell (ssp_hasher_thread pram0 tu).1.sorter.ssp_ht k = empty_cell := by
          intro k; rw [c5]; exact flush_cells_empty _ htu k
        refine ⟨t1, tu, pram0, rest, rfl, hu, f1, f2, f3, rfl, c1, c2, c3, c4, hempty, ht2, hflag,
          (thread_enter_idle t2 hflag).2.2.1, ?_⟩
        intro k
        have := iterations_traced rest (ssp_hasher_thread pram0 tu).1 []
          (thread_info pram0 tu).1 (fun k => Or.inl (by rw [hempty k]; exact ⟨rfl, rfl⟩)) k
        rw [List.nil_append] at this
        rw [ht2]
        exact this

/-- C14 on the canonical job of `ssp_hasher_test`: from the stopped loop, the
update, one iteration that consumes the flag (it reads trial 10 at cursor 0)
and a second one that reads trial 3 and inserts `(5, 9)` into the flushed,
empty table. -/
theorem job_update_atomicity_witness :
    (ssp_hasher_thread descending_pram
      (iterations ((system_update sha_stub test_pool ⟨0, []⟩ stopped_thread).getD stopped_thread)
        [descending_pram])).2.inserted = some ⟨5, 9⟩ ∧
    ∃ tu pram0 rest,
      system_update sha_stub test_pool ⟨0, []⟩ stopped_thread = some tu ∧
      tu.info.run = true ∧ tu.info.iram 31 = 0 ∧ tu.info.stratum_update = true ∧
      [descending_pram] = pram0 :: rest ∧
      (ssp_hasher_thread pram0 tu).2.consumed = true ∧
      (ssp_hasher_thread pram0 tu).2.cursor = 0 ∧
      (ssp_hasher_thread pram0 tu).2.last = 0 ∧
      (ssp_hasher_thread pram0 tu).2.inserted = none ∧
      ∀ k, cell (ssp_hasher_thread pram0 tu).1.sorter.ssp_ht k = empty_cell := by
  have hins : (ssp_hasher_thread descending_pram
      (iterations ((system_update sha_stub test_pool ⟨0, []⟩ stopped_thread).getD stopped_thread)
        [descending_pram])).2.inserted = some ⟨5, 9⟩ := by decide
  obtain ⟨t1, tu, pram0, rest, h1, h2, h3, h4, h5, h6, h7, h8, h9, h10, h11, _⟩ :=
    job_update_atomicity stopped_thread [] sha_stub test_pool ⟨0, []⟩ [descending_pram]
      descending_pram _ ⟨5, 9⟩ (by decide) rfl hins
  cases h1
  exact ⟨hins, tu, pram0, rest, h2, h3, h4, h5, h6, h7, h8, h9, h10, h11⟩

/-! ### The nonce2 position -/

theorem blockn_mode (x : Nat) : (NEXT_ADDR x ||| 0x100000) &&& 0x100000 = 0x100000 := by
  apply Nat.eq_of_testBit_eq
  intro i
  simp only [Nat.testBit_and, Nat.testBit_lor, testBit_mid]
  by_cases hi : 20 = i
  · simp [hi]
  · simp [hi]

/-- C21 fails on the code when no full block follows the prehashed part.  The
nonce2 position is or-ed into the opcode only in the first pass of the
full-block loop (`if (!i)`, line 395); the trailing block of lines 404-417
never carries it.  So for every work template with
`0 <= nonce2_offset < coinbase_len` and `full_blocks = 0` the instruction at
index 1 is the trailing block: the low 8 bits of its opcode are 0 and the
continue-from-previous bit `0x00100000` is set.  With the first 110 bytes of
the canonical coinbase (`nonce2_offset` 97, `remainder` 46) instruction 1 has
opcode `0x100200` and holds coinbase byte 97 at payload offset 33, where the
position to announce is `63 - 33 = 30`. -/
theorem nonce2_position_unannounced :
    (∀ (sha : sha256_ops) (p : pool) (inst : ssp_hasher_instruction) (s : ssp_info),
      0 ≤ p.nonce2_offset → p.nonce2_offset < p.coinbase_len → full_blocks p = 0 →
      ∃ r, ssp_hasher_update_stratum sha p inst s = some r ∧
        (written_at r.2 1).opcode &&& 0xff = 0 ∧
        (written_at r.2 1).opcode &&& 0x00100000 = 0x00100000) ∧
    tail_pool.nonce2_offset = 97 ∧ tail_pool.coinbase_len = 110 ∧
    full_blocks tail_pool = 0 ∧ remainder tail_pool = 46 ∧
    63 - tail_pool.nonce2_offset.toNat % 64 = 30 ∧
    (ssp_hasher_update_stratum sha_stub tail_pool ⟨0, []⟩ ⟨fun _ => 0, false, false⟩).map
      (fun r => ((entry_at r.2 1).1, (written_at r.2 1).opcode,
        (written_at r.2 1).opcode &&& 0xff, (written_at r.2 1).opcode &&& 0x00100000)) =
      some (1, 0x100200, 0, 0x100000) ∧
    (ssp_hasher_update_stratum sha_stub tail_pool ⟨0, []⟩ ⟨fun _ => 0, false, false⟩).map
      (fun r => (written_at r.2 1).data.getD 33 0) = some (coinbase_byte tail_pool 97) := by
  refine ⟨fun sha p inst s h0 h1 hfb => ?_, by decide, by decide, by decide, by decide,
    by decide, by decide, by decide⟩
  rw [update_stratum_eq sha p inst s h0 (le_of_lt h1)]
  have hr : remainder p ≠ 0 := by
    unfold full_blocks at hfb
    unfold remainder
    have : prehash_len p < p.coinbase_len.toNat := by
      unfold prehash_len; omega
    omega
  obtain ⟨idx, hT⟩ := build_program_trailing sha p (prehash_len p) (full_blocks p) (remainder p)
    inst (ssp_hasher_stop s).iram h0 hr
  have h1f : 1 + full_blocks p = 1 := by omega
  rw [h1f] at hT
  refine ⟨_, rfl, ?_, ?_⟩
  · show (written_at (build_program sha p (prehash_len p) (full_blocks p) (remainder p) inst
      (ssp_hasher_stop s).iram).written 1).opcode &&& 0xff = 0
    rw [hT]
    show ((INST_DATA_IRAM ||| NEXT_ADDR (u32 (idx + 1))) ||| INST_MID_LASTHASH) &&& 0xff = 0
    unfold INST_DATA_IRAM INST_MID_LASTHASH
    rw [Nat.zero_or]
    exact blockn_low _
  · show (written_at (build_program sha p (prehash_len p) (full_blocks p) (remainder p) inst
      (ssp_hasher_stop s).iram).written 1).opcode &&& 0x00100000 = 0x00100000
    rw [hT]
    show ((INST_DATA_IRAM ||| NEXT_ADDR (u32 (idx + 1))) ||| INST_MID_LASTHASH) &&& 0x00100000
      = 0x00100000
    unfold INST_DATA_IRAM INST_MID_LASTHASH
    rw [Nat.zero_or]
    exact blockn_mode _

end SSPlus
